import Mathlib

/-!
# Verification of the Rusted-Workshop translation pipeline

A shallow embedding of the core of the Rusted-Workshop Translation API:

* `utils/language.py`  — language normalization and suffix-variant resolution;
* `core/translate.py`  — allow-listed key classification, localized-key
  splitting, the retrying batch translator `translate_tasks`, and the
  structure-preserving rewriter `translate_file_preserve_structure`;
* `workers/file_translation_worker.py` together with `utlis/ini_lib.py` —
  the file worker's configparser-based read/translate/save path;
* `services/task_manager.py` and `models/task.py` — the task state machine;
* `workers/coordinator_worker.py` — the coordinator handler and its fan-in
  loop, modelled as an effect trace.

Text is modelled as `List Char` (one entry per Unicode code point, which is
how Python indexes `str`).  Files are modelled at the line level: the list of
lines obtained from `str.splitlines()`; the rewriter joins them back with the
dominant line terminator, which does not affect any per-line property proved
here.  Python regular expressions used by the source are embedded by their
action on strings (documented at each definition).  Whitespace classes and
case folding are embedded for the ASCII range.
-/

/-- The characters Python treats as whitespace in `str.strip()` and `\s`
(ASCII range). -/
def isPySpace (c : Char) : Bool :=
  c = ' ' || c = '\t' || c = '\n' || c = '\r' || c = '\x0b' || c = '\x0c'

/-- Python `str.strip()`: drop leading and trailing whitespace. -/
def pyStrip (l : List Char) : List Char :=
  ((l.dropWhile isPySpace).reverse.dropWhile isPySpace).reverse

/-- Shorthand: the code points of a string literal. -/
def S (s : String) : List Char := s.data

/-- Python `str.startswith` on code-point lists. -/
def startsWithL : List Char → List Char → Bool
  | [], _ => true
  | _ :: _, [] => false
  | a :: ps, b :: ls => a = b && startsWithL ps ls

/-- Python `needle in haystack` (substring containment). -/
def containsL (p : List Char) : List Char → Bool
  | [] => startsWithL p []
  | c :: ls => startsWithL p (c :: ls) || containsL p ls

/-- Python `str.lower()` (ASCII range). -/
def lowerL (l : List Char) : List Char := l.map Char.toLower

/-- First-match association-list lookup. -/
def alookup {α β : Type} [DecidableEq α] (k : α) : List (α × β) → Option β
  | [] => none
  | (k', v) :: rest => if k = k' then some v else alookup k rest

/-- Python `s.count('\"\"\"')`: non-overlapping occurrences of three double
quotes, scanning left to right. -/
def countTriple : List Char → Nat
  | '"' :: '"' :: '"' :: rest => countTriple rest + 1
  | _ :: rest => countTriple rest
  | [] => 0

/-- Three consecutive double quotes occur somewhere. -/
def hasTriple : List Char → Bool
  | '"' :: '"' :: '"' :: _ => true
  | _ :: rest => hasTriple rest
  | [] => false

/-! ## `utils/language.py` -/

/-- `LANGUAGE_ALIASES` from `utils/language.py`. -/
def languageAliases : List (List Char × List Char) :=
  [ (S "zh", S "zh"), (S "zh-cn", S "zh"), (S "zh_cn", S "zh"),
    (S "zh-hans", S "zh"), (S "zh_hans", S "zh"), (S "chinese", S "zh"),
    (S "simplifiedchinese", S "zh"), (S "traditionalchinese", S "zh"),
    (S "cn", S "zh"), (S "中文", S "zh"), (S "汉语", S "zh"),
    (S "汉化", S "zh"), (S "简体中文", S "zh"), (S "繁体中文", S "zh"),
    (S "ru", S "ru"), (S "ru-ru", S "ru"), (S "ru_ru", S "ru"),
    (S "russian", S "ru"), (S "русский", S "ru"), (S "俄文", S "ru"),
    (S "俄语", S "ru"),
    (S "en", S "en"), (S "en-us", S "en"), (S "en_us", S "en"),
    (S "english", S "en"), (S "英文", S "en"), (S "英语", S "en"),
    (S "ja", S "ja"), (S "ja-jp", S "ja"), (S "ja_jp", S "ja"),
    (S "japanese", S "ja"), (S "日文", S "ja"), (S "日语", S "ja"),
    (S "ko", S "ko"), (S "ko-kr", S "ko"), (S "ko_kr", S "ko"),
    (S "korean", S "ko"), (S "韩文", S "ko"), (S "韩语", S "ko") ]

/-- `DEFAULT_PROMPT_LANGUAGE_BY_SUFFIX` from `utils/language.py`. -/
def defaultPromptBySuffix : List (List Char × List Char) :=
  [ (S "zh", S "中文"), (S "ru", S "俄文"), (S "en", S "英文"),
    (S "ja", S "日文"), (S "ko", S "韩文") ]

/-- `LANGUAGE_SUFFIX_VARIANTS` from `utils/language.py`. -/
def languageSuffixVariants : List (List Char × List (List Char)) :=
  [ (S "zh", [S "zh", S "zh_cn", S "cn"]),
    (S "ru", [S "ru", S "ru_ru"]),
    (S "en", [S "en", S "en_us"]),
    (S "ja", [S "ja", S "ja_jp"]),
    (S "ko", [S "ko", S "ko_kr"]) ]

/-- `_normalize_token`: `re.sub(r"\s+", "", text).lower()`. -/
def normalizeToken (l : List Char) : List Char :=
  lowerL (l.filter (fun c => !isPySpace c))

/-- ASCII letter or digit (the class `[a-z0-9]` under `re.IGNORECASE`). -/
def isAlnumA (c : Char) : Bool := c.isAlpha || c.isDigit

/-- Matcher for the group part `(?:[-_][a-z0-9]{2,8})*$` (case-insensitive)
of `LANGUAGE_TAG_REGEX` / `LANGUAGE_SUFFIX_REGEX`: a sequence of a separator
`-`/`_` followed by a maximal alphanumeric run of length 2 to 8.  Because a
fresh group must start with a separator, backtracking inside `{2,8}` can
never succeed when the maximal run falls outside 2..8, so matching maximal
runs is exact. -/
def tagGroupsOkGo : Nat → List Char → Bool
  | _, [] => true
  | 0, _ :: _ => false
  | fuel + 1, c :: rest =>
    (c = '-' || c = '_') &&
    (let run := rest.takeWhile isAlnumA
     decide (2 ≤ run.length) && decide (run.length ≤ 8) &&
       tagGroupsOkGo fuel (rest.drop run.length))

/-- Entry point of the group matcher; the fuel `l.length` always suffices
because each group consumes at least its separator. -/
def tagGroupsOk (l : List Char) : Bool := tagGroupsOkGo l.length l

/-- `LANGUAGE_TAG_REGEX.fullmatch` (`^[a-z]{2,3}(?:[-_][a-z0-9]{2,8})*$`,
case-insensitive), returning the lowered `primary` group.  The primary group
must consume the whole leading letter run: if that run is longer than 3 the
next required character of the remainder is a letter, never `-`/`_`, so
backtracking from `{2,3}` cannot succeed. -/
def languageTagPrimary (l : List Char) : Option (List Char) :=
  let letters := l.takeWhile Char.isAlpha
  if 2 ≤ letters.length ∧ letters.length ≤ 3 ∧ tagGroupsOk (l.drop letters.length)
  then some (lowerL letters) else none

/-- `LANGUAGE_SUFFIX_REGEX.fullmatch` from `core/translate.py` (the pattern
is identical to `LANGUAGE_TAG_REGEX`). -/
def languageSuffixFullmatch (l : List Char) : Bool :=
  (languageTagPrimary l).isSome

/-- `normalize_language_suffix` from `utils/language.py`. -/
def normalizeLanguageSuffix (language : List Char) (defaultSuffix : List Char) :
    List Char :=
  if language = [] then defaultSuffix
  else
    let token := normalizeToken (pyStrip language)
    if token = [] then defaultSuffix
    else
      match alookup token languageAliases with
      | some a => a
      | none =>
        if containsL (S "中文") language || containsL (S "汉化") language then S "zh"
        else if containsL (S "俄") language then S "ru"
        else
          match languageTagPrimary token with
          | some p => p
          | none => defaultSuffix

/-- `resolve_target_language`: the prompt language and the key-suffix code. -/
def resolveTargetLanguage (targetLanguage : List Char) : List Char × List Char :=
  let language := pyStrip targetLanguage
  let suffix := normalizeLanguageSuffix language (S "zh")
  let prompt :=
    if language ≠ [] then language
    else (alookup suffix defaultPromptBySuffix).getD (S "中文")
  (prompt, suffix)

/-- The ordered dedup loop at the end of `resolve_target_language_suffixes`. -/
def orderedDedup (seen : List (List Char)) : List (List Char) → List (List Char)
  | [] => []
  | v :: rest =>
    let n := lowerL (pyStrip v)
    if n = [] ∨ n ∈ seen then orderedDedup seen rest
    else n :: orderedDedup (n :: seen) rest

/-- `resolve_target_language_suffixes` from `utils/language.py`. -/
def resolveTargetLanguageSuffixes (targetLanguage : List Char) : List (List Char) :=
  let suffix := (resolveTargetLanguage targetLanguage).2
  let variants := (alookup suffix languageSuffixVariants).getD [suffix]
  orderedDedup [] variants

/-! ## Key classification (`core/translate.py`) -/

/-- The lowered literal alternatives of `BASE_TEXT_KEYS_REGEX`. -/
def textKeyLiterals : List (List Char) :=
  [ S "description", S "title", S "displaydescription", S "text",
    S "displaytext", S "islockedaltmessage", S "cannotplacemessage",
    S "displayname", S "displaynameshort", S "showmessagetoplayer",
    S "showmessagetoallplayers" ]

/-- The `action_\d+_(?:text|displayName)` alternative of
`BASE_TEXT_KEYS_REGEX` on an already-lowered key: `action_`, a nonempty
digit run, then exactly `_text` or `_displayname`.  The digit run is maximal
because both continuations start with `_`. -/
def actionFormOk (l : List Char) : Bool :=
  startsWithL (S "action_") l &&
  (let rest := l.drop 7
   let ds := rest.takeWhile Char.isDigit
   !ds.isEmpty &&
     (rest.drop ds.length == S "_text" || rest.drop ds.length == S "_displayname"))

/-- `is_text_key_valid`: full match of `BASE_TEXT_KEYS_REGEX`
(case-insensitive alternation of the literals and the indexed action form). -/
def isTextKeyValid (key : List Char) : Bool :=
  let l := lowerL key
  textKeyLiterals.contains l || actionFormOk l

/-- Python `key.split("_")`. -/
def splitU : List Char → List (List Char)
  | [] => [[]]
  | '_' :: rest => [] :: splitU rest
  | c :: rest =>
    match splitU rest with
    | [] => [[c]]
    | p :: ps => (c :: p) :: ps

/-- Python `"_".join(parts)`. -/
def joinU : List (List Char) → List Char
  | [] => []
  | [p] => p
  | p :: ps => p ++ '_' :: joinU ps

/-- `split_localized_text_key`: split `key` into a valid base key and a
language suffix, trying the smallest suffix part count first; the suffix is
returned lowered. -/
def splitLocalizedTextKey (key : List Char) : Option (List Char × List Char) :=
  let parts := splitU key
  if parts.length < 2 then none
  else
    (List.range' 1 (parts.length - 1)).findSome? fun cnt =>
      let base := joinU (parts.take (parts.length - cnt))
      let suffix := joinU (parts.drop (parts.length - cnt))
      if base ≠ [] ∧ suffix ≠ [] ∧ isTextKeyValid base ∧
          languageSuffixFullmatch suffix
      then some (base, lowerL suffix) else none

/-- `_sanitize_single_line_value`:
`value.replace("\r\n", "\n").replace("\r", "\n").replace("\n", "\\n")`. -/
def replCRLF : List Char → List Char
  | '\r' :: '\n' :: rest => '\n' :: replCRLF rest
  | c :: rest => c :: replCRLF rest
  | [] => []

/-- Second pass of `_sanitize_single_line_value`: `replace("\r", "\n")`. -/
def replCR (l : List Char) : List Char :=
  l.map fun c => if c = '\r' then '\n' else c

/-- Third pass of `_sanitize_single_line_value`: `replace("\n", "\\n")`. -/
def replLF : List Char → List Char
  | '\n' :: rest => '\\' :: 'n' :: replLF rest
  | c :: rest => c :: replLF rest
  | [] => []

/-- `_sanitize_single_line_value` from `core/translate.py`. -/
def sanitizeSingleLineValue (l : List Char) : List Char :=
  replLF (replCR (replCRLF l))

/-! ## The structure-preserving rewriter (`translate_file_preserve_structure`)

The rewriter is embedded at the line level: the input is the list of lines
produced by `content.splitlines()`, the output is the `output_lines` list the
Python code joins with the dominant line terminator.  The translator call is
a parameter `m : List Char → Option (List Char)` standing for the mapping
returned by `translate_tasks` (`translations.get`); the code falls back to
the source text when a key is missing, which the embedding reproduces. -/

/-- The split of a line at its first `:` or `=`: characters before, the
delimiter, characters after.  This is where `LINE_KV_REGEX` commits, since
`key` is `[^:=\n]+?` (lazy) and `sep` is `[:=]`. -/
def splitAtDelim : List Char → Option (List Char × Char × List Char)
  | [] => none
  | c :: rest =>
    if c = ':' || c = '=' then some ([], c, rest)
    else
      match splitAtDelim rest with
      | none => none
      | some (p, s, r) => some (c :: p, s, r)

/-- The groups of `LINE_KV_REGEX`
`^(?P<indent>\s*)(?P<key>[^:=\n]+?)(?P<pre>\s*)(?P<sep>[:=])(?P<post>\s*)(?P<value>.*)$`.
`keyRaw` is the raw `key` group (the code stores `key.strip()`). -/
structure KVGroups where
  ind : List Char
  keyRaw : List Char
  pre : List Char
  sep : Char
  post : List Char
  val : List Char
deriving DecidableEq, Repr

/-- `LINE_KV_REGEX.match`.  With `indent` greedy, `key` lazy and nonempty,
and `pre` greedy, the match resolves as follows: the delimiter is the first
`:`/`=` of the line; writing `p` for the text before it, if `p` is empty
there is no match; if `p` is all whitespace, `indent` backtracks one
character and `key` is that single whitespace character; otherwise `indent`
is the maximal whitespace run at the start of `p`, `pre` the maximal
whitespace run at its end, and `key` what lies between.  `post` is the
maximal whitespace run after the delimiter and `value` the rest. -/
def matchKV (l : List Char) : Option KVGroups :=
  match splitAtDelim l with
  | none => none
  | some (p, sepc, after) =>
    if p = [] then none
    else
      let post := after.takeWhile isPySpace
      let v := after.drop post.length
      let ws := p.takeWhile isPySpace
      if ws.length = p.length then
        some ⟨p.take (p.length - 1), p.drop (p.length - 1), [], sepc, post, v⟩
      else
        let mid := p.drop ws.length
        let preLen := (mid.reverse.takeWhile isPySpace).length
        some ⟨ws, mid.take (mid.length - preLen), mid.drop (mid.length - preLen),
              sepc, post, v⟩

/-- One entry of `parsed_lines`: either a verbatim line (`{"kind": "raw"}`)
or a key/value line with its section and regex groups (`key` already
stripped, as in the source). -/
inductive PLine where
  | raw (line : List Char)
  | kv (line : List Char) (sect : List Char) (ind : List Char) (key : List Char)
       (pre : List Char) (sep : Char) (post : List Char) (val : List Char)
deriving DecidableEq, Repr

/-- The output line an entry stands for. -/
def PLine.lineOf : PLine → List Char
  | .raw l => l
  | .kv l _ _ _ _ _ _ _ => l

/-- Blank line or `#`/`;` comment (tested on the stripped line). -/
def isCommentOrBlank (stripped : List Char) : Bool :=
  match stripped with
  | [] => true
  | c :: _ => c = '#' || c = ';'

/-- `stripped.startswith("[") and stripped.endswith("]")`. -/
def isSectionHeader (stripped : List Char) : Bool :=
  match stripped with
  | [] => false
  | c :: rest => c = '[' && rest.getLast? = some ']'

/-- `stripped[1:-1].strip()`: the section name of a header line. -/
def sectionName (stripped : List Char) : List Char :=
  pyStrip ((stripped.drop 1).dropLast)

/-- Classification of a single line outside a `"""`-block, given the current
section, mirroring the branch order of the parse loop: blank/comment, then
section header, then `LINE_KV_REGEX`, else raw. -/
def parseLineStep (sect : List Char) (l : List Char) : PLine :=
  let stripped := pyStrip l
  if isCommentOrBlank stripped then .raw l
  else if isSectionHeader stripped then .raw l
  else
    match matchKV l with
    | none => .raw l
    | some g => .kv l sect g.ind (pyStrip g.keyRaw) g.pre g.sep g.post g.val

/-- The section in force after a line outside a `"""`-block. -/
def nextSect (sect : List Char) (l : List Char) : List Char :=
  let stripped := pyStrip l
  if isCommentOrBlank stripped then sect
  else if isSectionHeader stripped then sectionName stripped
  else sect

/-- Whether a line outside a `"""`-block opens one: it parses as a KV line
whose value contains an odd number of `"""` occurrences. -/
def opensBlock (sect : List Char) (l : List Char) : Bool :=
  match parseLineStep sect l with
  | .kv _ _ _ _ _ _ _ v => countTriple v % 2 = 1
  | .raw _ => false

/-- The parse loop of `translate_file_preserve_structure`: walk the lines
tracking the current section and whether a `"""`-block is open.  Inside a
block every line is raw and an odd `"""` count closes the block. -/
def parseAux (sect : List Char) (inBlock : Bool) : List (List Char) → List PLine
  | [] => []
  | l :: rest =>
    if inBlock then
      .raw l :: parseAux sect (decide (countTriple l % 2 ≠ 1)) rest
    else
      parseLineStep sect l :: parseAux (nextSect sect l) (opensBlock sect l) rest

/-- A `(section, base_key)` pair. -/
abbrev SPair : Type := List Char × List Char

/-- One step of the `localized_values` accumulation: for a localized KV line
with a nonempty stripped value, `setdefault` the pair to that value. -/
def lvStep (acc : List (SPair × List Char)) (item : PLine) : List (SPair × List Char) :=
  match item with
  | .raw _ => acc
  | .kv _ sect _ key _ _ _ v =>
    match splitLocalizedTextKey key with
    | none => acc
    | some (b, _) =>
      let w := pyStrip v
      if w = [] then acc
      else if (alookup ((sect, b) : SPair) acc).isSome then acc
      else ((sect, b), w) :: acc

/-- `localized_values`: first nonempty localized value per pair. -/
def lvFold (items : List PLine) : List (SPair × List Char) :=
  items.foldl lvStep []

/-- One step of the `existing_suffixes_by_pair` accumulation. -/
def esStep (acc : List (SPair × List Char)) (item : PLine) : List (SPair × List Char) :=
  match item with
  | .raw _ => acc
  | .kv _ sect _ key _ _ _ _ =>
    match splitLocalizedTextKey key with
    | none => acc
    | some (b, suf) => ((sect, b), suf) :: acc

/-- `existing_suffixes_by_pair`, flattened to a membership list. -/
def esFold (items : List PLine) : List (SPair × List Char) :=
  items.foldl esStep []

/-- The `source_text` of a base KV line: its own stripped value if nonempty,
else the first nonempty localized value of the pair (empty if none). -/
def sourceTextOf (lv : List (SPair × List Char)) (sect key v : List Char) : List Char :=
  let s := pyStrip v
  if s ≠ [] then s else (alookup ((sect, key) : SPair) lv).getD []

/-- One step of the `translated_by_pair` accumulation: for a base text KV
line with a nonempty source, assign (last wins) the sanitized
`translations.get(source, source)`. -/
def tbpStep (m : List Char → Option (List Char)) (lv : List (SPair × List Char))
    (acc : List (SPair × List Char)) (item : PLine) : List (SPair × List Char) :=
  match item with
  | .raw _ => acc
  | .kv _ sect _ key _ _ _ v =>
    if isTextKeyValid key then
      let src := sourceTextOf lv sect key v
      if src = [] then acc
      else ((sect, key), sanitizeSingleLineValue ((m src).getD src)) :: acc
    else acc

/-- `translated_by_pair` (lookup finds the most recent entry, so assignment
is last-wins as in Python). -/
def tbpFold (m : List Char → Option (List Char)) (lv : List (SPair × List Char))
    (items : List PLine) : List (SPair × List Char) :=
  items.foldl (tbpStep m lv) []

/-- The line inserted for suffix `suf`:
`f"{indent}{key}_{suf}{pre}{sep}{post}{translated_value}"`. -/
def insLineOf (ind key pre : List Char) (sep : Char) (post tv suf : List Char) :
    List Char :=
  ind ++ (key ++ '_' :: suf) ++ pre ++ sep :: post ++ tv

/-- The inner `for suffix in target_suffixes` insertion loop of the emit
phase: skip suffixes already present in the section or already inserted for
this pair; otherwise emit the localized line and record it. -/
def insertLoop (es : List (SPair × List Char)) (p : SPair)
    (sect ind key pre : List Char) (sep : Char) (post tv : List Char)
    (inserted : List (SPair × List Char)) :
    List (List Char) → List PLine × List (SPair × List Char)
  | [] => ([], inserted)
  | suf :: sufs =>
    if (p, suf) ∈ es then
      insertLoop es p sect ind key pre sep post tv inserted sufs
    else if (p, suf) ∈ inserted then
      insertLoop es p sect ind key pre sep post tv inserted sufs
    else
      let item := PLine.kv (insLineOf ind key pre sep post tv suf) sect ind
        (key ++ '_' :: suf) pre sep post tv
      let (restItems, inserted') :=
        insertLoop es p sect ind key pre sep post tv ((p, suf) :: inserted) sufs
      (item :: restItems, inserted')

/-- One iteration of the emit loop: the output chunk appended for one
parsed entry and the updated inserted-set.  Raw entries are echoed; a
localized entry whose suffix normalizes to the target suffix and whose pair
has a nonempty translation is rewritten to carry the translated value; a
base text entry is echoed and followed by the inserted localized lines. -/
def emitStep (tbp es : List (SPair × List Char)) (tgtSfx : List Char)
    (tgtSfxs : List (List Char)) (inserted : List (SPair × List Char)) :
    PLine → List PLine × List (SPair × List Char)
  | .raw l => ([.raw l], inserted)
  | .kv l sect ind key pre sep post v =>
    match splitLocalizedTextKey key with
    | some (b, suf) =>
      let chunk :=
        if normalizeLanguageSuffix suf suf = tgtSfx then
          match alookup ((sect, b) : SPair) tbp with
          | some tv =>
            if tv = [] then [PLine.kv l sect ind key pre sep post v]
            else [PLine.kv (ind ++ key ++ pre ++ sep :: post ++ tv) sect ind key
                    pre sep post tv]
          | none => [PLine.kv l sect ind key pre sep post v]
        else [PLine.kv l sect ind key pre sep post v]
      (chunk, inserted)
    | none =>
      if isTextKeyValid key then
        match alookup ((sect, key) : SPair) tbp with
        | some tv =>
          if tv = [] then ([PLine.kv l sect ind key pre sep post v], inserted)
          else
            let (insItems, inserted') :=
              insertLoop es (sect, key) sect ind key pre sep post tv inserted tgtSfxs
            (PLine.kv l sect ind key pre sep post v :: insItems, inserted')
        | none => ([PLine.kv l sect ind key pre sep post v], inserted)
      else ([PLine.kv l sect ind key pre sep post v], inserted)

/-- The emit loop: one output chunk per parsed entry, threading the
inserted-set (the Python code appends the lines of each chunk to
`output_lines` in order). -/
def emitGo (tbp es : List (SPair × List Char)) (tgtSfx : List Char)
    (tgtSfxs : List (List Char)) (inserted : List (SPair × List Char)) :
    List PLine → List (List PLine)
  | [] => []
  | item :: rest =>
    let (chunk, inserted') := emitStep tbp es tgtSfx tgtSfxs inserted item
    chunk :: emitGo tbp es tgtSfx tgtSfxs inserted' rest

/-- The parsed entries of a file. -/
def parsedOf (lines : List (List Char)) : List PLine :=
  parseAux [] false lines

/-- The output chunks of `translate_file_preserve_structure` for a file,
a translation mapping and a target language. -/
def processChunks (lines : List (List Char)) (m : List Char → Option (List Char))
    (targetLanguage : List Char) : List (List PLine) :=
  let tgtSfx := (resolveTargetLanguage targetLanguage).2
  let tgtSfxs := resolveTargetLanguageSuffixes targetLanguage
  let items := parsedOf lines
  let lv := lvFold items
  emitGo (tbpFold m lv items) (esFold items) tgtSfx tgtSfxs [] items

/-- `translate_file_preserve_structure` at the line level: the
`output_lines` list written back to the file (joined with the dominant line
terminator by the caller). -/
def translateFilePreserveStructure (lines : List (List Char))
    (m : List Char → Option (List Char)) (targetLanguage : List Char) :
    List (List Char) :=
  ((processChunks lines m targetLanguage).flatten).map PLine.lineOf

/-! ## The file worker's read/translate/save path

`FileTranslationWorker._translate_file` does not use the structure-preserving
rewriter: it loads the file through `utlis/ini_lib.IniFile` (a
`configparser.RawConfigParser(strict=False)` read), translates the parsed
dictionary with `translate_inifile`, and writes it back with
`FileTranslationWorker._save_inifile`.  The configparser read is external
library behaviour; it is embedded here for the fragment of inputs the
claims exercise — unindented section headers, unindented `key:value` /
`key=value` option lines (keys lowercased and stripped, values stripped,
first `:`/`=` wins, later duplicates win), and blank lines — and returns
`none` on anything else (continuation lines, comments, text before the
first header), where the real parser would use continuation/comment rules
or raise. -/

/-- Parsed INI data: ordered sections, each an ordered key/value list. -/
abbrev IniData : Type := List (List Char × List (List Char × List Char))

/-- Replace-in-place-or-append assignment on an ordered key/value list
(Python `dict` assignment order semantics). -/
def assocSetEnd {α β : Type} [DecidableEq α] (k : α) (v : β) :
    List (α × β) → List (α × β)
  | [] => [(k, v)]
  | (k', v') :: rest =>
    if k = k' then (k, v) :: rest else (k', v') :: assocSetEnd k v rest

/-- Add a section if absent (`strict=False` merges duplicates). -/
def cpAddSection (d : IniData) (name : List Char) : IniData :=
  if (alookup name d).isSome then d else d ++ [(name, [])]

/-- Set a key in a named section. -/
def cpSetKV (d : IniData) (sname key v : List Char) : IniData :=
  d.map fun (s, kvs) => if s = sname then (s, assocSetEnd key v kvs) else (s, kvs)

/-- A supported section-header line: `[name]` with a nonempty name free of
`]`. -/
def cpHeaderName (stripped : List Char) : Option (List Char) :=
  match stripped with
  | '[' :: rest =>
    let name := rest.takeWhile (fun c => !(c = ']'))
    if rest = name ++ [']'] ∧ name ≠ [] then some name else none
  | _ => none

/-- `configparser.RawConfigParser(strict=False).read_string` on the
supported fragment (see the section comment); `none` outside it. -/
def pyConfigParse (lines : List (List Char)) : Option IniData :=
  go [] none lines
where
  go (d : IniData) (cur : Option (List Char)) :
      List (List Char) → Option IniData
  | [] => some d
  | l :: rest =>
    let stripped := pyStrip l
    if stripped = [] then go d cur rest
    else if l.takeWhile isPySpace ≠ [] then none
    else
      match cpHeaderName stripped with
      | some name => go (cpAddSection d name) (some name) rest
      | none =>
        match splitAtDelim stripped with
        | none => none
        | some (p, _, after) =>
          let key := lowerL (pyStrip p)
          if key = [] then none
          else
            match cur with
            | none => none
            | some sname => go (cpSetKV d sname key (pyStrip after)) cur rest

/-- Python `value.replace("\\n", "\n")` (the `IniFile` constructor's
post-processing of every value). -/
def replBSn : List Char → List Char
  | '\\' :: 'n' :: rest => '\n' :: replBSn rest
  | c :: rest => c :: replBSn rest
  | [] => []

/-- The `IniFile` constructor's value post-processing. -/
def iniFileLoad (d : IniData) : IniData :=
  d.map fun (s, kvs) => (s, kvs.map fun (k, v) => (k, replBSn v))

/-- `translate_inifile` from `core/translate.py`: collect localized fallback
values, collect `(section, key, source_text)` triples for valid base keys,
and — when the batch is nonempty — write `translations.get(source)` under
every target suffix key.  `m` stands for the mapping returned by
`translate_tasks`. -/
def translateInifile (d : IniData) (m : List Char → Option (List Char))
    (targetLanguage : List Char) : IniData :=
  let tgtSfxs := resolveTargetLanguageSuffixes targetLanguage
  let lv := d.foldl (fun acc (skvs : List Char × List (List Char × List Char)) =>
    skvs.2.foldl (fun acc (kv : List Char × List Char) =>
      match splitLocalizedTextKey kv.1 with
      | none => acc
      | some (b, _) =>
        let w := pyStrip kv.2
        if w = [] then acc
        else if (alookup ((skvs.1, b) : SPair) acc).isSome then acc
        else ((skvs.1, b), w) :: acc) acc) ([] : List (SPair × List Char))
  let textKeys := d.flatMap fun (skvs : List Char × List (List Char × List Char)) =>
    skvs.2.filterMap fun (kv : List Char × List Char) =>
      if isTextKeyValid kv.1 then
        let src := sourceTextOf lv skvs.1 kv.1 kv.2
        if src = [] then none else some (skvs.1, kv.1, src)
      else none
  if textKeys = [] then d
  else
    textKeys.foldl (fun d (tk : List Char × List Char × List Char) =>
      match m tk.2.2 with
      | none => d
      | some t => tgtSfxs.foldl (fun d suf => cpSetKV d tk.1 (tk.2.1 ++ '_' :: suf) t) d) d

/-- `FileTranslationWorker._escape_ini_value`, per character. -/
def escChar (c : Char) : List Char :=
  if c = '\n' then S "\\n" else if c = '\t' then S "\\t"
  else if c = '\r' then S "\\r" else if c = '\\' then S "\\\\"
  else if c = '"' then S "\\\"" else if c = ':' then S "\\:"
  else if c = '[' then S "\\[" else if c = ']' then S "\\]"
  else if c = '#' then S "\\#" else if c = ';' then S "\\;" else [c]

/-- `FileTranslationWorker._escape_ini_value`. -/
def escapeIniValue (v : List Char) : List Char :=
  (v.map escChar).flatten

/-- `FileTranslationWorker._save_inifile` as the list of lines it writes:
`[section]`, then `key:value` with the escaped value and no spaces around
`:`, then a blank line, for every section in order. -/
def saveInifileLines (d : IniData) : List (List Char) :=
  (d.map fun (s, kvs) =>
    ('[' :: s ++ [']']) ::
      kvs.map (fun (kv : List Char × List Char) => kv.1 ++ ':' :: escapeIniValue kv.2)
      ++ [([] : List Char)]).flatten

/-- The whole file-worker path for one file: configparser read, `IniFile`
value post-processing, `translate_inifile`, `_save_inifile`; `none` when the
input is outside the embedded configparser fragment. -/
def workerFileOutput (lines : List (List Char)) (m : List Char → Option (List Char))
    (targetLanguage : List Char) : Option (List (List Char)) :=
  (pyConfigParse lines).map fun d =>
    saveInifileLines (translateInifile (iniFileLoad d) m targetLanguage)

/-! ## `translate_tasks` (the retrying batch translator) -/

/-- The raw outcome of one API attempt: a transport/API exception, or a
response whose content is `None` or a string. -/
inductive AttemptOutcome where
  | raiseErr (msg : String)
  | content (body : Option (List Char))

/-- The result of Python `json.loads` on a candidate payload, reduced to
what `_extract_json_array` inspects: a list (items already passed through
`str`), some other JSON value, or a parse error. -/
inductive PyJson where
  | arr (items : List (List Char))
  | nonArray

/-- Environment of `translate_tasks`: whether `AI_API_KEY` is set, the raw
outcome of each attempt, and the external `json.loads`. -/
structure TranslatorEnv where
  hasKey : Bool
  attempt : Nat → AttemptOutcome
  jsonLoads : List Char → Except String PyJson

/-- Python `content.find("\n")` followed by `content[first_newline + 1:]`
(unchanged when there is no newline). -/
def dropAfterFirstNl : List Char → Option (List Char)
  | [] => none
  | '\n' :: r => some r
  | _ :: r => dropAfterFirstNl r

/-- Python `str.endswith`. -/
def endsWithL (p l : List Char) : Bool :=
  startsWithL p.reverse l.reverse

/-- `_extract_json_array`: strip a leading fenced code block, `json.loads`,
require a list. -/
def extractJsonArray (jsonLoads : List Char → Except String PyJson)
    (text : List Char) : Except String (List (List Char)) :=
  let content := pyStrip text
  let content :=
    if startsWithL (S "```") content then
      let c1 := (dropAfterFirstNl content).getD content
      let c2 := if endsWithL (S "```") c1 then c1.dropLast.dropLast.dropLast else c1
      pyStrip c2
    else content
  match jsonLoads content with
  | .error e => .error e
  | .ok (.arr items) => .ok items
  | .ok .nonArray => .error "Expected list"

/-- One iteration of the retry loop body of `translate_tasks`: everything
inside the `try` — the API call, the content-empty check,
`_extract_json_array`, and the length check. -/
def runAttempt (env : TranslatorEnv) (nTexts : Nat) (k : Nat) :
    Except String (List (List Char)) :=
  match env.attempt k with
  | .raiseErr e => .error e
  | .content b =>
    let msg := b.getD []
    if msg = [] then .error "Empty translation response content"
    else
      match extractJsonArray env.jsonLoads msg with
      | .error e => .error e
      | .ok ts =>
        if ts.length = nTexts then .ok ts else .error "Translation count mismatch"

/-- Observable result of `translate_tasks`: the returned source→translation
mapping, the sleeps performed between attempts, and how many attempts were
made.  The function never raises: after the budget is exhausted it falls
through to the identity mapping. -/
structure TransResult where
  mapping : List (List Char × List Char)
  sleeps : List ℚ
  attemptsMade : Nat
deriving DecidableEq, Repr

/-- The `for attempt in range(max_retries)` loop of `translate_tasks`,
recursing on the number of attempts left (`max_retries - attempt`), with `k`
the 0-based attempt index: success returns the zipped mapping; failure
sleeps `retry_delay` (constant) unless this was the last attempt;
exhaustion falls through to the identity mapping. -/
def ttAux (env : TranslatorEnv) (texts : List (List Char)) (delay : ℚ)
    (k : Nat) : Nat → TransResult
  | 0 => ⟨texts.map (fun t => (t, t)), [], k⟩
  | left + 1 =>
    match runAttempt env texts.length k with
    | .ok ts => ⟨texts.zip ts, [], k + 1⟩
    | .error _ =>
      if left = 0 then ⟨texts.map (fun t => (t, t)), [], k + 1⟩
      else
        let r := ttAux env texts delay (k + 1) left
        ⟨r.mapping, delay :: r.sleeps, r.attemptsMade⟩

/-- `translate_tasks` from `core/translate.py`: empty batch short-circuits;
no API key returns the identity mapping without any attempt; otherwise the
retry loop runs. -/
def translateTasks (env : TranslatorEnv) (texts : List (List Char))
    (maxRetries : Nat) (delay : ℚ) : TransResult :=
  if texts = [] then ⟨[], [], 0⟩
  else if env.hasKey then ttAux env texts delay 0 maxRetries
  else ⟨texts.map (fun t => (t, t)), [], 0⟩

/-! ## The task state machine (`services/task_manager.py`)

`models/task.py` defines `TaskStatus` with members `PENDING, DOWNLOADING,
EXTRACTING, ANALYZING, TRANSLATING, MERGING, UPLOADING, COMPLETED, FAILED`
— it has **no** `PREPARING` or `FINALIZING` member, although
`services/task_manager.py` (the transition table) and
`workers/coordinator_worker.py` reference `TaskStatus.PREPARING` and
`TaskStatus.FINALIZING`; evaluating either reference raises
`AttributeError` when the module is imported.  The state machine below is
therefore partly modelled from the spec. -/

/-- The `value`s of the `TaskStatus` enum actually defined in
`models/task.py`. -/
def legacyTaskStatusValues : List String :=
  ["pending", "downloading", "extracting", "analyzing", "translating",
   "merging", "uploading", "completed", "failed"]

/-- Modelled from the spec: the task states of §4.8 — the set assumed by
`services/task_manager.py` and `workers/coordinator_worker.py`, whose
`PREPARING`/`FINALIZING` members are missing from the `TaskStatus` enum in
`models/task.py`. -/
inductive TaskStatus where
  | pending | preparing | translating | finalizing | completed | failed
deriving DecidableEq, Repr, Fintype

/-- `ALLOWED_STATUS_TRANSITIONS` as written in `services/task_manager.py`. -/
def allowedStatusTransitions : TaskStatus → List TaskStatus
  | .pending => [.preparing, .failed]
  | .preparing => [.translating, .failed]
  | .translating => [.finalizing, .failed]
  | .finalizing => [.completed, .failed]
  | .failed => [.pending]
  | .completed => []

/-- `TaskManager._validate_transition`: a self-transition is accepted,
otherwise the target must be in the allowed set (else
`InvalidTaskStateTransition` is raised). -/
def validateTransition (c t : TaskStatus) : Bool :=
  if c = t then true else (allowedStatusTransitions c).contains t

/-- The mutable columns of a task row that `update_task` touches. -/
structure TaskRow where
  status : TaskStatus
  progress : ℚ
  totalFiles : Nat
  processedFiles : Nat
  errorMessage : Option String
  completedAt : Option Nat
deriving DecidableEq, Repr

/-- `TaskManager.update_task` on a locked row: resolve the next status
(`status or current_status`), validate the transition — on failure the
transaction aborts and the row is returned unchanged together with the
error — otherwise write the provided fields and set `completed_at` iff the
new status is terminal (keeping an existing timestamp).  `errorMessage`
distinguishes "not passed" (`none`, the `_UNSET` sentinel) from an explicit
value. -/
def updateTaskRow (row : TaskRow) (status : Option TaskStatus)
    (progress : Option ℚ) (totalFiles : Option Nat)
    (processedFiles : Option Nat) (errorMessage : Option (Option String))
    (now : Nat) : TaskRow × Option String :=
  let nextStatus := status.getD row.status
  if validateTransition row.status nextStatus then
    ({ status := nextStatus
       progress := progress.getD row.progress
       totalFiles := totalFiles.getD row.totalFiles
       processedFiles := processedFiles.getD row.processedFiles
       errorMessage := errorMessage.getD row.errorMessage
       completedAt :=
         if nextStatus = .completed ∨ nextStatus = .failed then
           match row.completedAt with
           | some t => some t
           | none => some now
         else none }, none)
  else (row, some "InvalidTaskStateTransition")

/-! ## The coordinator (`workers/coordinator_worker.py`)

The handler is modelled as the trace of externally visible effects it
performs, in order: task-row updates, file-unit publications, blob
download/upload, and the final ack or nack of the task message.  Blob I/O,
archive extraction and style analysis are oracles (`Except` parameters)
since they are external collaborators. -/

/-- An externally visible effect of the coordinator handler. -/
inductive CoordEffect where
  | upd (status : Option TaskStatus) (progress : Option ℚ)
        (totalFiles : Option Nat) (processedFiles : Option Nat)
        (errorMessage : Option String)
  | publishFile (idx : Nat)
  | downloadBlob
  | uploadBlob
  | ackMessage
  | nackNoRequeue
deriving DecidableEq, Repr

/-- Environment of one `translation_tasks` message delivery: the current
task row status (`none` = no row), the outcomes of the external calls, the
number of translatable files, and the registry snapshot read at each poll
of the fan-in loop (one `Option` status string per file). -/
structure CoordEnv where
  taskStatus : Option TaskStatus
  download : Except String Unit
  extractArchive : Except String Unit
  analyzeMod : Except String Unit
  numFiles : Nat
  polls : List (List (Option String))
  pack : Except String Unit
  upload : Except String Unit

/-- Files counted `COMPLETED` in a registry snapshot. -/
def pollCompleted (snap : List (Option String)) : Nat :=
  snap.countP (· == some "completed")

/-- Files counted `FAILED` in a registry snapshot. -/
def pollFailed (snap : List (Option String)) : Nat :=
  snap.countP (· == some "failed")

/-- How the fan-in loop ends: all files terminal with no failure, a raise
because some file failed, or the modelled poll trace ran out while the
Python loop would still be polling. -/
inductive FanInResult where
  | allDone
  | failRaise (msg : String)
  | starved
deriving DecidableEq, Repr

/-- The error summary `f"有 {failed_count} 个文件翻译失败"`. -/
def failMsgOf (n : Nat) : String := "有 " ++ toString n ++ " 个文件翻译失败"

/-- The `while True` fan-in loop of `_wait_for_file_tasks` (entered only
when `total > 0`): each iteration counts completed and failed files, writes
`progress = 20 + 70·completed/total` and `processed_files = completed`, and
exits when `completed + failed >= total` — raising after a `FAILED` status
write when any file failed. -/
def fanInLoop (total : Nat) :
    List (List (Option String)) → List CoordEffect × FanInResult
  | [] => ([], .starved)
  | snap :: rest =>
    let c := pollCompleted snap
    let f := pollFailed snap
    let eff := CoordEffect.upd none (some (20 + 70 * (c : ℚ) / (total : ℚ)))
      none (some c) none
    if total ≤ c + f then
      if 0 < f then
        ([eff, CoordEffect.upd (some .failed) none none none (some (failMsgOf f))],
         .failRaise (failMsgOf f))
      else ([eff], .allDone)
    else
      let (effs, r) := fanInLoop total rest
      (eff :: effs, r)

/-- `_wait_for_file_tasks`: with no expected files, write `progress = 90`,
`processed_files = 0` and return before the loop (so the `completed/total`
division is never reached); otherwise run the fan-in loop. -/
def waitForFileTasks (total : Nat) (polls : List (List (Option String))) :
    List CoordEffect × FanInResult :=
  if total = 0 then
    ([CoordEffect.upd none (some 90) none (some 0) none], .allDone)
  else fanInLoop total polls

/-- How one delivery ends: handler returned, handler raised (message will
be nacked), or the modelled poll trace was exhausted mid-loop. -/
inductive HandlerOutcome where
  | finished
  | raised (msg : String)
  | starved
deriving DecidableEq, Repr

/-- `_process_coordination_task_async`: the dedup guard (missing row raises;
terminal or non-`PENDING` rows return silently), then the
download → extract → analyze → fan-out → fan-in → pack → upload → complete
sequence, each external failure writing a `FAILED` row and re-raising. -/
def coordinationTask (env : CoordEnv) : List CoordEffect × HandlerOutcome :=
  match env.taskStatus with
  | none => ([], .raised "任务不存在")
  | some st =>
    if st = .completed ∨ st = .failed then ([], .finished)
    else if st ≠ .pending then ([], .finished)
    else
      let e1 := CoordEffect.upd (some .preparing) (some 5) none none none
      match env.download with
      | .error e =>
        ([e1, .downloadBlob,
          .upd (some .failed) none none none (some ("下载文件失败: " ++ e))], .raised e)
      | .ok _ =>
        let e2 := CoordEffect.upd (some .preparing) (some 10) none none none
        match env.extractArchive with
        | .error e =>
          ([e1, .downloadBlob, e2,
            .upd (some .failed) none none none (some ("解压文件失败: " ++ e))], .raised e)
        | .ok _ =>
          let e3 := CoordEffect.upd (some .preparing) (some 15) none none none
          match env.analyzeMod with
          | .error e =>
            ([e1, .downloadBlob, e2, e3,
              .upd (some .failed) none none none (some ("分析模组失败: " ++ e))],
             .raised e)
          | .ok _ =>
            let e4 := CoordEffect.upd (some .translating) (some 20)
              (some env.numFiles) none none
            let pubs := (List.range env.numFiles).map CoordEffect.publishFile
            let hd := [e1, .downloadBlob, e2, e3, e4] ++ pubs
            let (fanEffs, fr) := waitForFileTasks env.numFiles env.polls
            match fr with
            | .starved => (hd ++ fanEffs, .starved)
            | .failRaise msg => (hd ++ fanEffs, .raised msg)
            | .allDone =>
              let e5 := CoordEffect.upd (some .finalizing) (some 90) none none none
              match env.pack with
              | .error e =>
                (hd ++ fanEffs ++
                  [e5, .upd (some .failed) none none none (some ("打包文件失败: " ++ e))],
                 .raised e)
              | .ok _ =>
                let e6 := CoordEffect.upd (some .finalizing) (some 95) none none none
                match env.upload with
                | .error e =>
                  (hd ++ fanEffs ++
                    [e5, e6, .uploadBlob,
                     .upd (some .failed) none none none (some ("上传到S3失败: " ++ e))],
                   .raised e)
                | .ok _ =>
                  (hd ++ fanEffs ++
                    [e5, e6, .uploadBlob,
                     .upd (some .completed) (some 100) none none none], .finished)

/-- `CoordinatorWorker.process_message`: run the coordination task; on
normal return ack the message; on an exception nack without requeue, then
attempt a `FAILED` status update carrying `str(e)`. -/
def processMessage (env : CoordEnv) : List CoordEffect :=
  match coordinationTask env with
  | (effs, .finished) => effs ++ [.ackMessage]
  | (effs, .raised msg) =>
    effs ++ [.nackNoRequeue, .upd (some .failed) none none none (some msg)]
  | (effs, .starved) => effs

/-- Fold a handler's `upd` effects into a task row through
`update_task` (non-`upd` effects leave the row unchanged). -/
def applyEffect (now : Nat) (row : TaskRow) (e : CoordEffect) : TaskRow :=
  match e with
  | .upd st pr tf pf em => (updateTaskRow row st pr tf pf (em.map some) now).1
  | _ => row

/-- The task row after a handler trace. -/
def applyEffects (row : TaskRow) (effs : List CoordEffect) (now : Nat) : TaskRow :=
  effs.foldl (applyEffect now) row

/-! ## Inputs and auxiliary state functions used by the theorems -/

/-- The transition set asserted by the claim (and by §4.8 of the spec). -/
def claimedTransitions : List (TaskStatus × TaskStatus) :=
  [ (.pending, .preparing), (.pending, .failed),
    (.preparing, .translating), (.preparing, .failed),
    (.translating, .finalizing), (.translating, .failed),
    (.finalizing, .completed), (.finalizing, .failed),
    (.failed, .pending) ]

/-- The inserted-set after the emit loop has processed a list of entries. -/
def emitInsState (tbp es : List (SPair × List Char)) (tgtSfx : List Char)
    (tgtSfxs : List (List Char)) (inserted : List (SPair × List Char)) :
    List PLine → List (SPair × List Char)
  | [] => inserted
  | item :: rest =>
    emitInsState tbp es tgtSfx tgtSfxs
      (emitStep tbp es tgtSfx tgtSfxs inserted item).2 rest

/-- The `(section, in_block)` state after the parse loop has consumed a list
of lines. -/
def parseEndState (sect : List Char) (inBlock : Bool) :
    List (List Char) → List Char × Bool
  | [] => (sect, inBlock)
  | l :: rest =>
    if inBlock then parseEndState sect (decide (countTriple l % 2 ≠ 1)) rest
    else parseEndState (nextSect sect l) (opensBlock sect l) rest

/-! ## Derived predicates for the idempotence analysis (C6) -/

/-- Parse facts carried per item: each entry re-parses to itself from the
section in force, opens no block, and threads the section. -/
def chainFrom (sect : List Char) : List PLine → Prop
  | [] => True
  | item :: rest =>
      parseLineStep sect item.lineOf = item ∧
      opensBlock sect item.lineOf = false ∧
      chainFrom (nextSect sect item.lineOf) rest

/-- The `translated_by_pair` contribution of a single parsed entry for pair
`p`: the sanitized translation when the entry is a base text line of `p`
with a nonempty source. -/
def tbpContrib (m : List Char → Option (List Char)) (lv : List (SPair × List Char))
    (p : SPair) (item : PLine) : Option (List Char) :=
  match item with
  | .raw _ => none
  | .kv _ sect _ key _ _ _ v =>
    if isTextKeyValid key then
      if sourceTextOf lv sect key v = [] then none
      else if ((sect, key) : SPair) = p then
        some (sanitizeSingleLineValue
          ((m (sourceTextOf lv sect key v)).getD (sourceTextOf lv sect key v)))
      else none
    else none

/-- The `localized_values` candidate of a single parsed entry for pair `p`. -/
def lvEntry (p : SPair) (item : PLine) : Option (List Char) :=
  match item with
  | .raw _ => none
  | .kv _ sect _ key _ _ _ v =>
    match splitLocalizedTextKey key with
    | none => none
    | some (b, _) =>
      if pyStrip v = [] then none
      else if ((sect, b) : SPair) = p then some (pyStrip v) else none

/-- The `existing_suffixes_by_pair` entry of a single parsed entry. -/
def esEnt (item : PLine) : Option (SPair × List Char) :=
  match item with
  | .raw _ => none
  | .kv _ sect _ key _ _ _ _ =>
    match splitLocalizedTextKey key with
    | none => none
    | some (b, suf) => some ((sect, b), suf)

/-- The conditions under which the emit loop echoes a parsed entry
unchanged, independently of the inserted-set, the existing-suffix map and
the variant list. -/
def echoCond (tbp : List (SPair × List Char)) (a : List Char) : PLine → Prop
  | .raw _ => True
  | .kv _ sect _ key _ _ _ _ =>
    match splitLocalizedTextKey key with
    | some (b, suf) =>
      ¬normalizeLanguageSuffix suf suf = a
      ∨ alookup ((sect, b) : SPair) tbp = none
      ∨ alookup ((sect, b) : SPair) tbp = some []
    | none =>
      isTextKeyValid key = false
      ∨ alookup ((sect, key) : SPair) tbp = none
      ∨ alookup ((sect, key) : SPair) tbp = some []

/-- The well-formedness facts that hold of every `localized_values` and
`translated_by_pair` value on a quote-free, CR/LF-free input file: nonempty,
strip-fixed, free of triple quotes, and fixed by the sanitizer. -/
def goodVal (w : List Char) : Prop :=
  w ≠ [] ∧ pyStrip w = w ∧ hasTriple w = false ∧ sanitizeSingleLineValue w = w

/-- The per-entry value facts inherited from a quote-free, CR/LF-free file. -/
def kvValFacts (item : PLine) : Prop :=
  ∀ l sect ind key pre sep post v, item = .kv l sect ind key pre sep post v →
    hasTriple v = false ∧ (∀ c ∈ v, c ≠ '\r' ∧ c ≠ '\n')

/-! ## Supporting lemmas -/

theorem ttAux_all_fail (env : TranslatorEnv) (texts : List (List Char))
    (delay : ℚ)
    (hfail : ∀ k, (runAttempt env texts.length k).isOk = false) :
    ∀ left k, ttAux env texts delay k left =
      ⟨texts.map (fun t => (t, t)), List.replicate (left - 1) delay, k + left⟩ := by
  intro left
  induction left with
  | zero => intro k; simp [ttAux]
  | succ n ih =>
    intro k
    unfold ttAux
    cases hr : runAttempt env texts.length k with
    | ok ts =>
      have := hfail k
      rw [hr] at this
      simp [Except.isOk, Except.toBool] at this
    | error e =>
      by_cases h2 : n = 0
      · subst h2; simp
      · simp only [h2, if_false]
        rw [ih (k + 1)]
        have h3 : n + 1 - 1 = (n - 1) + 1 := by omega
        have h4 : k + 1 + n = k + (n + 1) := by omega
        rw [h3, List.replicate_succ, h4]

/-! ## C10 -/

/-- **C10.**  For every target-language input whose normalized token is
empty, or which matches no alias, contains none of the substrings
`中文`/`汉化`/`俄`, and fails the language-tag regex, normalization falls
back to the default suffix `zh`, and the suffix variants written into files
are `[zh, zh_cn, cn]`. -/
theorem c10_unrecognized_language_falls_back_to_chinese
    (targetLanguage : List Char)
    (h : normalizeToken (pyStrip (pyStrip targetLanguage)) = []
       ∨ (alookup (normalizeToken (pyStrip (pyStrip targetLanguage))) languageAliases = none
          ∧ containsL (S "中文") (pyStrip targetLanguage) = false
          ∧ containsL (S "汉化") (pyStrip targetLanguage) = false
          ∧ containsL (S "俄") (pyStrip targetLanguage) = false
          ∧ languageTagPrimary (normalizeToken (pyStrip (pyStrip targetLanguage))) = none)) :
    normalizeLanguageSuffix (pyStrip targetLanguage) (S "zh") = S "zh"
    ∧ (resolveTargetLanguage targetLanguage).2 = S "zh"
    ∧ resolveTargetLanguageSuffixes targetLanguage = [S "zh", S "zh_cn", S "cn"] := by
  have hn : normalizeLanguageSuffix (pyStrip targetLanguage) (S "zh") = S "zh" := by
    unfold normalizeLanguageSuffix
    by_cases h0 : pyStrip targetLanguage = []
    · simp [h0]
    · simp only [h0, if_false]
      by_cases ht : normalizeToken (pyStrip (pyStrip targetLanguage)) = []
      · simp [ht]
      · rcases h with h1 | ⟨h2, h3, h4, h5, h6⟩
        · exact absurd h1 ht
        · simp [ht, h2, h3, h4, h5, h6]
  refine ⟨hn, ?_, ?_⟩
  · simpa [resolveTargetLanguage] using hn
  · unfold resolveTargetLanguageSuffixes
    have h2 : (resolveTargetLanguage targetLanguage).2 = S "zh" := by
      simpa [resolveTargetLanguage] using hn
    rw [h2]
    decide

/-- Witness for C10 at the concrete input `"Klingon!"`. -/
theorem c10_witness :
    normalizeLanguageSuffix (pyStrip (S "Klingon!")) (S "zh") = S "zh"
    ∧ (resolveTargetLanguage (S "Klingon!")).2 = S "zh"
    ∧ resolveTargetLanguageSuffixes (S "Klingon!") = [S "zh", S "zh_cn", S "cn"] :=
  c10_unrecognized_language_falls_back_to_chinese (S "Klingon!")
    (Or.inr (by refine ⟨by decide, by decide, by decide, by decide, by decide⟩))

/-! ## C2 -/

/-- **C2.**  The transition validator of `services/task_manager.py` accepts
exactly self-transitions and the claimed nine-pair set, and a rejected
update leaves the row unchanged; but the `TaskStatus` enum actually defined
in `models/task.py` has no `preparing`/`finalizing` member, so evaluating
the transition table as written raises `AttributeError` before any
validation can run (the state type used here is modelled from the spec). -/
theorem c2_transition_validation_and_enum_mismatch :
    (∀ c t : TaskStatus,
      validateTransition c t = true ↔ (c = t ∨ (c, t) ∈ claimedTransitions))
    ∧ (∀ (row : TaskRow) (st : Option TaskStatus) (pr : Option ℚ)
        (tf pf : Option Nat) (em : Option (Option String)) (now : Nat),
        (updateTaskRow row st pr tf pf em now).2.isSome = true →
        (updateTaskRow row st pr tf pf em now).1 = row)
    ∧ "preparing" ∉ legacyTaskStatusValues
    ∧ "finalizing" ∉ legacyTaskStatusValues := by
  refine ⟨by decide, ?_, by decide, by decide⟩
  intro row st pr tf pf em now h
  by_cases hv : validateTransition row.status (st.getD row.status) = true
  · simp [updateTaskRow, hv] at h
  · simp only [Bool.not_eq_true] at hv
    simp [updateTaskRow, hv]

/-- Witness for C2: a concrete rejected transition (`completed → pending`)
leaves a concrete row unchanged, and `pending → preparing` is accepted. -/
theorem c2_witness :
    (updateTaskRow ⟨.completed, 100, 1, 1, none, some 0⟩ (some .pending)
      (some 0) none none none 5).1 = ⟨.completed, 100, 1, 1, none, some 0⟩
    ∧ validateTransition .pending .preparing = true :=
  ⟨c2_transition_validation_and_enum_mismatch.2.1 _ _ _ _ _ _ _ (by decide),
   (c2_transition_validation_and_enum_mismatch.1 .pending .preparing).mpr
     (Or.inr (by decide))⟩

/-! ## C4 -/

/-- **C4.**  A task message whose row exists in any state other than
`PENDING` (terminal states included) is dropped: the handler performs no
task update, no publish and no blob transfer — its whole effect trace is
the final ack. -/
theorem c4_non_pending_message_is_dropped (env : CoordEnv) (st : TaskStatus)
    (h1 : env.taskStatus = some st) (h2 : st ≠ TaskStatus.pending) :
    processMessage env = [CoordEffect.ackMessage] := by
  unfold processMessage coordinationTask
  rw [h1]
  by_cases hter : st = TaskStatus.completed ∨ st = TaskStatus.failed
  · simp [hter]
  · simp [hter, h2]

/-- Witness for C4 at a concrete `TRANSLATING` row. -/
theorem c4_witness :
    processMessage ⟨some .translating, .ok (), .ok (), .ok (), 2,
      [[some "completed", some "completed"]], .ok (), .ok ()⟩
      = [CoordEffect.ackMessage] :=
  c4_non_pending_message_is_dropped _ .translating rfl (by decide)

/-! ## C9 -/

/-- **C9.**  With zero file units the fan-in loop's division is never
reached: `_wait_for_file_tasks 0` returns immediately after writing
`progress = 90`, `processed_files = 0`, regardless of the registry; the
handler trace contains no publish and proceeds through `FINALIZING` to
`COMPLETED`; and folding the trace into any `PENDING` row yields
`status = COMPLETED`, `progress = 100`, `total_files = 0`,
`processed_files = 0`. -/
theorem c9_zero_files_completes_without_division (env : CoordEnv)
    (h1 : env.taskStatus = some .pending) (h0 : env.numFiles = 0)
    (hd : env.download = .ok ()) (he : env.extractArchive = .ok ())
    (ha : env.analyzeMod = .ok ()) (hp : env.pack = .ok ())
    (hu : env.upload = .ok ()) :
    (∀ polls, waitForFileTasks 0 polls
      = ([CoordEffect.upd none (some 90) none (some 0) none], .allDone))
    ∧ processMessage env =
        [CoordEffect.upd (some .preparing) (some 5) none none none,
         CoordEffect.downloadBlob,
         CoordEffect.upd (some .preparing) (some 10) none none none,
         CoordEffect.upd (some .preparing) (some 15) none none none,
         CoordEffect.upd (some .translating) (some 20) (some 0) none none,
         CoordEffect.upd none (some 90) none (some 0) none,
         CoordEffect.upd (some .finalizing) (some 90) none none none,
         CoordEffect.upd (some .finalizing) (some 95) none none none,
         CoordEffect.uploadBlob,
         CoordEffect.upd (some .completed) (some 100) none none none,
         CoordEffect.ackMessage]
    ∧ (∀ (pr : ℚ) (tf pf : Nat) (em : Option String) (ca : Option Nat) (now : Nat),
        (applyEffects ⟨.pending, pr, tf, pf, em, ca⟩ (processMessage env) now).status
            = .completed
        ∧ (applyEffects ⟨.pending, pr, tf, pf, em, ca⟩ (processMessage env) now).progress
            = 100
        ∧ (applyEffects ⟨.pending, pr, tf, pf, em, ca⟩ (processMessage env) now).totalFiles
            = 0
        ∧ (applyEffects ⟨.pending, pr, tf, pf, em, ca⟩ (processMessage env) now).processedFiles
            = 0) := by
  obtain ⟨ts, dl, ex, an, nf, pl, pk, up⟩ := env
  simp only at h1 h0 hd he ha hp hu
  subst h1 h0 hd he ha hp hu
  have htrace : processMessage ⟨some .pending, .ok (), .ok (), .ok (), 0, pl, .ok (), .ok ()⟩ =
      [CoordEffect.upd (some .preparing) (some 5) none none none,
       CoordEffect.downloadBlob,
       CoordEffect.upd (some .preparing) (some 10) none none none,
       CoordEffect.upd (some .preparing) (some 15) none none none,
       CoordEffect.upd (some .translating) (some 20) (some 0) none none,
       CoordEffect.upd none (some 90) none (some 0) none,
       CoordEffect.upd (some .finalizing) (some 90) none none none,
       CoordEffect.upd (some .finalizing) (some 95) none none none,
       CoordEffect.uploadBlob,
       CoordEffect.upd (some .completed) (some 100) none none none,
       CoordEffect.ackMessage] := by
    simp [processMessage, coordinationTask, waitForFileTasks]
  refine ⟨fun polls => by simp [waitForFileTasks], htrace, ?_⟩
  intro pr tf pf em ca now
  rw [htrace]
  simp [applyEffects, applyEffect, updateTaskRow, validateTransition,
    allowedStatusTransitions]

/-- Witness for C9 at a concrete environment. -/
theorem c9_witness :
    processMessage ⟨some .pending, .ok (), .ok (), .ok (), 0, [], .ok (), .ok ()⟩ =
        [CoordEffect.upd (some .preparing) (some 5) none none none,
         CoordEffect.downloadBlob,
         CoordEffect.upd (some .preparing) (some 10) none none none,
         CoordEffect.upd (some .preparing) (some 15) none none none,
         CoordEffect.upd (some .translating) (some 20) (some 0) none none,
         CoordEffect.upd none (some 90) none (some 0) none,
         CoordEffect.upd (some .finalizing) (some 90) none none none,
         CoordEffect.upd (some .finalizing) (some 95) none none none,
         CoordEffect.uploadBlob,
         CoordEffect.upd (some .completed) (some 100) none none none,
         CoordEffect.ackMessage]
    ∧ (applyEffects ⟨.pending, 0, 0, 0, none, none⟩
        (processMessage ⟨some .pending, .ok (), .ok (), .ok (), 0, [], .ok (), .ok ()⟩)
        7).status = .completed :=
  ⟨(c9_zero_files_completes_without_division _ rfl rfl rfl rfl rfl rfl rfl).2.1,
   ((c9_zero_files_completes_without_division _ rfl rfl rfl rfl rfl rfl rfl).2.2
      0 0 0 none none 7).1⟩

/-! ## C8 -/

/-- **C8 (counterexample).**  With every attempt failing and the default
budget of 3, `translate_tasks` performs exactly 3 attempts, sleeps the
*constant* `retry_delay` (1 s, 1 s — not exponential backoff), and then
returns the identity mapping instead of propagating the error. -/
theorem c8_counterexample :
    translateTasks
      ⟨true, fun _ => .raiseErr "boom", fun _ => .error "parse error"⟩
      [S "a"] 3 1
      = ⟨[(S "a", S "a")], [1, 1], 3⟩ := by
  decide

/-- **C8 (amended).**  For every nonempty batch with credentials set, when
every attempt fails the loop makes exactly `max_retries` attempts with a
constant `retry_delay` sleep between consecutive attempts, and then returns
the identity mapping on the batch (the error is logged, not propagated). -/
theorem c8_all_attempts_fail_constant_delay_identity_fallback
    (env : TranslatorEnv) (texts : List (List Char)) (maxRetries : Nat) (delay : ℚ)
    (hkey : env.hasKey = true) (hne : texts ≠ [])
    (hfail : ∀ k, (runAttempt env texts.length k).isOk = false) :
    translateTasks env texts maxRetries delay =
      ⟨texts.map (fun t => (t, t)), List.replicate (maxRetries - 1) delay,
       maxRetries⟩ := by
  unfold translateTasks
  simp only [hne, hkey, if_false, if_true]
  simpa using ttAux_all_fail env texts delay hfail maxRetries 0

/-- Witness for C8 (amended) at a concrete always-failing environment. -/
theorem c8_witness :
    translateTasks
      ⟨true, fun _ => .content none, fun _ => .error "parse error"⟩
      [S "a", S "b"] 4 (1/2)
      = ⟨[(S "a", S "a"), (S "b", S "b")],
         [(1 : ℚ)/2, 1/2, 1/2], 4⟩ :=
  c8_all_attempts_fail_constant_delay_identity_fallback _ _ 4 _ rfl (by decide)
    (fun k => by simp [runAttempt, Except.isOk, Except.toBool])

/-! ## C3 -/

theorem fanInLoop_fail_exit (n : Nat)
    (A : List (List (Option String))) (snapj : List (Option String))
    (B : List (List (Option String)))
    (hA : ∀ snap ∈ A, pollCompleted snap + pollFailed snap < n)
    (hexit : n ≤ pollCompleted snapj + pollFailed snapj)
    (hfail : 0 < pollFailed snapj) :
    fanInLoop n (A ++ snapj :: B) =
      ((A ++ [snapj]).map (fun snap =>
          CoordEffect.upd none
            (some (20 + 70 * (pollCompleted snap : ℚ) / (n : ℚ)))
            none (some (pollCompleted snap)) none)
        ++ [CoordEffect.upd (some .failed) none none none
              (some (failMsgOf (pollFailed snapj)))],
       .failRaise (failMsgOf (pollFailed snapj))) := by
  induction A with
  | nil =>
    simp only [List.nil_append, fanInLoop, hexit, if_true, hfail, List.map_cons,
      List.map_nil]
    rfl
  | cons a A ih =>
    have ha := hA a (List.mem_cons_self a A)
    have hlt : ¬ n ≤ pollCompleted a + pollFailed a := by omega
    simp only [List.cons_append, fanInLoop, hlt, if_false, List.append_eq]
    rw [ih (fun snap hs => hA snap (List.mem_cons_of_mem a hs))]
    simp

/-- **C3 (amended).**  During the fan-in over `n > 0` file units, every poll
iteration writes `progress = 20 + 70·(completed/n)` and
`processed_files = completed`; the loop exits exactly at the first poll with
`completed + failed ≥ n`; and when files failed at exit the task is moved
`TRANSLATING → FAILED` with a summary naming the failed count, the handler
aborts (no destination blob upload), and the task message is *negatively
acknowledged without requeue* — hence not redelivered, but not acked. -/
theorem c3_fan_in_failure_aborts_with_nack (env : CoordEnv)
    (A : List (List (Option String))) (snapj : List (Option String))
    (B : List (List (Option String)))
    (h1 : env.taskStatus = some .pending)
    (hd : env.download = .ok ()) (he : env.extractArchive = .ok ())
    (ha : env.analyzeMod = .ok ())
    (hn : 0 < env.numFiles)
    (hpolls : env.polls = A ++ snapj :: B)
    (hA : ∀ snap ∈ A, pollCompleted snap + pollFailed snap < env.numFiles)
    (hexit : env.numFiles ≤ pollCompleted snapj + pollFailed snapj)
    (hfail : 0 < pollFailed snapj) :
    processMessage env =
      ([CoordEffect.upd (some .preparing) (some 5) none none none,
        CoordEffect.downloadBlob,
        CoordEffect.upd (some .preparing) (some 10) none none none,
        CoordEffect.upd (some .preparing) (some 15) none none none,
        CoordEffect.upd (some .translating) (some 20) (some env.numFiles) none none]
       ++ (List.range env.numFiles).map CoordEffect.publishFile
       ++ (A ++ [snapj]).map (fun snap =>
            CoordEffect.upd none
              (some (20 + 70 * (pollCompleted snap : ℚ) / (env.numFiles : ℚ)))
              none (some (pollCompleted snap)) none)
       ++ [CoordEffect.upd (some .failed) none none none
             (some (failMsgOf (pollFailed snapj))),
           CoordEffect.nackNoRequeue,
           CoordEffect.upd (some .failed) none none none
             (some (failMsgOf (pollFailed snapj)))])
    ∧ CoordEffect.uploadBlob ∉ processMessage env
    ∧ CoordEffect.ackMessage ∉ processMessage env := by
  obtain ⟨ts, dl, ex, an, nf, pl, pk, up⟩ := env
  simp only at h1 hd he ha hn hpolls hA hexit hfail
  subst h1 hd he ha hpolls
  have hnz : nf ≠ 0 := Nat.pos_iff_ne_zero.mp hn
  have htrace : processMessage ⟨some .pending, .ok (), .ok (), .ok (), nf,
      A ++ snapj :: B, pk, up⟩ =
      ([CoordEffect.upd (some .preparing) (some 5) none none none,
        CoordEffect.downloadBlob,
        CoordEffect.upd (some .preparing) (some 10) none none none,
        CoordEffect.upd (some .preparing) (some 15) none none none,
        CoordEffect.upd (some .translating) (some 20) (some nf) none none]
       ++ (List.range nf).map CoordEffect.publishFile
       ++ (A ++ [snapj]).map (fun snap =>
            CoordEffect.upd none
              (some (20 + 70 * (pollCompleted snap : ℚ) / (nf : ℚ)))
              none (some (pollCompleted snap)) none)
       ++ [CoordEffect.upd (some .failed) none none none
             (some (failMsgOf (pollFailed snapj))),
           CoordEffect.nackNoRequeue,
           CoordEffect.upd (some .failed) none none none
             (some (failMsgOf (pollFailed snapj)))]) := by
    unfold processMessage coordinationTask waitForFileTasks
    rw [fanInLoop_fail_exit nf A snapj B hA hexit hfail]
    simp [hnz, List.append_assoc]
  refine ⟨htrace, ?_, ?_⟩
  · rw [htrace]
    intro hmem
    simp only [List.mem_append, List.mem_cons, List.mem_map, List.mem_singleton,
      List.not_mem_nil, or_false] at hmem
    rcases hmem with (h | h) | (⟨i, _, h⟩ | ⟨snap, _, h⟩) | h <;> simp_all
  · rw [htrace]
    intro hmem
    simp only [List.mem_append, List.mem_cons, List.mem_map, List.mem_singleton,
      List.not_mem_nil, or_false] at hmem
    rcases hmem with (h | h) | (⟨i, _, h⟩ | ⟨snap, _, h⟩) | h <;> simp_all

/-- **C3 (counterexample).**  At a concrete failing run (one file, which the
registry reports `FAILED` at the first poll) the handler's trace ends with a
`nack(requeue=False)` — the task message is *not* acknowledged as the claim
states (although it is indeed not redelivered). -/
theorem c3_counterexample :
    processMessage ⟨some .pending, .ok (), .ok (), .ok (), 1,
        [[some "failed"]], .ok (), .ok ()⟩ =
      [CoordEffect.upd (some .preparing) (some 5) none none none,
       CoordEffect.downloadBlob,
       CoordEffect.upd (some .preparing) (some 10) none none none,
       CoordEffect.upd (some .preparing) (some 15) none none none,
       CoordEffect.upd (some .translating) (some 20) (some 1) none none,
       CoordEffect.publishFile 0,
       CoordEffect.upd none (some 20) none (some 0) none,
       CoordEffect.upd (some .failed) none none none (some "有 1 个文件翻译失败"),
       CoordEffect.nackNoRequeue,
       CoordEffect.upd (some .failed) none none none (some "有 1 个文件翻译失败")]
    ∧ CoordEffect.ackMessage ∉
        processMessage ⟨some .pending, .ok (), .ok (), .ok (), 1,
          [[some "failed"]], .ok (), .ok ()⟩
    ∧ CoordEffect.nackNoRequeue ∈
        processMessage ⟨some .pending, .ok (), .ok (), .ok (), 1,
          [[some "failed"]], .ok (), .ok ()⟩
    ∧ CoordEffect.uploadBlob ∉
        processMessage ⟨some .pending, .ok (), .ok (), .ok (), 1,
          [[some "failed"]], .ok (), .ok ()⟩ := by
  have hc : pollCompleted [some "failed"] = 0 := by decide
  have hf : pollFailed [some "failed"] = 1 := by decide
  have hmsg : failMsgOf 1 = "有 1 个文件翻译失败" := by decide
  have hfan := fanInLoop_fail_exit 1 [] [some "failed"] [] (by simp) (by decide)
    (by decide)
  simp only [List.nil_append, List.map_cons, List.map_nil, hc, hf, hmsg] at hfan
  norm_num at hfan
  have htrace : processMessage ⟨some .pending, .ok (), .ok (), .ok (), 1,
      [[some "failed"]], .ok (), .ok ()⟩ =
      [CoordEffect.upd (some .preparing) (some 5) none none none,
       CoordEffect.downloadBlob,
       CoordEffect.upd (some .preparing) (some 10) none none none,
       CoordEffect.upd (some .preparing) (some 15) none none none,
       CoordEffect.upd (some .translating) (some 20) (some 1) none none,
       CoordEffect.publishFile 0,
       CoordEffect.upd none (some 20) none (some 0) none,
       CoordEffect.upd (some .failed) none none none (some "有 1 个文件翻译失败"),
       CoordEffect.nackNoRequeue,
       CoordEffect.upd (some .failed) none none none (some "有 1 个文件翻译失败")] := by
    simp [processMessage, coordinationTask, waitForFileTasks, hfan,
      List.range_succ]
  refine ⟨htrace, ?_, ?_, ?_⟩ <;> (rw [htrace]; decide)

/-- Witness for C3 (amended) at a concrete two-file run whose second poll
reports one completion and one failure. -/
theorem c3_witness :
    processMessage ⟨some .pending, .ok (), .ok (), .ok (), 2,
        [[some "completed", none], [some "completed", some "failed"]],
        .ok (), .ok ()⟩ =
      ([CoordEffect.upd (some .preparing) (some 5) none none none,
        CoordEffect.downloadBlob,
        CoordEffect.upd (some .preparing) (some 10) none none none,
        CoordEffect.upd (some .preparing) (some 15) none none none,
        CoordEffect.upd (some .translating) (some 20) (some 2) none none]
       ++ (List.range 2).map CoordEffect.publishFile
       ++ ([[some "completed", none]] ++ [[some "completed", some "failed"]]).map
            (fun snap =>
              CoordEffect.upd none
                (some (20 + 70 * (pollCompleted snap : ℚ) / (2 : ℚ)))
                none (some (pollCompleted snap)) none)
       ++ [CoordEffect.upd (some .failed) none none none
             (some (failMsgOf 1)),
           CoordEffect.nackNoRequeue,
           CoordEffect.upd (some .failed) none none none
             (some (failMsgOf 1))]) := by
  have h := c3_fan_in_failure_aborts_with_nack
    ⟨some .pending, .ok (), .ok (), .ok (), 2,
      [[some "completed", none], [some "completed", some "failed"]], .ok (), .ok ()⟩
    [[some "completed", none]] [some "completed", some "failed"] []
    rfl rfl rfl rfl (by decide) rfl
    (by intro snap hs; fin_cases hs; decide) (by decide) (by decide)
  simpa using h.1

/-! ## Chunk structure of the rewriter's output -/

theorem parseLineStep_lineOf (sect l : List Char) :
    (parseLineStep sect l).lineOf = l := by
  unfold parseLineStep
  split <;> (dsimp only; split <;> first | rfl | (split <;> rfl))

theorem parseAux_lineOf :
    ∀ (ls : List (List Char)) (sect : List Char) (b : Bool) (i : Nat),
      ((parseAux sect b ls)[i]?).map PLine.lineOf = ls[i]? := by
  intro ls
  induction ls with
  | nil => intros; simp [parseAux]
  | cons l rest ih =>
    intro sect b i
    by_cases hb : b
    · cases i with
      | zero => simp [parseAux, hb, PLine.lineOf]
      | succ n => simp [parseAux, hb, ih]
    · cases i with
      | zero => simp [parseAux, hb, parseLineStep_lineOf]
      | succ n => simp [parseAux, hb, ih]

theorem parseAux_length :
    ∀ (ls : List (List Char)) (sect : List Char) (b : Bool),
      (parseAux sect b ls).length = ls.length := by
  intro ls
  induction ls with
  | nil => intros; simp [parseAux]
  | cons l rest ih =>
    intro sect b
    by_cases hb : b <;> simp [parseAux, hb, ih]

theorem emitGo_cons (tbp es : List (SPair × List Char)) (a : List Char)
    (bs : List (List Char)) (ins : List (SPair × List Char)) (item : PLine)
    (rest : List PLine) :
    emitGo tbp es a bs ins (item :: rest) =
      (emitStep tbp es a bs ins item).1 ::
        emitGo tbp es a bs (emitStep tbp es a bs ins item).2 rest := rfl

theorem emitInsState_cons (tbp es : List (SPair × List Char)) (a : List Char)
    (bs : List (List Char)) (ins : List (SPair × List Char)) (item : PLine)
    (rest : List PLine) :
    emitInsState tbp es a bs ins (item :: rest) =
      emitInsState tbp es a bs (emitStep tbp es a bs ins item).2 rest := rfl

theorem emitGo_length :
    ∀ (items : List PLine) (tbp es : List (SPair × List Char)) (a : List Char)
      (bs : List (List Char)) (ins : List (SPair × List Char)),
      (emitGo tbp es a bs ins items).length = items.length := by
  intro items
  induction items with
  | nil => intros; rfl
  | cons item rest ih => intro tbp es a bs ins; rw [emitGo_cons]; simp [ih]

theorem emitGo_getElem? :
    ∀ (items : List PLine) (tbp es : List (SPair × List Char)) (a : List Char)
      (bs : List (List Char)) (ins : List (SPair × List Char)) (i : Nat),
      (emitGo tbp es a bs ins items)[i]?
        = (items[i]?).map (fun it =>
            (emitStep tbp es a bs
              (emitInsState tbp es a bs ins (items.take i)) it).1) := by
  intro items
  induction items with
  | nil => intros; simp [emitGo]
  | cons item rest ih =>
    intro tbp es a bs ins i
    cases i with
    | zero => rw [emitGo_cons]; simp [emitInsState]
    | succ n =>
      rw [emitGo_cons]
      simp only [List.getElem?_cons_succ, List.take_succ_cons, emitInsState_cons]
      exact ih tbp es a bs (emitStep tbp es a bs ins item).2 n

theorem emitStep_plain_kv (tbp es : List (SPair × List Char)) (a : List Char)
    (bs : List (List Char)) (ins : List (SPair × List Char))
    (l sect ind key pre : List Char) (sep : Char) (post v : List Char)
    (hsplit : splitLocalizedTextKey key = none)
    (hvalid : isTextKeyValid key = false) :
    emitStep tbp es a bs ins (.kv l sect ind key pre sep post v)
      = ([.kv l sect ind key pre sep post v], ins) := by
  simp [emitStep, hsplit, hvalid]

theorem emitStep_localized_target (tbp es : List (SPair × List Char))
    (a : List Char) (bs : List (List Char)) (ins : List (SPair × List Char))
    (l sect ind key pre : List Char) (sep : Char) (post v b suf tv : List Char)
    (hsplit : splitLocalizedTextKey key = some (b, suf))
    (hprim : normalizeLanguageSuffix suf suf = a)
    (htv : alookup ((sect, b) : SPair) tbp = some tv) (hne : tv ≠ []) :
    emitStep tbp es a bs ins (.kv l sect ind key pre sep post v)
      = ([.kv (ind ++ key ++ pre ++ sep :: post ++ tv) sect ind key pre sep post tv],
         ins) := by
  simp [emitStep, hsplit, hprim, htv, hne]

theorem emitStep_base_inserts (tbp es : List (SPair × List Char)) (a : List Char)
    (bs : List (List Char)) (ins : List (SPair × List Char))
    (l sect ind key pre : List Char) (sep : Char) (post v tv : List Char)
    (hsplit : splitLocalizedTextKey key = none)
    (hvalid : isTextKeyValid key = true)
    (htv : alookup ((sect, key) : SPair) tbp = some tv) (hne : tv ≠ []) :
    emitStep tbp es a bs ins (.kv l sect ind key pre sep post v)
      = (PLine.kv l sect ind key pre sep post v ::
          (insertLoop es (sect, key) sect ind key pre sep post tv ins bs).1,
         (insertLoop es (sect, key) sect ind key pre sep post tv ins bs).2) := by
  simp [emitStep, hsplit, hvalid, htv, hne]

theorem insertLoop_spec (es : List (SPair × List Char)) (p : SPair)
    (sect ind key pre : List Char) (sep : Char) (post tv : List Char) :
    ∀ (sufs : List (List Char)) (ins : List (SPair × List Char)),
      sufs.Nodup →
      (insertLoop es p sect ind key pre sep post tv ins sufs).1
        = (sufs.filter (fun suf =>
              !(decide ((p, suf) ∈ es)) && !(decide ((p, suf) ∈ ins)))).map
            (fun suf => PLine.kv (insLineOf ind key pre sep post tv suf) sect ind
              (key ++ '_' :: suf) pre sep post tv) := by
  intro sufs
  induction sufs with
  | nil => intros; rfl
  | cons suf sufs ih =>
    intro ins hnd
    rcases List.nodup_cons.mp hnd with ⟨hmem, hnd'⟩
    by_cases hes : (p, suf) ∈ es
    · have hstep : insertLoop es p sect ind key pre sep post tv ins (suf :: sufs)
          = insertLoop es p sect ind key pre sep post tv ins sufs := by
        simp [insertLoop, hes]
      rw [hstep, ih ins hnd']
      simp [List.filter_cons, hes]
    · by_cases hins : (p, suf) ∈ ins
      · have hstep : insertLoop es p sect ind key pre sep post tv ins (suf :: sufs)
            = insertLoop es p sect ind key pre sep post tv ins sufs := by
          simp [insertLoop, hes, hins]
        rw [hstep, ih ins hnd']
        simp [List.filter_cons, hes, hins]
      · have hstep : insertLoop es p sect ind key pre sep post tv ins (suf :: sufs)
            = (PLine.kv (insLineOf ind key pre sep post tv suf) sect ind
                 (key ++ '_' :: suf) pre sep post tv ::
                 (insertLoop es p sect ind key pre sep post tv ((p, suf) :: ins) sufs).1,
               (insertLoop es p sect ind key pre sep post tv ((p, suf) :: ins) sufs).2) := by
          simp [insertLoop, hes, hins]
        have hfc : ∀ s ∈ sufs,
            (!(decide ((p, s) ∈ es)) && !(decide ((p, s) ∈ ((p, suf) :: ins))))
              = (!(decide ((p, s) ∈ es)) && !(decide ((p, s) ∈ ins))) := by
          intro s hs
          have hne : s ≠ suf := fun h => hmem (h ▸ hs)
          simp [List.mem_cons, hne]
        rw [hstep]
        simp only
        rw [ih ((p, suf) :: ins) hnd', List.filter_congr hfc]
        simp [List.filter_cons, hes, hins]

/-! ## C1 -/

/-- **C1 (counterexample).**  The file worker's handler does not preserve
lines: on the file `[a]` / `speed=3` (key `speed` not allow-listed, no
`"""`-block anywhere) the worker writes back `[a]` / `speed:3` / `` — the
`=` separator is rewritten to `:`, so the line corresponding to `speed=3`
differs, even with a passthrough translator. -/
theorem c1_counterexample :
    workerFileOutput [S "[a]", S "speed=3"] (fun s => some s) (S "zh-CN")
        = some [S "[a]", S "speed:3", S ""]
    ∧ isTextKeyValid (S "speed") = false
    ∧ ((workerFileOutput [S "[a]", S "speed=3"] (fun s => some s) (S "zh-CN")).bind
        (fun ls => ls[1]?)) = some (S "speed:3")
    ∧ S "speed:3" ≠ S "speed=3" := by
  refine ⟨by decide, by decide, by decide, by decide⟩

/-- **C1 (amended).**  The byte-for-byte preservation property holds of the
structure-preserving rewriter `translate_file_preserve_structure` (which the
file worker does not call): the output is the concatenation of one chunk per
input line, each parsed entry carries its input line verbatim, and the chunk
of every line that is neither a base allow-listed key nor a localized
(suffixed) form of one — `"""`-block lines, comments, section headers and
non-allow-listed KV lines included — is exactly that unchanged line. -/
theorem c1_nonallowlisted_lines_preserved
    (lines : List (List Char)) (m : List Char → Option (List Char))
    (tgt : List Char) :
    translateFilePreserveStructure lines m tgt
        = ((processChunks lines m tgt).map (List.map PLine.lineOf)).flatten
    ∧ (∀ i : Nat, ((parsedOf lines)[i]?).map PLine.lineOf = lines[i]?)
    ∧ (∀ (i : Nat) (item : PLine), (parsedOf lines)[i]? = some item →
        (match item with
         | .raw _ => True
         | .kv _ _ _ key _ _ _ _ =>
             isTextKeyValid key = false ∧ splitLocalizedTextKey key = none) →
        (processChunks lines m tgt)[i]? = some [item]) := by
  refine ⟨?_, fun i => parseAux_lineOf lines [] false i, ?_⟩
  · unfold translateFilePreserveStructure
    rw [List.map_flatten]
  · intro i item hitem hcond
    unfold processChunks
    rw [emitGo_getElem?, hitem]
    cases item with
    | raw l => rfl
    | kv l sect ind key pre sep post v =>
      obtain ⟨hvalid, hsplit⟩ := hcond
      simp only [Option.map_some']
      rw [emitStep_plain_kv _ _ _ _ _ _ _ _ _ _ _ _ _ hsplit hvalid]

/-- Witness for C1 (amended): the non-allow-listed line
`onDeath: if self.height<=1.4 then x` is its own unchanged chunk. -/
theorem c1_witness :
    (processChunks [S "[a]", S "onDeath: if self.height<=1.4 then x"]
        (fun s => some s) (S "zh-CN"))[1]?
      = some [PLine.kv (S "onDeath: if self.height<=1.4 then x") (S "a") []
          (S "onDeath") [] ':' [' '] (S "if self.height<=1.4 then x")] :=
  (c1_nonallowlisted_lines_preserved
      [S "[a]", S "onDeath: if self.height<=1.4 then x"] (fun s => some s)
      (S "zh-CN")).2.2 1
    (PLine.kv (S "onDeath: if self.height<=1.4 then x") (S "a") []
      (S "onDeath") [] ':' [' '] (S "if self.height<=1.4 then x"))
    (by decide) (by decide)

/-! ## C7 -/

theorem parseAux_append :
    ∀ (xs ys : List (List Char)) (sect : List Char) (b : Bool),
      parseAux sect b (xs ++ ys)
        = parseAux sect b xs
          ++ parseAux (parseEndState sect b xs).1 (parseEndState sect b xs).2 ys := by
  intro xs
  induction xs with
  | nil => intros; rfl
  | cons l rest ih =>
    intro ys sect b
    cases b
    · simp only [List.cons_append, parseAux, parseEndState, Bool.false_eq_true,
        if_false]
      exact congrArg (parseLineStep sect l :: ·)
        (ih ys (nextSect sect l) (opensBlock sect l))
    · simp only [List.cons_append, parseAux, parseEndState, if_true]
      exact congrArg (PLine.raw l :: ·)
        (ih ys sect (decide (countTriple l % 2 ≠ 1)))

theorem parseAux_block :
    ∀ (interior : List (List Char)) (closer : List Char) (B : List (List Char))
      (sect : List Char),
      (∀ l ∈ interior, countTriple l % 2 = 0) → countTriple closer % 2 = 1 →
      parseAux sect true (interior ++ closer :: B)
        = (interior ++ [closer]).map PLine.raw ++ parseAux sect false B := by
  intro interior
  induction interior with
  | nil =>
    intro closer B sect _ hc
    simp [parseAux, hc]
  | cons l rest ih =>
    intro closer B sect hint hc
    have h0 : countTriple l % 2 = 0 := hint l (List.mem_cons_self l rest)
    have h1 : (decide (countTriple l % 2 ≠ 1)) = true := by simp [h0]
    simp only [List.cons_append, parseAux, if_true, h1, List.map_cons]
    have := ih closer B sect (fun x hx => hint x (List.mem_cons_of_mem l hx)) hc
    calc PLine.raw l :: parseAux sect true (rest ++ closer :: B)
        = PLine.raw l :: ((rest ++ [closer]).map PLine.raw
            ++ parseAux sect false B) := by rw [this]
      _ = _ := by simp

theorem emitGo_raws :
    ∀ (rs : List (List Char)) (tbp es : List (SPair × List Char)) (a : List Char)
      (bs : List (List Char)) (ins : List (SPair × List Char)),
      emitGo tbp es a bs ins (rs.map PLine.raw)
        = rs.map (fun r => [PLine.raw r])
      ∧ emitInsState tbp es a bs ins (rs.map PLine.raw) = ins := by
  intro rs
  induction rs with
  | nil => intros; exact ⟨rfl, rfl⟩
  | cons r rest ih =>
    intro tbp es a bs ins
    constructor
    · rw [List.map_cons, emitGo_cons]
      simp only [emitStep]
      rw [(ih tbp es a bs ins).1]
      rfl
    · rw [List.map_cons, emitInsState_cons]
      simp only [emitStep]
      exact (ih tbp es a bs ins).2

theorem emitGo_append :
    ∀ (xs ys : List PLine) (tbp es : List (SPair × List Char)) (a : List Char)
      (bs : List (List Char)) (ins : List (SPair × List Char)),
      emitGo tbp es a bs ins (xs ++ ys)
        = emitGo tbp es a bs ins xs
          ++ emitGo tbp es a bs (emitInsState tbp es a bs ins xs) ys := by
  intro xs
  induction xs with
  | nil => intros; rfl
  | cons item rest ih =>
    intro ys tbp es a bs ins
    rw [List.cons_append, emitGo_cons, emitInsState_cons, emitGo_cons, ih]
    rfl

theorem emitStep_kv_head (tbp es : List (SPair × List Char)) (a : List Char)
    (bs : List (List Char)) (ins : List (SPair × List Char))
    (l sect ind key pre : List Char) (sep : Char) (post v : List Char)
    (hnl : splitLocalizedTextKey key = none) :
    ∃ tailItems st,
      emitStep tbp es a bs ins (.kv l sect ind key pre sep post v)
        = (PLine.kv l sect ind key pre sep post v :: tailItems, st)
      ∧ (isTextKeyValid key = false → tailItems = []) := by
  by_cases hvalid : isTextKeyValid key = true
  · cases htv : alookup ((sect, key) : SPair) tbp with
    | none =>
      refine ⟨[], ins, ?_, fun _ => rfl⟩
      simp [emitStep, hnl, hvalid, htv]
    | some tv =>
      by_cases hne : tv = []
      · refine ⟨[], ins, ?_, fun _ => rfl⟩
        subst hne
        simp [emitStep, hnl, hvalid, htv]
      · refine ⟨(insertLoop es (sect, key) sect ind key pre sep post tv ins bs).1,
          (insertLoop es (sect, key) sect ind key pre sep post tv ins bs).2, ?_,
          fun h => absurd hvalid (by simp [h])⟩
        exact emitStep_base_inserts tbp es a bs ins l sect ind key pre sep post v tv
          hnl hvalid htv hne
  · have hvalid' : isTextKeyValid key = false := by simpa using hvalid
    exact ⟨[], ins, emitStep_plain_kv tbp es a bs ins l sect ind key pre sep post v
      hnl hvalid', fun _ => rfl⟩

theorem flatten_singletons {α : Type} :
    ∀ rs : List α, (rs.map (fun r => [r])).flatten = rs := by
  intro rs
  induction rs with
  | nil => rfl
  | cons r rest ih => simp [ih]

theorem flatten_raw_chunks :
    ∀ rs : List (List Char),
      ((rs.map (fun r => [PLine.raw r])).map (List.map PLine.lineOf)).flatten = rs := by
  intro rs
  induction rs with
  | nil => rfl
  | cons r rest ih =>
    simp only [List.map_cons, List.flatten_cons, List.map_map] at ih ⊢
    rw [ih]
    rfl

/-- **C7 (amended).**  For every `"""`-block — a KV opener line whose value
has an odd `"""` count, interior lines with even counts, and a closing line
with an odd count — whose opener's key is not a localized
(language-suffixed) form of an allow-listed base key, the rewriter emits
the opener line unchanged, then possibly inserted localized lines (none
unless the opener's key is an allow-listed base key), then the interior and
closing lines verbatim, contiguously and in order; the block is only
displaced by the output of the chunks of earlier lines, not altered.  A
localized-key opener is outside this guarantee: when its suffix normalizes
to the target primary and its pair has a nonempty translation, the opener
is rewritten and the block destroyed (see the counterexample). -/
theorem c7_blocks_preserved_contiguously
    (lines : List (List Char)) (m : List Char → Option (List Char))
    (tgt : List Char) (A : List (List Char)) (opener : List Char)
    (interior : List (List Char)) (closer : List Char) (B : List (List Char))
    (sect ind key pre : List Char) (sep : Char) (post v : List Char)
    (hsplitL : lines = A ++ opener :: (interior ++ closer :: B))
    (hopen : (parsedOf lines)[A.length]?
      = some (.kv opener sect ind key pre sep post v))
    (hodd : countTriple v % 2 = 1)
    (hint : ∀ l ∈ interior, countTriple l % 2 = 0)
    (hclose : countTriple closer % 2 = 1)
    (hnl : splitLocalizedTextKey key = none) :
    ∃ ins Q,
      translateFilePreserveStructure lines m tgt
        = (((processChunks lines m tgt).take A.length).map
            (List.map PLine.lineOf)).flatten
          ++ opener :: (ins ++ (interior ++ closer :: Q))
      ∧ (isTextKeyValid key = false → ins = []) := by
  subst hsplitL
  have hIAlen : (parseAux [] false A).length = A.length := parseAux_length A [] false
  have hdec := parseAux_append A (opener :: (interior ++ closer :: B)) [] false
  set s := parseEndState [] false A with hs
  unfold parsedOf at hopen
  rw [hdec] at hopen
  rw [List.getElem?_append_right hIAlen.le] at hopen
  rw [hIAlen, Nat.sub_self] at hopen
  -- the entry at the opener's index is the head of the tail parse
  have hs2 : s.2 = false := by
    by_contra hb
    have hb' : s.2 = true := by
      cases h2 : s.2
      · exact absurd h2 hb
      · rfl
    rw [show parseAux s.1 s.2 (opener :: (interior ++ closer :: B))
        = PLine.raw opener :: parseAux s.1
            (decide (countTriple opener % 2 ≠ 1)) (interior ++ closer :: B) from by
      rw [hb']; rfl] at hopen
    simp at hopen
  have hstep : parseLineStep s.1 opener
      = PLine.kv opener sect ind key pre sep post v := by
    rw [show parseAux s.1 s.2 (opener :: (interior ++ closer :: B))
        = parseLineStep s.1 opener :: parseAux (nextSect s.1 opener)
            (opensBlock s.1 opener) (interior ++ closer :: B) from by
      rw [hs2]; rfl] at hopen
    simpa using hopen
  have hob : opensBlock s.1 opener = true := by
    unfold opensBlock
    rw [hstep]
    simpa using hodd
  have htail : parseAux s.1 s.2 (opener :: (interior ++ closer :: B))
      = PLine.kv opener sect ind key pre sep post v ::
          ((interior ++ [closer]).map PLine.raw
            ++ parseAux (nextSect s.1 opener) false B) := by
    rw [hs2]
    show parseLineStep s.1 opener :: parseAux (nextSect s.1 opener)
        (opensBlock s.1 opener) (interior ++ closer :: B) = _
    rw [hstep, hob, parseAux_block interior closer B (nextSect s.1 opener) hint hclose]
  -- chunk decomposition
  set tbp := tbpFold m (lvFold (parsedOf (A ++ opener :: (interior ++ closer :: B))))
    (parsedOf (A ++ opener :: (interior ++ closer :: B))) with htbp
  set es := esFold (parsedOf (A ++ opener :: (interior ++ closer :: B))) with hes
  set ta := (resolveTargetLanguage tgt).2 with hta
  set tbs := resolveTargetLanguageSuffixes tgt with htbs
  have hchunks : processChunks (A ++ opener :: (interior ++ closer :: B)) m tgt
      = emitGo tbp es ta tbs [] (parsedOf (A ++ opener :: (interior ++ closer :: B))) := rfl
  obtain ⟨tailItems, st, hstepkv, htailnil⟩ :=
    emitStep_kv_head tbp es ta tbs
      (emitInsState tbp es ta tbs [] (parseAux [] false A))
      opener sect ind key pre sep post v hnl
  have hitems : parsedOf (A ++ opener :: (interior ++ closer :: B))
      = parseAux [] false A ++ PLine.kv opener sect ind key pre sep post v ::
          ((interior ++ [closer]).map PLine.raw
            ++ parseAux (nextSect s.1 opener) false B) := by
    unfold parsedOf
    rw [hdec, htail]
  have hchunks2 : processChunks (A ++ opener :: (interior ++ closer :: B)) m tgt
      = emitGo tbp es ta tbs [] (parseAux [] false A)
        ++ (PLine.kv opener sect ind key pre sep post v :: tailItems) ::
           ((interior ++ [closer]).map (fun r => [PLine.raw r])
             ++ emitGo tbp es ta tbs st
                 (parseAux (nextSect s.1 opener) false B)) := by
    rw [hchunks, hitems, emitGo_append, emitGo_cons, hstepkv]
    rw [emitGo_append]
    rw [(emitGo_raws (interior ++ [closer]) tbp es ta tbs st).1,
        (emitGo_raws (interior ++ [closer]) tbp es ta tbs st).2]
  have hCAlen : (emitGo tbp es ta tbs [] (parseAux [] false A)).length = A.length := by
    rw [emitGo_length, hIAlen]
  refine ⟨tailItems.map PLine.lineOf,
    ((emitGo tbp es ta tbs st (parseAux (nextSect s.1 opener) false B)).map
      (List.map PLine.lineOf)).flatten, ?_, fun h => by rw [htailnil h]; rfl⟩
  have htake : (processChunks (A ++ opener :: (interior ++ closer :: B)) m tgt).take
      A.length = emitGo tbp es ta tbs [] (parseAux [] false A) := by
    rw [hchunks2]
    exact List.take_left' hCAlen
  rw [htake]
  have hout : translateFilePreserveStructure (A ++ opener :: (interior ++ closer :: B)) m tgt
      = ((processChunks (A ++ opener :: (interior ++ closer :: B)) m tgt).map
          (List.map PLine.lineOf)).flatten := by
    unfold translateFilePreserveStructure
    rw [List.map_flatten]
  rw [hout, hchunks2]
  rw [List.map_append, List.flatten_append, List.map_cons, List.flatten_cons,
    List.map_append, List.flatten_append, flatten_raw_chunks]
  simp [PLine.lineOf, List.append_assoc]

/-- **C7 (counterexample).**  Two failures of the claim.  First, on the file
`text: Hi` / `m: """a` / `b"""` (block at input line positions 1–2) with a
passthrough translator, the rewriter inserts three localized lines after
`text: Hi`, so the block appears at output positions 4–5 — not "at the same
line positions" as the claim states.  Second, on `text: Hi` /
`text_zh: """a` / `b"""` with target `zh` the block's opener is a localized
sibling of the translated pair, so it is rewritten to `text_zh: Hi` and the
block is destroyed: no line of the output opens a block at all. -/
theorem c7_counterexample :
    (translateFilePreserveStructure [S "text: Hi", S "m: \"\"\"a", S "b\"\"\""]
        (fun s => some s) (S "zh-CN")
      = [S "text: Hi", S "text_zh: Hi", S "text_zh_cn: Hi", S "text_cn: Hi",
         S "m: \"\"\"a", S "b\"\"\""]
    ∧ (translateFilePreserveStructure [S "text: Hi", S "m: \"\"\"a", S "b\"\"\""]
        (fun s => some s) (S "zh-CN"))[1]? ≠ some (S "m: \"\"\"a")
    ∧ (translateFilePreserveStructure [S "text: Hi", S "m: \"\"\"a", S "b\"\"\""]
        (fun s => some s) (S "zh-CN"))[2]? ≠ some (S "b\"\"\""))
    ∧ translateFilePreserveStructure
          [S "text: Hi", S "text_zh: \"\"\"a", S "b\"\"\""]
          (fun s => some s) (S "zh")
        = [S "text: Hi", S "text_zh_cn: Hi", S "text_cn: Hi", S "text_zh: Hi",
           S "b\"\"\""] := by
  refine ⟨⟨by decide, by decide, by decide⟩, by decide⟩

/-- Witness for C7 (amended) at a concrete block with one interior line,
preceded by a translated key and followed by another line. -/
theorem c7_witness :
    ∃ ins Q,
      translateFilePreserveStructure
          [S "text: Hi", S "m: \"\"\"a", S "x", S "b\"\"\"", S "end: 1"]
          (fun s => some s) (S "zh-CN")
        = (((processChunks
              [S "text: Hi", S "m: \"\"\"a", S "x", S "b\"\"\"", S "end: 1"]
              (fun s => some s) (S "zh-CN")).take 1).map
            (List.map PLine.lineOf)).flatten
          ++ S "m: \"\"\"a" :: (ins ++ ([S "x"] ++ S "b\"\"\"" :: Q))
      ∧ (isTextKeyValid (S "m") = false → ins = []) :=
  c7_blocks_preserved_contiguously
    [S "text: Hi", S "m: \"\"\"a", S "x", S "b\"\"\"", S "end: 1"]
    (fun s => some s) (S "zh-CN")
    [S "text: Hi"] (S "m: \"\"\"a") [S "x"] (S "b\"\"\"") [S "end: 1"]
    [] [] (S "m") [] ':' [' '] (S "\"\"\"a")
    rfl (by decide) (by decide)
    (by intro l hl; fin_cases hl; decide) (by decide) (by decide)

/-! ## C5 -/

theorem orderedDedup_props :
    ∀ (l : List (List Char)) (seen : List (List Char)),
      (orderedDedup seen l).Nodup ∧ ∀ x ∈ orderedDedup seen l, x ∉ seen := by
  intro l
  induction l with
  | nil => intro seen; exact ⟨List.nodup_nil, by simp [orderedDedup]⟩
  | cons v rest ih =>
    intro seen
    unfold orderedDedup
    by_cases hc : lowerL (pyStrip v) = [] ∨ lowerL (pyStrip v) ∈ seen
    · simp only [hc, if_true]
      exact ih seen
    · simp only [hc, if_false]
      obtain ⟨hnd, hns⟩ := ih (lowerL (pyStrip v) :: seen)
      refine ⟨List.nodup_cons.mpr ⟨fun hmem => ?_, hnd⟩, ?_⟩
      · exact hns _ hmem (List.mem_cons_self _ _)
      · intro x hx
        rcases List.mem_cons.mp hx with hx | hx
        · subst hx
          intro hxs
          exact hc (Or.inr hxs)
        · intro hxs
          exact hns x hx (List.mem_cons_of_mem _ hxs)

theorem resolveTargetLanguageSuffixes_nodup (tgt : List Char) :
    (resolveTargetLanguageSuffixes tgt).Nodup := by
  unfold resolveTargetLanguageSuffixes
  exact (orderedDedup_props _ []).1

/-- **C5 (amended).**  (a) Every localized sibling whose suffix normalizes
to the target primary subtag and whose pair has a nonempty translation is
rewritten to carry the translated value (groups preserved).  (b) But a base
allow-listed line with a translation, at a point where nothing has been
inserted for its pair yet, is followed by one inserted localized line for
*every* target variant suffix not literally present in the section — the
presence of a same-primary sibling (e.g. `text_cn` for target `zh`)
suppresses only its own literal suffix, not the other variants. -/
theorem c5_sibling_overwritten_but_other_variants_inserted
    (lines : List (List Char)) (m : List Char → Option (List Char))
    (tgt : List Char) :
    (∀ (i : Nat) (l sect ind key pre : List Char) (sep : Char)
       (post v b suf tv : List Char),
      (parsedOf lines)[i]? = some (.kv l sect ind key pre sep post v) →
      splitLocalizedTextKey key = some (b, suf) →
      normalizeLanguageSuffix suf suf = (resolveTargetLanguage tgt).2 →
      alookup ((sect, b) : SPair)
        (tbpFold m (lvFold (parsedOf lines)) (parsedOf lines)) = some tv →
      tv ≠ [] →
      (processChunks lines m tgt)[i]?
        = some [.kv (ind ++ key ++ pre ++ sep :: post ++ tv) sect ind key pre
            sep post tv])
    ∧ (∀ (j : Nat) (l sect ind key pre : List Char) (sep : Char)
         (post v tv : List Char),
      (parsedOf lines)[j]? = some (.kv l sect ind key pre sep post v) →
      splitLocalizedTextKey key = none →
      isTextKeyValid key = true →
      alookup ((sect, key) : SPair)
        (tbpFold m (lvFold (parsedOf lines)) (parsedOf lines)) = some tv →
      tv ≠ [] →
      (∀ suf : List Char, (((sect, key) : SPair), suf) ∉
        emitInsState (tbpFold m (lvFold (parsedOf lines)) (parsedOf lines))
          (esFold (parsedOf lines)) (resolveTargetLanguage tgt).2
          (resolveTargetLanguageSuffixes tgt) [] ((parsedOf lines).take j)) →
      (processChunks lines m tgt)[j]?
        = some (.kv l sect ind key pre sep post v ::
            ((resolveTargetLanguageSuffixes tgt).filter
              (fun suf => !(decide ((((sect, key) : SPair), suf) ∈
                esFold (parsedOf lines))))).map
              (fun suf => .kv (insLineOf ind key pre sep post tv suf) sect ind
                (key ++ '_' :: suf) pre sep post tv))) := by
  constructor
  · intro i l sect ind key pre sep post v b suf tv hitem hsplit hprim htv hne
    unfold processChunks
    rw [emitGo_getElem?, hitem]
    simp only [Option.map_some']
    rw [emitStep_localized_target _ _ _ _ _ _ _ _ _ _ _ _ _ _ _ _
      hsplit hprim htv hne]
  · intro j l sect ind key pre sep post v tv hitem hsplit hvalid htv hne hfree
    unfold processChunks
    rw [emitGo_getElem?, hitem]
    simp only [Option.map_some']
    rw [emitStep_base_inserts _ _ _ _ _ _ _ _ _ _ _ _ _ _
      hsplit hvalid htv hne]
    have h2 := insertLoop_spec (esFold (parsedOf lines)) (sect, key) sect ind key
      pre sep post tv (resolveTargetLanguageSuffixes tgt)
      (emitInsState (tbpFold m (lvFold (parsedOf lines)) (parsedOf lines))
        (esFold (parsedOf lines)) (resolveTargetLanguage tgt).2
        (resolveTargetLanguageSuffixes tgt) [] ((parsedOf lines).take j))
      (resolveTargetLanguageSuffixes_nodup tgt)
    have hfc : ∀ suf ∈ resolveTargetLanguageSuffixes tgt,
        (!(decide ((((sect, key) : SPair), suf) ∈ esFold (parsedOf lines))) &&
          !(decide ((((sect, key) : SPair), suf) ∈
            emitInsState (tbpFold m (lvFold (parsedOf lines)) (parsedOf lines))
              (esFold (parsedOf lines)) (resolveTargetLanguage tgt).2
              (resolveTargetLanguageSuffixes tgt) [] ((parsedOf lines).take j))))
          = (!(decide ((((sect, key) : SPair), suf) ∈ esFold (parsedOf lines)))) := by
      intro suf _
      simp [hfree suf]
    rw [h2]
    exact congrArg some (congrArg
      (PLine.kv l sect ind key pre sep post v :: ·)
      (congrArg (List.map (fun suf => PLine.kv (insLineOf ind key pre sep post tv suf)
        sect ind (key ++ '_' :: suf) pre sep post tv)) (List.filter_congr hfc)))

/-- **C5 (counterexample).**  On `text: Hello` / `text_cn: X` with target
`zh-CN` and translation `Hello → NIHAO`, the sibling `text_cn` *is*
overwritten, but two new localized lines (`text_zh`, `text_zh_cn`) are
still inserted — the claim's "inserts no new localized line for any
target-language variant suffix" is false. -/
theorem c5_counterexample :
    translateFilePreserveStructure [S "text: Hello", S "text_cn: X"]
        (fun s => if s = S "Hello" then some (S "NIHAO") else none) (S "zh-CN")
      = [S "text: Hello", S "text_zh: NIHAO", S "text_zh_cn: NIHAO",
         S "text_cn: NIHAO"]
    ∧ (S "text_zh: NIHAO") ∈
        translateFilePreserveStructure [S "text: Hello", S "text_cn: X"]
          (fun s => if s = S "Hello" then some (S "NIHAO") else none) (S "zh-CN")
    ∧ (translateFilePreserveStructure [S "text: Hello", S "text_cn: X"]
        (fun s => if s = S "Hello" then some (S "NIHAO") else none)
        (S "zh-CN")).length ≠ 2 := by
  refine ⟨by decide, by decide, by decide⟩

/-- Witness for C5 (amended): both parts applied on the
`text: Hello` / `text_cn: X` file. -/
theorem c5_witness :
    (processChunks [S "text: Hello", S "text_cn: X"]
        (fun s => if s = S "Hello" then some (S "NIHAO") else none)
        (S "zh-CN"))[1]?
      = some [.kv (S "text_cn: NIHAO") [] [] (S "text_cn") [] ':' [' ']
          (S "NIHAO")]
    ∧ (processChunks [S "text: Hello", S "text_cn: X"]
        (fun s => if s = S "Hello" then some (S "NIHAO") else none)
        (S "zh-CN"))[0]?
      = some (.kv (S "text: Hello") [] [] (S "text") [] ':' [' '] (S "Hello") ::
          ((resolveTargetLanguageSuffixes (S "zh-CN")).filter
            (fun suf => !(decide (((([], S "text") : SPair), suf) ∈
              esFold (parsedOf [S "text: Hello", S "text_cn: X"]))))).map
            (fun suf => .kv (insLineOf [] (S "text") [] ':' [' '] (S "NIHAO") suf)
              [] [] (S "text" ++ '_' :: suf) [] ':' [' '] (S "NIHAO"))) := by
  constructor
  · exact (c5_sibling_overwritten_but_other_variants_inserted
      [S "text: Hello", S "text_cn: X"]
      (fun s => if s = S "Hello" then some (S "NIHAO") else none)
      (S "zh-CN")).1 1 (S "text_cn: X") [] [] (S "text_cn") [] ':' [' '] (S "X")
      (S "text") (S "cn") (S "NIHAO")
      (by decide) (by decide) (by decide) (by decide) (by decide)
  · exact (c5_sibling_overwritten_but_other_variants_inserted
      [S "text: Hello", S "text_cn: X"]
      (fun s => if s = S "Hello" then some (S "NIHAO") else none)
      (S "zh-CN")).2 0 (S "text: Hello") [] [] (S "text") [] ':' [' ']
      (S "Hello") (S "NIHAO")
      (by decide) (by decide) (by decide) (by decide) (by decide)
      (by intro suf; simp [emitInsState])


theorem countTriple_cons_ne (c : Char) (rest : List Char) (hc : c ≠ '"') :
    countTriple (c :: rest) = countTriple rest := by
  rw [countTriple.eq_def]; split <;> simp_all

theorem hasTriple_cons_ne (c : Char) (rest : List Char) (hc : c ≠ '"') :
    hasTriple (c :: rest) = hasTriple rest := by
  rw [hasTriple.eq_def]; split <;> simp_all

theorem hasTriple_iff (l : List Char) :
    hasTriple l = true ↔ ∃ x y, l = x ++ '"' :: '"' :: '"' :: y := by
  induction l using hasTriple.induct with
  | case1 rest =>
    constructor
    · intro _; exact ⟨[], rest, rfl⟩
    · intro _; rfl
  | case2 c rest h1 ih =>
    have hstep : hasTriple (c :: rest) = hasTriple rest := by
      rw [hasTriple.eq_def]; split <;> simp_all
    rw [hstep, ih]
    constructor
    · rintro ⟨x, y, hxy⟩; exact ⟨c :: x, y, by rw [List.cons_append, hxy]⟩
    · rintro ⟨x, y, hxy⟩
      cases x with
      | nil =>
        exfalso
        rcases rest with _ | ⟨d, _ | ⟨e, rest2⟩⟩ <;> simp_all
      | cons a x' =>
        injection hxy with _ h2
        exact ⟨x', y, h2⟩
  | case3 =>
    constructor
    · intro h; simp [hasTriple] at h
    · rintro ⟨x, y, hxy⟩; exact absurd hxy (by simp)

theorem countTriple_eq_zero (l : List Char) (h : hasTriple l = false) :
    countTriple l = 0 := by
  induction l using countTriple.induct with
  | case1 rest ih =>
    exact absurd h (by rw [show hasTriple ('"' :: '"' :: '"' :: rest) = true from rfl]; simp)
  | case2 c rest h1 ih =>
    have hstep : countTriple (c :: rest) = countTriple rest := by
      rw [countTriple.eq_def]; split <;> simp_all
    have hstep2 : hasTriple (c :: rest) = hasTriple rest := by
      rw [hasTriple.eq_def]; split <;> simp_all
    rw [hstep]; exact ih (by rw [← hstep2]; exact h)
  | case3 => rfl

theorem hasTriple_append_left (a b : List Char) (h : hasTriple (a ++ b) = false) :
    hasTriple a = false := by
  by_contra hh
  have ha := (hasTriple_iff a).mp (by revert hh; cases hasTriple a <;> simp)
  rcases ha with ⟨x, y, hxy⟩
  have : hasTriple (a ++ b) = true :=
    (hasTriple_iff _).mpr ⟨x, y ++ b, by rw [hxy]; simp⟩
  simp [this] at h

theorem hasTriple_append_right (a b : List Char) (h : hasTriple (a ++ b) = false) :
    hasTriple b = false := by
  by_contra hh
  have hb := (hasTriple_iff b).mp (by revert hh; cases hasTriple b <;> simp)
  rcases hb with ⟨x, y, hxy⟩
  have : hasTriple (a ++ b) = true :=
    (hasTriple_iff _).mpr ⟨a ++ x, y, by rw [hxy]; simp⟩
  simp [this] at h

theorem hasTriple_infix (a b c : List Char)
    (h : hasTriple (a ++ b ++ c) = false) : hasTriple b = false :=
  hasTriple_append_left b c (hasTriple_append_right a (b ++ c)
    (by rw [← List.append_assoc]; exact h))

theorem dropWhile_head_not (p : Char → Bool) :
    ∀ (l : List Char) (c : Char) (cs : List Char),
      l.dropWhile p = c :: cs → p c = false := by
  intro l
  induction l with
  | nil => intro c cs h; simp [List.dropWhile] at h
  | cons a t ih =>
    intro c cs h
    rw [List.dropWhile_cons] at h
    by_cases hp : p a
    · simp [hp] at h; exact ih _ _ h
    · simp [hp] at h
      obtain ⟨rfl, -⟩ := h
      exact Bool.not_eq_true _ ▸ (by simpa using hp)

theorem takeWhile_length_drop (p : Char → Bool) :
    ∀ (l : List Char), l.drop (l.takeWhile p).length = l.dropWhile p := by
  intro l
  induction l with
  | nil => rfl
  | cons a t ih =>
    by_cases hp : p a
    · simp [List.takeWhile_cons, List.dropWhile_cons, hp, ih]
    · simp [List.takeWhile_cons, List.dropWhile_cons, hp]

theorem takeWhile_append_all (p : Char → Bool) (a : List Char)
    (ha : ∀ c ∈ a, p c = true) :
    ∀ (b : List Char), (∀ c cs, b = c :: cs → p c = false) →
      (a ++ b).takeWhile p = a ∧ (a ++ b).dropWhile p = b := by
  induction a with
  | nil =>
    intro b hb
    constructor
    · cases b with
      | nil => rfl
      | cons c cs => simp [List.takeWhile_cons, hb c cs rfl]
    · cases b with
      | nil => rfl
      | cons c cs => simp [List.dropWhile_cons, hb c cs rfl]
  | cons x a ih =>
    intro b hb
    have hx := ha x (by simp)
    have ha' : ∀ c ∈ a, p c = true := fun c hc => ha c (by simp [hc])
    obtain ⟨h1, h2⟩ := ih ha' b hb
    constructor
    · simp [List.takeWhile_cons, hx, h1]
    · simp [List.dropWhile_cons, hx, h2]

theorem dropWhile_eq_self_of_head (p : Char → Bool) (l : List Char)
    (h : ∀ c cs, l = c :: cs → p c = false) : l.dropWhile p = l := by
  cases l with
  | nil => rfl
  | cons c cs => simp [List.dropWhile_cons, h c cs rfl]

/-- `l.strip()` is an infix of `l`. -/
theorem pyStrip_decomp (l : List Char) : ∃ a b, l = a ++ pyStrip l ++ b := by
  refine ⟨l.takeWhile isPySpace,
    ((l.dropWhile isPySpace).reverse.takeWhile isPySpace).reverse, ?_⟩
  unfold pyStrip
  have h1 : l = l.takeWhile isPySpace ++ l.dropWhile isPySpace :=
    (List.takeWhile_append_dropWhile ..).symm
  set y := l.dropWhile isPySpace with hy
  have h2 : y.reverse = y.reverse.takeWhile isPySpace ++ y.reverse.dropWhile isPySpace :=
    (List.takeWhile_append_dropWhile ..).symm
  have h3 : y = (y.reverse.dropWhile isPySpace).reverse ++
      (y.reverse.takeWhile isPySpace).reverse := by
    conv_lhs => rw [← List.reverse_reverse y, h2]
    rw [List.reverse_append]
  rw [List.append_assoc, ← h3, ← h1]

theorem pyStrip_head (l : List Char) (c : Char) (cs : List Char)
    (h : pyStrip l = c :: cs) : isPySpace c = false := by
  unfold pyStrip at h
  set y := l.dropWhile isPySpace with hy
  set z := y.reverse.dropWhile isPySpace with hz
  -- z.reverse = c :: cs ; z.reverse is a prefix of y, and y's head is non-space
  have hzr : z.reverse = c :: cs := h
  have h3 : y = z.reverse ++ (y.reverse.takeWhile isPySpace).reverse := by
    conv_lhs => rw [← List.reverse_reverse y,
      (List.takeWhile_append_dropWhile (p := isPySpace) (l := y.reverse)).symm]
    rw [List.reverse_append]
  have hcc : y = c :: (cs ++ (y.reverse.takeWhile isPySpace).reverse) := by
    conv_lhs => rw [h3, hzr]
    simp
  exact dropWhile_head_not isPySpace l c _ (by rw [← hy, hcc])

theorem pyStrip_last (l : List Char) (c : Char)
    (h : (pyStrip l).getLast? = some c) : isPySpace c = false := by
  unfold pyStrip at h
  rw [List.getLast?_reverse] at h
  set z := (l.dropWhile isPySpace).reverse.dropWhile isPySpace with hz
  cases hzc : z with
  | nil => rw [hzc] at h; simp at h
  | cons d ds =>
    rw [hzc] at h
    simp at h
    exact h ▸ dropWhile_head_not isPySpace _ d ds hzc

theorem pyStrip_eq_self (l : List Char)
    (hh : ∀ c cs, l = c :: cs → isPySpace c = false)
    (hl : ∀ c, l.getLast? = some c → isPySpace c = false) :
    pyStrip l = l := by
  unfold pyStrip
  have h1 : l.dropWhile isPySpace = l := dropWhile_eq_self_of_head _ l hh
  rw [h1]
  have h2 : l.reverse.dropWhile isPySpace = l.reverse := by
    refine dropWhile_eq_self_of_head _ _ ?_
    intro c cs hrc
    refine hl c ?_
    rw [← List.head?_reverse, hrc]
    rfl
  rw [h2, List.reverse_reverse]

theorem pyStrip_idem (l : List Char) : pyStrip (pyStrip l) = pyStrip l := by
  cases hc : pyStrip l with
  | nil => rfl
  | cons c cs =>
    rw [← hc]
    refine pyStrip_eq_self _ ?_ ?_
    · intro d ds hd; exact pyStrip_head l d ds hd
    · intro d hd; exact pyStrip_last l d hd

theorem replCRLF_eq_self (l : List Char) (h : ∀ c ∈ l, c ≠ '\r') :
    replCRLF l = l := by
  induction l with
  | nil => rfl
  | cons c rest ih =>
    have hc : c ≠ '\r' := h c (by simp)
    have hstep : replCRLF (c :: rest) = c :: replCRLF rest := by
      rw [replCRLF.eq_def]; split <;> simp_all
    rw [hstep, ih (fun d hd => h d (by simp [hd]))]

theorem replCR_eq_self (l : List Char) (h : ∀ c ∈ l, c ≠ '\r') :
    replCR l = l := by
  unfold replCR
  induction l with
  | nil => rfl
  | cons c rest ih =>
    have hc : c ≠ '\r' := h c (by simp)
    simp only [List.map_cons, if_neg hc]
    rw [ih (fun d hd => h d (by simp [hd]))]

theorem replLF_eq_self (l : List Char) (h : ∀ c ∈ l, c ≠ '\n') :
    replLF l = l := by
  induction l with
  | nil => rfl
  | cons c rest ih =>
    have hc : c ≠ '\n' := h c (by simp)
    have hstep : replLF (c :: rest) = c :: replLF rest := by
      rw [replLF.eq_def]; split <;> simp_all
    rw [hstep, ih (fun d hd => h d (by simp [hd]))]

/-- On a CR/LF-free value the sanitizer is the identity. -/
theorem sanitize_eq_self (l : List Char)
    (h : ∀ c ∈ l, c ≠ '\r' ∧ c ≠ '\n') : sanitizeSingleLineValue l = l := by
  unfold sanitizeSingleLineValue
  rw [replCRLF_eq_self l (fun c hc => (h c hc).1),
      replCR_eq_self l (fun c hc => (h c hc).1),
      replLF_eq_self l (fun c hc => (h c hc).2)]

theorem splitAtDelim_prepend (p : List Char) (hp : ∀ c ∈ p, c ≠ ':' ∧ c ≠ '=') :
    ∀ (sep : Char), (sep = ':' ∨ sep = '=') → ∀ (r : List Char),
      splitAtDelim (p ++ sep :: r) = some (p, sep, r) := by
  induction p with
  | nil =>
    intro sep hsep r
    unfold splitAtDelim
    rcases hsep with rfl | rfl <;> simp
  | cons c p ih =>
    intro sep hsep r
    have hc := hp c (by simp)
    have hp' : ∀ d ∈ p, d ≠ ':' ∧ d ≠ '=' := fun d hd => hp d (by simp [hd])
    unfold splitAtDelim
    have hcd : (c = ':' || c = '=') = false := by
      simp [hc.1, hc.2]
    simp only [List.cons_append, hcd, Bool.false_eq_true, if_false]
    rw [ih hp' sep hsep r]

theorem splitAtDelim_inv :
    ∀ (l p : List Char) (c : Char) (r : List Char),
      splitAtDelim l = some (p, c, r) →
      l = p ++ c :: r ∧ (∀ d ∈ p, d ≠ ':' ∧ d ≠ '=') ∧ (c = ':' ∨ c = '=') := by
  intro l
  induction l with
  | nil => intro p c r h; simp [splitAtDelim] at h
  | cons a t ih =>
    intro p c r h
    unfold splitAtDelim at h
    by_cases ha : (a = ':' || a = '=') = true
    · rw [if_pos ha] at h
      injection h with h1
      obtain ⟨rfl, rfl, rfl⟩ : p = [] ∧ a = c ∧ t = r := by
        injection h1 with h2 h3
        injection h3 with h4 h5
        exact ⟨h2.symm, h4, h5⟩
      refine ⟨rfl, by simp, ?_⟩
      revert ha; simp
    · rw [if_neg ha] at h
      cases hs : splitAtDelim t with
      | none => rw [hs] at h; simp at h
      | some v =>
        obtain ⟨p', s', r'⟩ := v
        rw [hs] at h
        simp only at h
        injection h with h1
        obtain ⟨hp, hc, hr⟩ : a :: p' = p ∧ s' = c ∧ r' = r := by
          injection h1 with h2 h3
          injection h3 with h4 h5
          exact ⟨h2, h4, h5⟩
        obtain ⟨ht, hnd, hcd⟩ := ih p' s' r' hs
        subst hp hc hr
        refine ⟨by rw [ht]; rfl, ?_, hcd⟩
        intro d hd
        rcases List.mem_cons.mp hd with rfl | hd
        · constructor <;> (intro he; subst he; simp at ha)
        · exact hnd d hd

theorem isPySpace_ne_delim (c : Char) (h : isPySpace c = true) :
    c ≠ ':' ∧ c ≠ '=' := by
  constructor <;> (rintro rfl; simp [isPySpace] at h)

theorem matchKV_recon (ind key pre : List Char) (sep : Char) (post v : List Char)
    (hind : ∀ c ∈ ind, isPySpace c = true)
    (hpre : ∀ c ∈ pre, isPySpace c = true)
    (hpost : ∀ c ∈ post, isPySpace c = true)
    (hsep : sep = ':' ∨ sep = '=')
    (hkd : ∀ c ∈ key, c ≠ ':' ∧ c ≠ '=')
    (hkne : key ≠ [])
    (hkh : ∀ c cs, key = c :: cs → isPySpace c = false)
    (hkl : ∀ c, key.getLast? = some c → isPySpace c = false)
    (hvh : ∀ c cs, v = c :: cs → isPySpace c = false) :
    matchKV (ind ++ key ++ pre ++ sep :: post ++ v)
      = some ⟨ind, key, pre, sep, post, v⟩ := by
  have hpnd : ∀ c ∈ ind ++ key ++ pre, c ≠ ':' ∧ c ≠ '=' := by
    intro c hc
    rcases List.mem_append.mp hc with hc | hc
    · rcases List.mem_append.mp hc with hc | hc
      · exact isPySpace_ne_delim c (hind c hc)
      · exact hkd c hc
    · exact isPySpace_ne_delim c (hpre c hc)
  have hsplit : splitAtDelim (ind ++ key ++ pre ++ sep :: post ++ v)
      = some (ind ++ key ++ pre, sep, post ++ v) := by
    have := splitAtDelim_prepend (ind ++ key ++ pre) hpnd sep hsep (post ++ v)
    rw [← this]
    congr 1
    simp [List.append_assoc]
  unfold matchKV
  rw [hsplit]
  simp only
  have hpne : ind ++ key ++ pre ≠ [] := by
    intro h
    rcases List.append_eq_nil.mp h with ⟨h1, -⟩
    exact hkne (List.append_eq_nil.mp h1).2
  rw [if_neg hpne]
  have hafter : (post ++ v).takeWhile isPySpace = post ∧
      (post ++ v).dropWhile isPySpace = v :=
    takeWhile_append_all isPySpace post hpost v hvh
  have hws : (ind ++ key ++ pre).takeWhile isPySpace = ind ∧
      (ind ++ key ++ pre).dropWhile isPySpace = key ++ pre := by
    have := takeWhile_append_all isPySpace ind hind (key ++ pre)
      (by
        intro c cs hc
        cases key with
        | nil => exact absurd rfl hkne
        | cons k ks =>
          rw [List.cons_append] at hc
          injection hc with h1 _
          exact h1 ▸ hkh k ks rfl)
    rw [List.append_assoc]
    exact this
  have hwslen : ((ind ++ key ++ pre).takeWhile isPySpace).length
      ≠ (ind ++ key ++ pre).length := by
    rw [hws.1]
    simp only [List.length_append]
    intro h
    have : key.length = 0 := by omega
    exact hkne (List.eq_nil_of_length_eq_zero this)
  rw [if_neg hwslen]
  rw [hafter.1, hws.1]
  have e1 : (post ++ v).drop post.length = v := List.drop_left _ _
  have e2 : (ind ++ key ++ pre).drop ind.length = key ++ pre := by
    rw [List.append_assoc]
    exact List.drop_left _ _
  rw [e1, e2]
  have hmidrev : (key ++ pre).reverse.takeWhile isPySpace = pre.reverse := by
    have := takeWhile_append_all isPySpace pre.reverse
      (fun c hc => hpre c (List.mem_reverse.mp hc)) key.reverse
      (by
        intro c cs hc
        refine hkl c ?_
        rw [← List.head?_reverse, hc]
        rfl)
    rw [List.reverse_append]
    exact this.1
  rw [hmidrev]
  have hlen1 : (key ++ pre).length - pre.reverse.length = key.length := by
    simp
  rw [hlen1, List.take_left, List.drop_left]

theorem matchKV_inv (l : List Char) (g : KVGroups) (h : matchKV l = some g) :
    l = g.ind ++ g.keyRaw ++ g.pre ++ g.sep :: g.post ++ g.val
    ∧ (∀ c ∈ g.ind, isPySpace c = true)
    ∧ (∀ c ∈ g.pre, isPySpace c = true)
    ∧ (∀ c ∈ g.post, isPySpace c = true)
    ∧ (g.sep = ':' ∨ g.sep = '=')
    ∧ (∀ c ∈ g.keyRaw, c ≠ ':' ∧ c ≠ '=')
    ∧ (∀ c cs, g.val = c :: cs → isPySpace c = false) := by
  unfold matchKV at h
  cases hs : splitAtDelim l with
  | none => rw [hs] at h; simp at h
  | some t =>
    obtain ⟨p, sepc, after⟩ := t
    rw [hs] at h
    simp only at h
    obtain ⟨hdec, hnd, hdel⟩ := splitAtDelim_inv l p sepc after hs
    by_cases hpe : p = []
    · rw [if_pos hpe] at h; simp at h
    · rw [if_neg hpe] at h
      have hpostw : ∀ c ∈ after.takeWhile isPySpace, isPySpace c = true :=
        fun c hc => List.mem_takeWhile_imp hc
      have hvhead : ∀ c cs,
          after.drop (after.takeWhile isPySpace).length = c :: cs →
          isPySpace c = false := by
        intro c cs hc
        rw [takeWhile_length_drop] at hc
        exact dropWhile_head_not isPySpace after c cs hc
      have hafter : after.takeWhile isPySpace ++
          after.drop (after.takeWhile isPySpace).length = after := by
        rw [takeWhile_length_drop]
        exact List.takeWhile_append_dropWhile ..
      by_cases hwl : (p.takeWhile isPySpace).length = p.length
      · rw [if_pos hwl] at h
        injection h with h1
        subst h1
        have hpall : p.takeWhile isPySpace = p :=
          (List.takeWhile_prefix _).eq_of_length hwl
        have hpw : ∀ c ∈ p, isPySpace c = true := by
          intro c hc
          rw [← hpall] at hc
          exact List.mem_takeWhile_imp hc
        refine ⟨?_, ?_, ?_, hpostw, hdel, ?_, hvhead⟩
        · simp only
          rw [List.append_nil, List.take_append_drop, hdec]
          conv_lhs => rw [← hafter]
          simp
        · intro c hc
          exact hpw c (List.mem_of_mem_take hc)
        · simp
        · intro c hc
          exact isPySpace_ne_delim c (hpw c (List.mem_of_mem_drop hc))
      · rw [if_neg hwl] at h
        injection h with h1
        subst h1
        simp only
        have hws : p.takeWhile isPySpace ++ p.dropWhile isPySpace = p :=
          List.takeWhile_append_dropWhile ..
        have hmid : p.drop (p.takeWhile isPySpace).length = p.dropWhile isPySpace :=
          takeWhile_length_drop ..
        set mid := p.drop (p.takeWhile isPySpace).length with hmiddef
        set T := mid.reverse.takeWhile isPySpace with hT
        set D := mid.reverse.dropWhile isPySpace with hD
        have hdecomp : mid = D.reverse ++ T.reverse := by
          conv_lhs => rw [← List.reverse_reverse mid]
          rw [hT, hD, ← List.reverse_append, List.takeWhile_append_dropWhile]
        have hlen : mid.length - T.length = D.reverse.length := by
          have hlsum : mid.length = D.reverse.length + T.reverse.length := by
            conv_lhs => rw [hdecomp]
            simp
          simp only [List.length_reverse] at hlsum ⊢
          omega
        have hmidrev : T.reverse = mid.drop (mid.length - T.length) := by
          rw [hlen]
          conv_rhs => rw [hdecomp]
          rw [List.drop_left]
        have hmidtake : mid.take (mid.length - T.length) = D.reverse := by
          rw [hlen]
          conv_lhs => rw [hdecomp]
          rw [List.take_left]
        refine ⟨?_, ?_, ?_, hpostw, hdel, ?_, hvhead⟩
        · rw [List.append_assoc _ _ (mid.drop _), List.take_append_drop]
          rw [hmiddef, takeWhile_length_drop, List.takeWhile_append_dropWhile, hdec]
          conv_lhs => rw [← hafter]
          simp
        · intro c hc
          exact List.mem_takeWhile_imp hc
        · intro c hc
          rw [← hmidrev] at hc
          rw [hT] at hc
          exact List.mem_takeWhile_imp (List.mem_reverse.mp hc)
        · intro c hc
          have h1 : c ∈ mid := List.mem_of_mem_take hc
          have h2 : c ∈ p := by
            rw [hmiddef] at h1
            exact List.mem_of_mem_drop h1
          exact hnd c h2

theorem toLower_isAlpha (d : Char) (hd : d.isAlpha = true) : (d.toLower).isAlpha = true := by
  unfold Char.toLower
  simp only
  by_cases hc : d.toNat ≥ 65 ∧ d.toNat ≤ 90
  · rw [if_pos hc]
    have hvalid : (d.toNat + 32).isValidChar := Or.inl (by omega)
    have htn : (Char.ofNat (d.toNat + 32)).toNat = d.toNat + 32 := by
      rw [Char.ofNat, dif_pos hvalid]
      simp [Char.ofNatAux, Char.toNat, UInt32.toNat, BitVec.ofNatLt]
    simp only [Char.isAlpha, Char.isLower, Char.isUpper, Bool.or_eq_true,
      Bool.and_eq_true, decide_eq_true_eq]
    right
    have h1 : (Char.ofNat (d.toNat + 32)).val.toNat = d.toNat + 32 := htn
    simp only [UInt32.toNat] at h1
    constructor
    · show (97 : UInt32) ≤ (Char.ofNat (d.toNat + 32)).val
      rw [UInt32.le_def, BitVec.le_def]
      have h97 : ((97 : UInt32)).toBitVec.toNat = 97 := rfl
      rw [h97, h1]
      omega
    · show (Char.ofNat (d.toNat + 32)).val ≤ (122 : UInt32)
      rw [UInt32.le_def, BitVec.le_def]
      have h122 : ((122 : UInt32)).toBitVec.toNat = 122 := rfl
      rw [h122, h1]
      omega
  · rw [if_neg hc]
    exact hd

theorem toLower_eq_of_not_lower (c e : Char)
    (he : ¬(97 ≤ e.toNat ∧ e.toNat ≤ 122)) (h : c.toLower = e) : c = e := by
  unfold Char.toLower at h
  simp only at h
  by_cases hc : c.toNat ≥ 65 ∧ c.toNat ≤ 90
  · rw [if_pos hc] at h
    exfalso
    have hvalid : (c.toNat + 32).isValidChar := Or.inl (by omega)
    have htn : (Char.ofNat (c.toNat + 32)).toNat = c.toNat + 32 := by
      rw [Char.ofNat, dif_pos hvalid]
      simp [Char.ofNatAux, Char.toNat, UInt32.toNat, BitVec.ofNatLt]
    rw [h] at htn
    exact he (by omega)
  · rw [if_neg hc] at h
    exact h

theorem isAlpha_props (c : Char) (h : c.isAlpha = true) :
    isPySpace c = false ∧ c ≠ ':' ∧ c ≠ '=' ∧ c ≠ '#' ∧ c ≠ ';' ∧ c ≠ '[' := by
  refine ⟨?_, ?_, ?_, ?_, ?_, ?_⟩
  · by_contra hs
    have hs' : isPySpace c = true := by revert hs; cases isPySpace c <;> simp
    simp only [isPySpace, Bool.or_eq_true, decide_eq_true_eq] at hs'
    rcases hs' with ((((h1 | h1) | h1) | h1) | h1) | h1 <;>
      (subst h1; simp [Char.isAlpha, Char.isUpper, Char.isLower] at h)
  all_goals (rintro rfl; simp [Char.isAlpha, Char.isUpper, Char.isLower] at h)

theorem startsWithL_inv (p : List Char) :
    ∀ (l : List Char), startsWithL p l = true → l = p ++ l.drop p.length := by
  induction p with
  | nil => intro l _; simp
  | cons a ps ih =>
    intro l h
    cases l with
    | nil => simp [startsWithL] at h
    | cons b ls =>
      simp only [startsWithL, Bool.and_eq_true, decide_eq_true_eq] at h
      obtain ⟨rfl, h2⟩ := h
      simp only [List.cons_append, List.length_cons, List.drop_succ_cons]
      exact congrArg _ (ih ls h2)

theorem takeWhile_append_length_drop (p : Char → Bool) (l : List Char) :
    l.takeWhile p ++ l.drop (l.takeWhile p).length = l := by
  rw [takeWhile_length_drop]
  exact List.takeWhile_append_dropWhile ..

theorem splitU_ne_nil : ∀ (l : List Char), splitU l ≠ [] := by
  intro l
  rw [splitU.eq_def]
  split <;> simp_all
  split <;> simp_all

theorem splitU_underscore (rest : List Char) :
    splitU ('_' :: rest) = [] :: splitU rest := rfl

theorem splitU_cons_ne (c : Char) (rest : List Char) (hc : c ≠ '_')
    (q : List Char) (qs : List (List Char)) (h : splitU rest = q :: qs) :
    splitU (c :: rest) = (c :: q) :: qs := by
  rw [splitU.eq_def]
  split
  · simp_all
  · rename_i heq; injection heq with h1 h2; exact absurd h1 hc
  · rename_i c' rest' _ heq
    injection heq with h1 h2
    subst h1 h2
    rw [h]

theorem splitU_append (a b : List Char) :
    splitU (a ++ '_' :: b) = splitU a ++ splitU b := by
  induction a with
  | nil => simp [splitU_underscore, splitU]
  | cons c a ih =>
    by_cases hc : c = '_'
    · subst hc
      rw [List.cons_append, splitU_underscore, splitU_underscore, ih]
      rfl
    · cases hq : splitU a with
      | nil => exact absurd hq (splitU_ne_nil a)
      | cons q qs =>
        have hq2 : splitU (a ++ '_' :: b) = q :: (qs ++ splitU b) := by
          rw [ih, hq]
          rfl
        rw [List.cons_append, splitU_cons_ne c _ hc _ _ hq2,
            splitU_cons_ne c a hc q qs hq]
        rfl

theorem joinU_cons_ne (p : List Char) (q : List Char) (qs : List (List Char)) :
    joinU (p :: q :: qs) = p ++ '_' :: joinU (q :: qs) := rfl

theorem joinU_append (xs : List (List Char)) :
    ∀ (ys : List (List Char)), xs ≠ [] → ys ≠ [] →
      joinU (xs ++ ys) = joinU xs ++ '_' :: joinU ys := by
  induction xs with
  | nil => intro ys h _; exact absurd rfl h
  | cons x xs ih =>
    intro ys _ hys
    cases xs with
    | nil =>
      cases ys with
      | nil => exact absurd rfl hys
      | cons y ys' => rfl
    | cons x2 xs' =>
      calc joinU ((x :: x2 :: xs') ++ ys)
          = x ++ '_' :: joinU ((x2 :: xs') ++ ys) := rfl
        _ = x ++ '_' :: (joinU (x2 :: xs') ++ '_' :: joinU ys) := by
              rw [ih ys (by simp) hys]
        _ = (x ++ '_' :: joinU (x2 :: xs')) ++ '_' :: joinU ys := by simp
        _ = joinU (x :: x2 :: xs') ++ '_' :: joinU ys := rfl

theorem joinU_splitU : ∀ (k : List Char), joinU (splitU k) = k := by
  intro k
  induction k with
  | nil => rfl
  | cons c rest ih =>
    by_cases hc : c = '_'
    · subst hc
      rw [splitU_underscore]
      cases hq : splitU rest with
      | nil => exact absurd hq (splitU_ne_nil rest)
      | cons q qs =>
        rw [joinU_cons_ne]
        simp only [List.nil_append]
        have h2 := ih
        rw [hq] at h2
        rw [h2]
    · cases hq : splitU rest with
      | nil => exact absurd hq (splitU_ne_nil rest)
      | cons q qs =>
        rw [splitU_cons_ne c rest hc q qs hq]
        cases qs with
        | nil =>
          show c :: q = c :: rest
          have := ih
          rw [hq] at this
          exact congrArg _ this
        | cons q2 qs' =>
          rw [joinU_cons_ne]
          have := ih
          rw [hq, joinU_cons_ne] at this
          rw [List.cons_append]
          exact congrArg _ this

theorem lowerL_splitU : ∀ (k : List Char),
    splitU (lowerL k) = (splitU k).map lowerL := by
  intro k
  induction k with
  | nil => rfl
  | cons c rest ih =>
    by_cases hc : c = '_'
    · subst hc
      show splitU ('_' :: lowerL rest) = _
      rw [splitU_underscore, splitU_underscore, ih]
      rfl
    · have hlc : c.toLower ≠ '_' := by
        intro h
        exact hc (toLower_eq_of_not_lower c '_' (by decide) h)
      cases hq : splitU rest with
      | nil => exact absurd hq (splitU_ne_nil rest)
      | cons q qs =>
        have hq2 : splitU (lowerL rest) = lowerL q :: qs.map lowerL := by
          rw [ih, hq]
          rfl
        show splitU (c.toLower :: lowerL rest) = _
        rw [splitU_cons_ne _ _ hlc _ _ hq2, splitU_cons_ne c rest hc q qs hq]
        rfl

theorem lowerL_joinU : ∀ (xs : List (List Char)),
    lowerL (joinU xs) = joinU (xs.map lowerL) := by
  intro xs
  induction xs with
  | nil => rfl
  | cons x xs ih =>
    cases xs with
    | nil => rfl
    | cons y ys =>
      have h1 : lowerL (joinU (x :: y :: ys))
          = lowerL x ++ '_' :: lowerL (joinU (y :: ys)) := by
        show (x ++ '_' :: joinU (y :: ys)).map Char.toLower = _
        rw [List.map_append, List.map_cons]
        rfl
      rw [h1, ih]
      rfl

theorem actionFormOk_inv (l : List Char) (h : actionFormOk l = true) :
    ∃ ds, ds ≠ [] ∧ (∀ c ∈ ds, c.isDigit = true) ∧
      (l = S "action_" ++ ds ++ S "_text" ∨ l = S "action_" ++ ds ++ S "_displayname") := by
  unfold actionFormOk at h
  simp only [Bool.and_eq_true] at h
  obtain ⟨h1, h2⟩ := h
  have hdec := startsWithL_inv (S "action_") l h1
  set rest := l.drop 7 with hrest
  set ds := rest.takeWhile Char.isDigit with hds
  simp only [Bool.and_eq_true, Bool.not_eq_true', Bool.or_eq_true, beq_iff_eq] at h2
  obtain ⟨hne, htail⟩ := h2
  refine ⟨ds, ?_, fun c hc => List.mem_takeWhile_imp hc, ?_⟩
  · intro hnil
    simp [hnil] at hne
  · have h7 : (S "action_").length = 7 := rfl
    have hrd : rest = ds ++ rest.drop ds.length := by
      conv_lhs => rw [← takeWhile_append_length_drop Char.isDigit rest]
    rcases htail with ht | ht
    · left
      rw [hdec, h7, ← hrest, hrd, ht]
      simp [S]
    · right
      rw [hdec, h7, ← hrest, hrd, ht]
      simp [S]

theorem literal_facts :
    (∀ lit ∈ textKeyLiterals, '_' ∉ lit) ∧
    (∀ lit ∈ textKeyLiterals, (lit.headD ' ').isAlpha = true) ∧
    (∀ lit ∈ textKeyLiterals, lit ≠ []) ∧
    (∀ lit ∈ textKeyLiterals, lit.headD ' ' ≠ 'a') := by
  refine ⟨?_, ?_, ?_, ?_⟩ <;> decide

theorem validKey_ne_nil (k : List Char) (h : isTextKeyValid k = true) : k ≠ [] := by
  rintro rfl
  simp [isTextKeyValid, lowerL, textKeyLiterals, actionFormOk, startsWithL, S] at h

theorem validKey_head (k : List Char) (h : isTextKeyValid k = true) :
    ∃ c cs, k = c :: cs ∧ (c.toLower).isAlpha = true := by
  cases k with
  | nil => exact absurd rfl (validKey_ne_nil [] h)
  | cons c cs =>
    refine ⟨c, cs, rfl, ?_⟩
    unfold isTextKeyValid at h
    simp only [Bool.or_eq_true] at h
    rcases h with h | h
    · have hmem : lowerL (c :: cs) ∈ textKeyLiterals := by
        simpa using h
      have := literal_facts.2.1 _ hmem
      simpa [lowerL] using this
    · unfold actionFormOk at h
      simp only [Bool.and_eq_true] at h
      have h1 := h.1
      have hl : lowerL (c :: cs) = c.toLower :: lowerL cs := rfl
      rw [hl] at h1
      have ha : c.toLower = 'a' := by
        have hstep : startsWithL (S "action_") (c.toLower :: lowerL cs)
            = (decide ('a' = c.toLower) && startsWithL (S "ction_") (lowerL cs)) := rfl
        rw [hstep] at h1
        simp only [Bool.and_eq_true, decide_eq_true_eq] at h1
        exact h1.1.symm
      rw [ha]
      decide

theorem startsWithL_prepend : ∀ (p r : List Char), startsWithL p (p ++ r) = true := by
  intro p
  induction p with
  | nil => intro r; rfl
  | cons a ps ih => intro r; simp [startsWithL, ih]

theorem takeWhile_all (p : Char → Bool) :
    ∀ (l : List Char), (∀ c ∈ l, p c = true) → l.takeWhile p = l := by
  intro l h
  induction l with
  | nil => rfl
  | cons c cs ih =>
    rw [List.takeWhile_cons, if_pos (h c (by simp))]
    exact congrArg _ (ih (fun d hd => h d (by simp [hd])))

theorem splitU_no_us : ∀ (l : List Char), '_' ∉ l → splitU l = [l] := by
  intro l h
  induction l with
  | nil => rfl
  | cons c cs ih =>
    have hc : c ≠ '_' := fun hh => h (hh ▸ List.mem_cons_self c cs)
    have hcs := ih (fun hh => h (List.mem_cons_of_mem c hh))
    rw [splitU_cons_ne c cs hc cs [] hcs]

theorem take_append_exact {α : Type} :
    ∀ (A : List α) (B : List α) (t : Nat),
      (A ++ B).take (A.length + t) = A ++ B.take t := by
  intro A
  induction A with
  | nil => intro B t; simp
  | cons a A ih =>
    intro B t
    simp only [List.cons_append, List.length_cons, List.take_cons]
    rw [Nat.succ_add]
    simp only [List.take_succ_cons]
    exact congrArg _ (ih B t)

theorem drop_append_exact {α : Type} :
    ∀ (A : List α) (B : List α) (t : Nat),
      (A ++ B).drop (A.length + t) = B.drop t := by
  intro A
  induction A with
  | nil => intro B t; simp
  | cons a A ih =>
    intro B t
    simp only [List.cons_append, List.length_cons]
    rw [Nat.succ_add]
    simp only [List.drop_succ_cons]
    exact ih B t

theorem digit_prefix_eq (d1 : List Char) :
    ∀ (d2 r1 r2 : List Char),
      (∀ c ∈ d1, c.isDigit = true) → (∀ c ∈ d2, c.isDigit = true) →
      (∀ c cs, r1 = c :: cs → c.isDigit = false) →
      (∀ c cs, r2 = c :: cs → c.isDigit = false) →
      d1 ++ r1 = d2 ++ r2 → d1 = d2 ∧ r1 = r2 := by
  intro d2 r1 r2 h1 h2 hr1 hr2 heq
  have e1 : (d1 ++ r1).takeWhile Char.isDigit = d1 :=
    (takeWhile_append_all Char.isDigit d1 h1 r1 hr1).1
  have e2 : (d2 ++ r2).takeWhile Char.isDigit = d2 :=
    (takeWhile_append_all Char.isDigit d2 h2 r2 hr2).1
  have hd : d1 = d2 := by rw [← e1, ← e2, heq]
  refine ⟨hd, ?_⟩
  subst hd
  exact List.append_cancel_left heq

theorem validKey_no_append (k : List Char) (hk : isTextKeyValid k = true)
    (w : List Char) : isTextKeyValid (k ++ '_' :: w) = false := by
  by_contra hh
  have h2 : isTextKeyValid (k ++ '_' :: w) = true := by
    revert hh; cases isTextKeyValid (k ++ '_' :: w) <;> simp
  have hlw : lowerL (k ++ '_' :: w) = lowerL k ++ '_' :: lowerL w := by
    show (k ++ '_' :: w).map Char.toLower = _
    rw [List.map_append, List.map_cons]
    rfl
  unfold isTextKeyValid at h2
  rw [hlw] at h2
  simp only [Bool.or_eq_true] at h2
  have hkne : k ≠ [] := validKey_ne_nil k hk
  have hlkne : lowerL k ≠ [] := by
    intro hh2
    exact hkne (List.map_eq_nil_iff.mp hh2)
  have eTc : S "_text" = ['_', 't', 'e', 'x', 't'] := rfl
  have eDc : S "_displayname" =
      ['_', 'd', 'i', 's', 'p', 'l', 'a', 'y', 'n', 'a', 'm', 'e'] := rfl
  rcases h2 with h2 | h2
  · have hmem : lowerL k ++ '_' :: lowerL w ∈ textKeyLiterals := by simpa using h2
    exact literal_facts.1 _ hmem (by simp)
  · obtain ⟨ds, hdne, hdig, hform⟩ := actionFormOk_inv _ h2
    unfold isTextKeyValid at hk
    simp only [Bool.or_eq_true] at hk
    rcases hk with hk | hk
    · -- lowered k is a literal: its head cannot be 'a'
      have hmem : lowerL k ∈ textKeyLiterals := by simpa using hk
      have hhead := literal_facts.2.2.2 _ hmem
      cases hlk : lowerL k with
      | nil => exact hlkne hlk
      | cons c t =>
        have hca : c = 'a' := by
          rcases hform with hf | hf
          · rw [hlk] at hf
            have hf2 : c :: (t ++ '_' :: lowerL w)
                = 'a' :: (S "ction_" ++ ds ++ S "_text") := by
              rw [← List.cons_append]
              rw [hf]
              simp [S]
            injection hf2 with hc _
          · rw [hlk] at hf
            have hf2 : c :: (t ++ '_' :: lowerL w)
                = 'a' :: (S "ction_" ++ ds ++ S "_displayname") := by
              rw [← List.cons_append]
              rw [hf]
              simp [S]
            injection hf2 with hc _
        rw [hlk, hca] at hhead
        simp at hhead
    · -- lowered k is itself an action form: digit runs must coincide
      obtain ⟨es, hene, hedig, heform⟩ := actionFormOk_inv _ hk
      have main : ∀ (TE TF : List Char),
          lowerL k = S "action_" ++ es ++ TE →
          lowerL k ++ '_' :: lowerL w = S "action_" ++ ds ++ TF →
          (∀ c cs, TE = c :: cs → c.isDigit = false) →
          (∀ c cs, TF = c :: cs → c.isDigit = false) →
          TE ≠ [] →
          TE ++ '_' :: lowerL w = TF := by
        intro TE TF he hf hTE hTF hTEne
        rw [he] at hf
        simp only [List.append_assoc] at hf
        have hcomb := List.append_cancel_left hf
        have hr1 : ∀ c cs, TE ++ '_' :: lowerL w = c :: cs → c.isDigit = false := by
          intro c cs hc
          cases hTEc : TE with
          | nil => exact absurd hTEc hTEne
          | cons d dt =>
            rw [hTEc, List.cons_append] at hc
            injection hc with h1 _
            rw [← h1]
            exact hTE d dt hTEc
        have hfin := digit_prefix_eq es ds (TE ++ '_' :: lowerL w) TF
          hedig hdig hr1 hTF hcomb
        exact hfin.2
      have hTdig : ∀ c cs, (['_', 't', 'e', 'x', 't'] : List Char) = c :: cs →
          c.isDigit = false := by
        intro c cs hc; injection hc with h1 _; rw [← h1]; decide
      have hDdig : ∀ c cs,
          (['_', 'd', 'i', 's', 'p', 'l', 'a', 'y', 'n', 'a', 'm', 'e'] : List Char)
            = c :: cs → c.isDigit = false := by
        intro c cs hc; injection hc with h1 _; rw [← h1]; decide
      rw [eTc, eDc] at heform hform
      rcases heform with he | he <;> rcases hform with hf | hf
      · have hx := main _ _ he hf hTdig hTdig (by simp)
        simp at hx
      · have hx := main _ _ he hf hTdig hDdig (by simp)
        simp at hx
      · have hx := main _ _ he hf hDdig hTdig (by simp)
        simp at hx
      · have hx := main _ _ he hf hDdig hDdig (by simp)
        simp at hx

theorem findSome?_all_none {α β : Type} (f : α → Option β) :
    ∀ (l : List α), (∀ x ∈ l, f x = none) → l.findSome? f = none := by
  intro l
  induction l with
  | nil => intro _; rfl
  | cons a as ih =>
    intro h
    rw [List.findSome?]
    rw [h a (by simp)]
    exact ih (fun x hx => h x (by simp [hx]))

theorem validKey_split_none (k : List Char) (hk : isTextKeyValid k = true) :
    splitLocalizedTextKey k = none := by
  have hk' := hk
  unfold isTextKeyValid at hk'
  simp only [Bool.or_eq_true] at hk'
  rcases hk' with hlit | hact
  · have hmem : lowerL k ∈ textKeyLiterals := by simpa using hlit
    have hno : '_' ∉ lowerL k := literal_facts.1 _ hmem
    have hnok : '_' ∉ k := by
      intro hin
      refine hno ?_
      have hmm : Char.toLower '_' ∈ lowerL k := List.mem_map_of_mem Char.toLower hin
      simpa using hmm
    unfold splitLocalizedTextKey
    rw [splitU_no_us k hnok]
    simp
  · obtain ⟨ds, hdne, hdig, hform⟩ := actionFormOk_inv _ hact
    have hdnou : '_' ∉ ds := by
      intro hin
      have := hdig '_' hin
      simp [Char.isDigit] at this
    have hsplow : splitU (lowerL k) = [S "action", ds, S "text"] ∨
        splitU (lowerL k) = [S "action", ds, S "displayname"] := by
      rcases hform with hf | hf
      · left
        have hre : lowerL k = S "action" ++ '_' :: (ds ++ '_' :: S "text") := by
          rw [hf]
          simp [S]
        rw [hre, splitU_append, splitU_append,
          splitU_no_us (S "action") (by decide),
          splitU_no_us ds hdnou,
          splitU_no_us (S "text") (by decide)]
        rfl
      · right
        have hre : lowerL k = S "action" ++ '_' :: (ds ++ '_' :: S "displayname") := by
          rw [hf]
          simp [S]
        rw [hre, splitU_append, splitU_append,
          splitU_no_us (S "action") (by decide),
          splitU_no_us ds hdnou,
          splitU_no_us (S "displayname") (by decide)]
        rfl
    have hlen : (splitU k).length = 3 := by
      have h1 : (splitU (lowerL k)).length = 3 := by
        rcases hsplow with h | h <;> simp [h]
      rw [lowerL_splitU] at h1
      simpa using h1
    -- the two candidate bases are invalid
    have hbase2 : isTextKeyValid (joinU ((splitU k).take 2)) = false := by
      have hlow : lowerL (joinU ((splitU k).take 2)) = S "action_" ++ ds := by
        rw [lowerL_joinU, List.map_take, ← lowerL_splitU]
        have : (splitU (lowerL k)).take 2 = [S "action", ds] := by
          rcases hsplow with h | h <;> rw [h] <;> rfl
        rw [this]
        show S "action" ++ '_' :: ds = _
        simp [S]
      unfold isTextKeyValid
      rw [hlow]
      simp only [Bool.or_eq_false_iff]
      constructor
      · by_contra hc
        have hc' : textKeyLiterals.contains (S "action_" ++ ds) = true := by
          revert hc; cases textKeyLiterals.contains (S "action_" ++ ds) <;> simp
        have hmem2 : (S "action_" ++ ds) ∈ textKeyLiterals := by simpa using hc'
        exact literal_facts.1 _ hmem2 (by simp [S])
      · unfold actionFormOk
        rw [startsWithL_prepend]
        have h7 : (S "action_" ++ ds).drop 7 = ds := List.drop_left (S "action_") ds
        have hemp : ds.isEmpty = false := by
          cases ds with
          | nil => exact absurd rfl hdne
          | cons a b => rfl
        simp only [h7, takeWhile_all Char.isDigit ds hdig, List.drop_length, hemp]
        decide
    have hbase1 : isTextKeyValid (joinU ((splitU k).take 1)) = false := by
      have hlow : lowerL (joinU ((splitU k).take 1)) = S "action" := by
        rw [lowerL_joinU, List.map_take, ← lowerL_splitU]
        have : (splitU (lowerL k)).take 1 = [S "action"] := by
          rcases hsplow with h | h <;> rw [h] <;> rfl
        rw [this]
        rfl
      unfold isTextKeyValid
      rw [hlow]
      decide
    unfold splitLocalizedTextKey
    simp only
    rw [hlen]
    rw [if_neg (by omega)]
    have hr : List.range' 1 (3 - 1) = [1, 2] := rfl
    rw [hr]
    refine findSome?_all_none _ _ ?_
    intro x hx
    rcases List.mem_pair.mp hx with rfl | rfl
    · rw [if_neg]
      intro hcond
      rw [show (3 : Nat) - 1 = 2 from rfl] at hcond
      exact absurd hcond.2.2.1 (by rw [hbase2]; simp)
    · rw [if_neg]
      intro hcond
      rw [show (3 : Nat) - 2 = 1 from rfl] at hcond
      exact absurd hcond.2.2.1 (by rw [hbase1]; simp)

theorem range'_split : ∀ (m t s : Nat),
    List.range' s (m + t) = List.range' s m ++ List.range' (s + m) t := by
  intro m
  induction m with
  | zero => intro t s; simp
  | succ n ih =>
    intro t s
    have h1 : n + 1 + t = (n + t) + 1 := by omega
    rw [h1, List.range'_succ, List.range'_succ, ih t (s + 1)]
    have h2 : s + 1 + n = s + (n + 1) := by omega
    rw [h2]
    rfl

theorem findSome?_append_none {α β : Type} (f : α → Option β) :
    ∀ (l₁ l₂ : List α), (∀ x ∈ l₁, f x = none) →
      (l₁ ++ l₂).findSome? f = l₂.findSome? f := by
  intro l₁
  induction l₁ with
  | nil => intro l₂ _; rfl
  | cons a as ih =>
    intro l₂ h
    rw [List.cons_append, List.findSome?, h a (by simp)]
    exact ih l₂ (fun x hx => h x (by simp [hx]))

theorem findSome?_cons_some {α β : Type} (f : α → Option β) (a : α) (l : List α)
    (b : β) (h : f a = some b) : (a :: l).findSome? f = some b := by
  rw [List.findSome?, h]

theorem take_pos_ne_nil {α : Type} (B : List α) (t : Nat) (ht : 1 ≤ t)
    (hB : B ≠ []) : B.take t ≠ [] := by
  cases B with
  | nil => exact absurd rfl hB
  | cons b bs =>
    cases t with
    | zero => omega
    | succ n => simp

theorem splitLocalizedTextKey_append (k suf : List Char)
    (hk : isTextKeyValid k = true) (hf : languageSuffixFullmatch suf = true)
    (hlow : lowerL suf = suf) (hsne : suf ≠ []) :
    splitLocalizedTextKey (k ++ '_' :: suf) = some (k, suf) := by
  have hkne := validKey_ne_nil k hk
  have hAne : splitU k ≠ [] := splitU_ne_nil k
  have hBne : splitU suf ≠ [] := splitU_ne_nil suf
  have hsp : splitU (k ++ '_' :: suf) = splitU k ++ splitU suf := splitU_append k suf
  have hlenA : 1 ≤ (splitU k).length := List.length_pos.mpr hAne
  have hlenB : 1 ≤ (splitU suf).length := List.length_pos.mpr hBne
  unfold splitLocalizedTextKey
  rw [hsp]
  simp only [List.length_append]
  rw [if_neg (by omega)]
  have hsplitr : List.range' 1 ((splitU k).length + (splitU suf).length - 1)
      = List.range' 1 ((splitU suf).length - 1)
        ++ List.range' (splitU suf).length (splitU k).length := by
    have h1 : (splitU k).length + (splitU suf).length - 1
        = ((splitU suf).length - 1) + (splitU k).length := by omega
    rw [h1, range'_split ((splitU suf).length - 1) (splitU k).length 1]
    have h2 : 1 + ((splitU suf).length - 1) = (splitU suf).length := by omega
    rw [h2]
  rw [hsplitr]
  rw [findSome?_append_none _ _ _ ?allnone]
  case allnone =>
    intro x hx
    have hxr : 1 ≤ x ∧ x < 1 + ((splitU suf).length - 1) := by
      have := List.mem_range'_1.mp hx
      exact this
    rw [if_neg]
    intro hcond
    have ht : (splitU k).length + (splitU suf).length - x
        = (splitU k).length + ((splitU suf).length - x) := by omega
    rw [ht, take_append_exact] at hcond
    have hbase : joinU (splitU k ++ (splitU suf).take ((splitU suf).length - x))
        = k ++ '_' :: joinU ((splitU suf).take ((splitU suf).length - x)) := by
      rw [joinU_append _ _ hAne
        (take_pos_ne_nil _ _ (by omega) hBne), joinU_splitU]
    rw [hbase] at hcond
    have hval := validKey_no_append k hk
      (joinU ((splitU suf).take ((splitU suf).length - x)))
    rw [hval] at hcond
    simp at hcond
  · -- the head of the second range block succeeds
    have hA1 : (splitU k).length = ((splitU k).length - 1) + 1 := by omega
    rw [hA1, List.range'_succ]
    refine findSome?_cons_some _ _ _ _ ?_
    have htake : (splitU k).length - 1 + 1 + (splitU suf).length - (splitU suf).length
        = (splitU k).length := by omega
    rw [htake, List.take_left, List.drop_left, joinU_splitU, joinU_splitU]
    rw [if_pos ⟨hkne, hsne, hk, hf⟩, hlow]

theorem exists_of_findSome?_some {α β : Type} (f : α → Option β) :
    ∀ (l : List α) (b : β), l.findSome? f = some b → ∃ a ∈ l, f a = some b := by
  intro l
  induction l with
  | nil => intro b h; simp [List.findSome?] at h
  | cons a as ih =>
    intro b h
    rw [List.findSome?] at h
    cases hfa : f a with
    | some c =>
      rw [hfa] at h
      injection h with h1
      exact ⟨a, by simp, by rw [hfa, h1]⟩
    | none =>
      rw [hfa] at h
      obtain ⟨x, hx, hfx⟩ := ih b h
      exact ⟨x, by simp [hx], hfx⟩

theorem drop_lt_ne_nil {α : Type} (l : List α) (m : Nat) (hm : m < l.length) :
    l.drop m ≠ [] := by
  intro h
  have := List.length_drop m l
  rw [h] at this
  simp at this
  omega

theorem splitLocalizedTextKey_inv (k b suf : List Char)
    (h : splitLocalizedTextKey k = some (b, suf)) :
    ∃ w, k = b ++ '_' :: w ∧ isTextKeyValid b = true ∧ suf = lowerL w ∧ w ≠ []
      ∧ languageSuffixFullmatch w = true ∧ b ≠ [] := by
  unfold splitLocalizedTextKey at h
  by_cases hg : (splitU k).length < 2
  · rw [if_pos hg] at h
    cases h
  · rw [if_neg hg] at h
    obtain ⟨cnt, hcnt, hf⟩ := exists_of_findSome?_some _ _ _ h
    have hrange := List.mem_range'_1.mp hcnt
    have hn2 : 2 ≤ (splitU k).length := by omega
    have hcnt1 : 1 ≤ cnt := hrange.1
    have hcntn : cnt < (splitU k).length := by
      have := hrange.2
      omega
    dsimp only at hf
    split at hf
    · rename_i hcond
      obtain ⟨hbne, hsufne, hvalid, hfull⟩ := hcond
      injection hf with hf1
      have hb : b = joinU ((splitU k).take ((splitU k).length - cnt)) := by
        have := congrArg Prod.fst hf1
        exact this.symm
      have hs : suf = lowerL (joinU ((splitU k).drop ((splitU k).length - cnt))) := by
        have := congrArg Prod.snd hf1
        exact this.symm
      refine ⟨joinU ((splitU k).drop ((splitU k).length - cnt)), ?_, ?_, hs, ?_, ?_, ?_⟩
      · have hkj : k = joinU (splitU k) := (joinU_splitU k).symm
        conv_lhs => rw [hkj, ← List.take_append_drop ((splitU k).length - cnt) (splitU k)]
        rw [joinU_append _ _
          (take_pos_ne_nil _ _ (by omega) (splitU_ne_nil k))
          (drop_lt_ne_nil _ _ (by omega)), hb]
      · rw [hb]; exact hvalid
      · exact hsufne
      · exact hfull
      · rw [hb]; exact hbne
    · cases hf

theorem localized_not_valid (k b suf : List Char)
    (h : splitLocalizedTextKey k = some (b, suf)) : isTextKeyValid k = false := by
  obtain ⟨w, hk, hb, -, -, -, -⟩ := splitLocalizedTextKey_inv k b suf h
  rw [hk]
  exact validKey_no_append b hb w

theorem toLower_idem (d : Char) : (d.toLower).toLower = d.toLower := by
  by_cases hc : d.toNat ≥ 65 ∧ d.toNat ≤ 90
  · have h1 : d.toLower = Char.ofNat (d.toNat + 32) := by
      unfold Char.toLower
      simp only
      rw [if_pos hc]
    have hvalid : (d.toNat + 32).isValidChar := Or.inl (by omega)
    have htn : (Char.ofNat (d.toNat + 32)).toNat = d.toNat + 32 := by
      rw [Char.ofNat, dif_pos hvalid]
      simp [Char.ofNatAux, Char.toNat, UInt32.toNat, BitVec.ofNatLt]
    rw [h1]
    unfold Char.toLower
    simp only
    rw [if_neg (by rw [htn]; omega)]
  · have h1 : d.toLower = d := by
      unfold Char.toLower
      simp only
      rw [if_neg hc]
    rw [h1, h1]

theorem lowerL_idem (l : List Char) : lowerL (lowerL l) = lowerL l := by
  unfold lowerL
  rw [List.map_map]
  exact List.map_congr_left (fun c _ => toLower_idem c)

theorem alookup_mem {α β : Type} [DecidableEq α] (k : α) :
    ∀ (l : List (α × β)) (v : β), alookup k l = some v → (k, v) ∈ l := by
  intro l
  induction l with
  | nil => intro v h; simp [alookup] at h
  | cons p ps ih =>
    intro v h
    unfold alookup at h
    by_cases hk : k = p.1
    · rw [if_pos hk] at h
      injection h with h1
      subst h1 hk
      simp
    · rw [if_neg hk] at h
      exact List.mem_cons_of_mem _ (ih v h)

theorem languageTagPrimary_inv (l p : List Char) (h : languageTagPrimary l = some p) :
    p = lowerL (l.takeWhile Char.isAlpha) ∧
    2 ≤ (l.takeWhile Char.isAlpha).length ∧ (l.takeWhile Char.isAlpha).length ≤ 3 := by
  unfold languageTagPrimary at h
  dsimp only at h
  split at h
  · injection h with h1
    rename_i hc
    exact ⟨h1.symm, hc.1, hc.2.1⟩
  · cases h

theorem normalizeLanguageSuffix_props (lang dflt : List Char)
    (hd : 2 ≤ dflt.length ∧ dflt.length ≤ 3 ∧
      ∀ c ∈ dflt, c.isAlpha = true ∧ c.toLower = c) :
    2 ≤ (normalizeLanguageSuffix lang dflt).length ∧
    (normalizeLanguageSuffix lang dflt).length ≤ 3 ∧
    (∀ c ∈ normalizeLanguageSuffix lang dflt, c.isAlpha = true ∧ c.toLower = c) := by
  unfold normalizeLanguageSuffix
  by_cases h0 : lang = []
  · rw [if_pos h0]
    exact hd
  · rw [if_neg h0]
    by_cases h1 : normalizeToken (pyStrip lang) = []
    · rw [if_pos h1]
      exact hd
    · rw [if_neg h1]
      cases halo : alookup (normalizeToken (pyStrip lang)) languageAliases with
      | some a =>
        have hmem := alookup_mem _ _ _ halo
        have hall : ∀ pr ∈ languageAliases,
            2 ≤ pr.2.length ∧ pr.2.length ≤ 3 ∧
            ∀ c ∈ pr.2, c.isAlpha = true ∧ c.toLower = c := by decide
        exact hall _ hmem
      | none =>
        by_cases h2 : (containsL (S "中文") lang || containsL (S "汉化") lang) = true
        · rw [if_pos h2]
          decide
        · rw [if_neg h2]
          by_cases h3 : containsL (S "俄") lang = true
          · rw [if_pos h3]
            decide
          · rw [if_neg h3]
            cases hp : languageTagPrimary (normalizeToken (pyStrip lang)) with
            | some p =>
              obtain ⟨hpe, hl2, hl3⟩ := languageTagPrimary_inv _ _ hp
              subst hpe
              refine ⟨by simpa [lowerL] using hl2, by simpa [lowerL] using hl3, ?_⟩
              intro c hc
              rw [lowerL, List.mem_map] at hc
              obtain ⟨d, hd2, rfl⟩ := hc
              have hda : d.isAlpha = true := List.mem_takeWhile_imp hd2
              exact ⟨toLower_isAlpha d hda, toLower_idem d⟩
            | none =>
              exact hd

theorem orderedDedup_shape :
    ∀ (l seen : List (List Char)) (x : List Char), x ∈ orderedDedup seen l →
      ∃ v ∈ l, x = lowerL (pyStrip v) ∧ x ≠ [] := by
  intro l
  induction l with
  | nil => intro seen x hx; simp [orderedDedup] at hx
  | cons v rest ih =>
    intro seen x hx
    unfold orderedDedup at hx
    dsimp only at hx
    split at hx
    · obtain ⟨w, hw, hx2⟩ := ih seen x hx
      exact ⟨w, by simp [hw], hx2⟩
    · rename_i hcond
      rcases List.mem_cons.mp hx with rfl | hx2
      · refine ⟨v, by simp, rfl, ?_⟩
        intro he
        exact hcond (Or.inl he)
      · obtain ⟨w, hw, hx3⟩ := ih _ x hx2
        exact ⟨w, by simp [hw], hx3⟩

theorem target_suffix_props (tgt : List Char) :
    ∀ suf ∈ resolveTargetLanguageSuffixes tgt,
      suf ≠ [] ∧ lowerL suf = suf ∧ languageSuffixFullmatch suf = true ∧
      (∀ c ∈ suf, c.isAlpha = true ∨ c = '_') := by
  have hsfx := normalizeLanguageSuffix_props (pyStrip tgt) (S "zh") (by decide)
  obtain ⟨hs2, hs3, hschar⟩ := hsfx
  have hrts : resolveTargetLanguageSuffixes tgt
      = orderedDedup []
          ((alookup (normalizeLanguageSuffix (pyStrip tgt) (S "zh"))
            languageSuffixVariants).getD
            [normalizeLanguageSuffix (pyStrip tgt) (S "zh")]) := rfl
  rw [hrts]
  cases halo : alookup (normalizeLanguageSuffix (pyStrip tgt) (S "zh"))
      languageSuffixVariants with
  | some vs =>
    have hmem := alookup_mem _ _ _ halo
    simp only [languageSuffixVariants, List.mem_cons, List.not_mem_nil,
      or_false] at hmem
    simp only [Option.getD_some]
    rcases hmem with h | h | h | h | h <;>
      (injection h with h1 h2; subst h2; decide)
  | none =>
    have hpy : pyStrip (normalizeLanguageSuffix (pyStrip tgt) (S "zh"))
        = normalizeLanguageSuffix (pyStrip tgt) (S "zh") := by
      refine pyStrip_eq_self _ ?_ ?_
      · intro c cs hc
        have hcm : c ∈ normalizeLanguageSuffix (pyStrip tgt) (S "zh") := by
          rw [hc]; simp
        exact (isAlpha_props c (hschar c hcm).1).1
      · intro c hc
        have hcm : c ∈ normalizeLanguageSuffix (pyStrip tgt) (S "zh") := by
          have h2 : (normalizeLanguageSuffix (pyStrip tgt) (S "zh")).reverse.head?
              = some c := by
            rw [List.head?_reverse]
            exact hc
          cases hrev : (normalizeLanguageSuffix (pyStrip tgt) (S "zh")).reverse with
          | nil => rw [hrev] at h2; cases h2
          | cons b bs =>
            rw [hrev] at h2
            injection h2 with h3
            rw [← List.mem_reverse, hrev, h3]
            simp
        exact (isAlpha_props c (hschar c hcm).1).1
    have hlow : lowerL (normalizeLanguageSuffix (pyStrip tgt) (S "zh"))
        = normalizeLanguageSuffix (pyStrip tgt) (S "zh") := by
      unfold lowerL
      have hmc := List.map_congr_left (fun c hc =>
        (hschar c hc).2)
      rw [hmc, List.map_id']
    have hne : normalizeLanguageSuffix (pyStrip tgt) (S "zh") ≠ [] := by
      intro he
      rw [he] at hs2
      simp at hs2
    have hdd : orderedDedup [] [normalizeLanguageSuffix (pyStrip tgt) (S "zh")]
        = [normalizeLanguageSuffix (pyStrip tgt) (S "zh")] := by
      unfold orderedDedup
      rw [hpy, hlow]
      rw [if_neg (by simp [hne])]
      rfl
    simp only [Option.getD_none, hdd]
    intro suf hsuf
    rcases List.mem_singleton.mp hsuf with rfl
    refine ⟨hne, hlow, ?_, ?_⟩
    · unfold languageSuffixFullmatch languageTagPrimary
      have htw : (normalizeLanguageSuffix (pyStrip tgt) (S "zh")).takeWhile Char.isAlpha
          = normalizeLanguageSuffix (pyStrip tgt) (S "zh") :=
        takeWhile_all _ _ (fun c hc => (hschar c hc).1)
      rw [htw]
      rw [if_pos ⟨hs2, hs3, by rw [List.drop_length]; rfl⟩]
      rfl
    · intro c hc
      exact Or.inl (hschar c hc).1

theorem parseLineStep_kv_inv (sect l : List Char) (l' s i k p : List Char)
    (sp : Char) (po v : List Char)
    (h : parseLineStep sect l = .kv l' s i k p sp po v) :
    l' = l ∧ s = sect ∧ isCommentOrBlank (pyStrip l) = false ∧
    isSectionHeader (pyStrip l) = false ∧
    ∃ kr, matchKV l = some ⟨i, kr, p, sp, po, v⟩ ∧ k = pyStrip kr := by
  unfold parseLineStep at h
  dsimp only at h
  by_cases h1 : isCommentOrBlank (pyStrip l) = true
  · rw [if_pos h1] at h; cases h
  · rw [if_neg h1] at h
    by_cases h2 : isSectionHeader (pyStrip l) = true
    · rw [if_pos h2] at h; cases h
    · rw [if_neg h2] at h
      cases hm : matchKV l with
      | none => rw [hm] at h; cases h
      | some g =>
        rw [hm] at h
        injection h with e1 e2 e3 e4 e5 e6 e7 e8
        refine ⟨e1.symm, e2.symm, by simpa using h1, by simpa using h2,
          g.keyRaw, ?_, e4.symm⟩
        rw [← e3, ← e5, ← e6, ← e7, ← e8]

theorem nextSect_not_special (sect l : List Char)
    (h1 : isCommentOrBlank (pyStrip l) = false)
    (h2 : isSectionHeader (pyStrip l) = false) : nextSect sect l = sect := by
  unfold nextSect
  simp [h1, h2]

theorem opensBlock_noTriple (sect l : List Char) (h : hasTriple l = false) :
    opensBlock sect l = false := by
  unfold opensBlock
  cases hp : parseLineStep sect l with
  | raw _ => rfl
  | kv l' s i k p sp po v =>
    obtain ⟨hl, hs, hcb, hsh, kr, hmkv, hkey⟩ :=
      parseLineStep_kv_inv sect l l' s i k p sp po v hp
    obtain ⟨hdec, -, -, -, -, -, -⟩ := matchKV_inv l _ hmkv
    have hv : hasTriple v = false := by
      refine hasTriple_append_right (i ++ kr ++ p ++ sp :: po) v ?_
      simp only at hdec
      rw [← hdec]
      exact h
    show decide (countTriple v % 2 = 1) = false
    rw [countTriple_eq_zero v hv]
    rfl

theorem chainFrom_parseAux : ∀ (L : List PLine) (sect : List Char),
    chainFrom sect L → parseAux sect false (L.map PLine.lineOf) = L := by
  intro L
  induction L with
  | nil => intro sect _; rfl
  | cons item rest ih =>
    intro sect h
    obtain ⟨h1, h2, h3⟩ := h
    rw [List.map_cons]
    show parseLineStep sect item.lineOf ::
      parseAux (nextSect sect item.lineOf) (opensBlock sect item.lineOf)
        (rest.map PLine.lineOf) = item :: rest
    rw [h1, h2, ih _ h3]

theorem parseAux_chainFrom : ∀ (lines : List (List Char)) (sect : List Char),
    (∀ l ∈ lines, hasTriple l = false) →
    chainFrom sect (parseAux sect false lines) := by
  intro lines
  induction lines with
  | nil => intro sect _; trivial
  | cons l rest ih =>
    intro sect h
    have hob : opensBlock sect l = false := opensBlock_noTriple sect l (h l (by simp))
    show chainFrom sect
      (parseLineStep sect l :: parseAux (nextSect sect l) (opensBlock sect l) rest)
    rw [hob]
    refine ⟨?_, ?_, ?_⟩
    · rw [parseLineStep_lineOf]
    · rw [parseLineStep_lineOf, hob]
    · rw [parseLineStep_lineOf]
      exact ih _ (fun x hx => h x (by simp [hx]))

theorem chainFrom_append : ∀ (X : List PLine) (sect : List Char) (Y : List PLine),
    chainFrom sect X →
    chainFrom (X.foldl (fun s it => nextSect s it.lineOf) sect) Y →
    chainFrom sect (X ++ Y) := by
  intro X
  induction X with
  | nil => intro sect Y _ hY; exact hY
  | cons item rest ih =>
    intro sect Y hX hY
    obtain ⟨h1, h2, h3⟩ := hX
    exact ⟨h1, h2, ih _ Y h3 hY⟩

theorem kv_chain_step (sect ind key pre : List Char) (sep : Char)
    (post tv : List Char)
    (hind : ∀ c ∈ ind, isPySpace c = true)
    (hpre : ∀ c ∈ pre, isPySpace c = true)
    (hpost : ∀ c ∈ post, isPySpace c = true)
    (hsep : sep = ':' ∨ sep = '=')
    (hkd : ∀ c ∈ key, c ≠ ':' ∧ c ≠ '=')
    (hkh : ∀ c cs, key = c :: cs →
      isPySpace c = false ∧ c ≠ '#' ∧ c ≠ ';' ∧ c ≠ '[')
    (hkl : ∀ c, key.getLast? = some c → isPySpace c = false)
    (hkne : key ≠ [])
    (hvh : ∀ c cs, tv = c :: cs → isPySpace c = false)
    (hvl : ∀ c, tv.getLast? = some c → isPySpace c = false)
    (hvne : tv ≠ [])
    (hvnt : hasTriple tv = false) :
    parseLineStep sect (ind ++ key ++ pre ++ sep :: post ++ tv)
      = .kv (ind ++ key ++ pre ++ sep :: post ++ tv) sect ind key pre sep post tv
    ∧ opensBlock sect (ind ++ key ++ pre ++ sep :: post ++ tv) = false
    ∧ nextSect sect (ind ++ key ++ pre ++ sep :: post ++ tv) = sect := by
  obtain ⟨kc, kcs, hkey⟩ : ∃ c cs, key = c :: cs := by
    cases key with
    | nil => exact absurd rfl hkne
    | cons c cs => exact ⟨c, cs, rfl⟩
  have hstrip : pyStrip (ind ++ key ++ pre ++ sep :: post ++ tv)
      = key ++ pre ++ sep :: post ++ tv := by
    have hlR : ind ++ key ++ pre ++ sep :: post ++ tv
        = ind ++ (key ++ pre ++ sep :: post ++ tv) := by
      simp [List.append_assoc]
    have hRhead : ∀ c cs, key ++ pre ++ sep :: post ++ tv = c :: cs →
        isPySpace c = false := by
      intro c cs hc
      rw [hkey] at hc
      have hkc : kc = c := by
        rw [List.cons_append, List.cons_append, List.cons_append] at hc
        injection hc with hd _
      rw [← hkc]
      exact (hkh kc kcs hkey).1
    have hrev : ∀ c cs, (key ++ pre ++ sep :: post ++ tv).reverse = c :: cs →
        isPySpace c = false := by
      intro c cs hc
      have hlast : (key ++ pre ++ sep :: post ++ tv).getLast? = some c := by
        rw [← List.head?_reverse, hc]
        rfl
      cases htv : tv.getLast? with
      | none =>
        have : tv = [] := by
          cases tv with
          | nil => rfl
          | cons a b =>
            rw [List.getLast?_cons] at htv
            simp at htv
        exact absurd this hvne
      | some d =>
        rw [List.getLast?_append, htv] at hlast
        have hdc : d = c := by
          simp [Option.or] at hlast
          exact hlast
        exact hvl c (by rw [htv, hdc])
    unfold pyStrip
    rw [hlR, (takeWhile_append_all isPySpace ind hind _ hRhead).2,
      dropWhile_eq_self_of_head isPySpace _ hrev, List.reverse_reverse]
  have hcb : isCommentOrBlank (pyStrip (ind ++ key ++ pre ++ sep :: post ++ tv))
      = false := by
    rw [hstrip, hkey]
    show isCommentOrBlank (kc :: (kcs ++ pre ++ sep :: post ++ tv)) = false
    unfold isCommentOrBlank
    obtain ⟨-, hk2, hk3, -⟩ := hkh kc kcs hkey
    simp [hk2, hk3]
  have hsh : isSectionHeader (pyStrip (ind ++ key ++ pre ++ sep :: post ++ tv))
      = false := by
    rw [hstrip, hkey]
    show isSectionHeader (kc :: (kcs ++ pre ++ sep :: post ++ tv)) = false
    unfold isSectionHeader
    obtain ⟨-, -, -, hk4⟩ := hkh kc kcs hkey
    simp [hk4]
  have hmkv := matchKV_recon ind key pre sep post tv hind hpre hpost hsep hkd
    hkne (fun c cs hc => (hkh c cs hc).1) hkl hvh
  have hpls : parseLineStep sect (ind ++ key ++ pre ++ sep :: post ++ tv)
      = .kv (ind ++ key ++ pre ++ sep :: post ++ tv) sect ind key pre sep post tv := by
    unfold parseLineStep
    dsimp only
    rw [if_neg (by rw [hcb]; simp), if_neg (by rw [hsh]; simp), hmkv]
    have hps : pyStrip key = key :=
      pyStrip_eq_self key (fun c cs hc => (hkh c cs hc).1) hkl
    dsimp only
    rw [hps]
  refine ⟨hpls, ?_, nextSect_not_special sect _ hcb hsh⟩
  unfold opensBlock
  rw [hpls]
  show decide (countTriple tv % 2 = 1) = false
  rw [countTriple_eq_zero tv hvnt]
  rfl

theorem getLast?_isSome_of_ne {α : Type} :
    ∀ (l : List α), l ≠ [] → ∃ y, l.getLast? = some y := by
  intro l
  induction l with
  | nil => intro h; exact absurd rfl h
  | cons a as ih =>
    intro _
    cases as with
    | nil => exact ⟨a, rfl⟩
    | cons b bs =>
      obtain ⟨y, hy⟩ := ih (by simp)
      exact ⟨y, by rw [List.getLast?_cons_cons]; exact hy⟩

theorem getLast?_cons_or {α : Type} (a : α) (l : List α) :
    (a :: l).getLast? = l.getLast?.or (some a) := by
  cases l with
  | nil => rfl
  | cons b bs =>
    rw [List.getLast?_cons_cons]
    obtain ⟨y, hy⟩ := getLast?_isSome_of_ne (b :: bs) (by simp)
    rw [hy]
    rfl

theorem getLast?_mem {α : Type} :
    ∀ (l : List α) (a : α), l.getLast? = some a → a ∈ l := by
  intro l a h
  have h2 : l.reverse.head? = some a := by rw [List.head?_reverse]; exact h
  cases hrev : l.reverse with
  | nil => rw [hrev] at h2; cases h2
  | cons b bs =>
    rw [hrev] at h2
    injection h2 with h3
    rw [← List.mem_reverse, hrev, h3]
    simp

theorem tbpStep_kv (m : List Char → Option (List Char))
    (lv acc : List (SPair × List Char)) (l sect ind key pre : List Char)
    (sep : Char) (post v : List Char) :
    tbpStep m lv acc (.kv l sect ind key pre sep post v)
      = if isTextKeyValid key = true then
          (if sourceTextOf lv sect key v = [] then acc
           else (((sect, key) : SPair),
             sanitizeSingleLineValue
               ((m (sourceTextOf lv sect key v)).getD
                 (sourceTextOf lv sect key v))) :: acc)
        else acc := rfl

theorem tbpContrib_kv (m : List Char → Option (List Char))
    (lv : List (SPair × List Char)) (p : SPair) (l sect ind key pre : List Char)
    (sep : Char) (post v : List Char) :
    tbpContrib m lv p (.kv l sect ind key pre sep post v)
      = if isTextKeyValid key = true then
          (if sourceTextOf lv sect key v = [] then none
           else if ((sect, key) : SPair) = p then
             some (sanitizeSingleLineValue
               ((m (sourceTextOf lv sect key v)).getD
                 (sourceTextOf lv sect key v)))
           else none)
        else none := rfl

theorem alookup_cons_ne {α β : Type} [DecidableEq α] (k k' : α) (v : β)
    (rest : List (α × β)) (h : ¬k = k') :
    alookup k ((k', v) :: rest) = alookup k rest := by
  conv_lhs => rw [alookup.eq_def]
  dsimp only
  rw [if_neg h]

theorem alookup_cons_eq {α β : Type} [DecidableEq α] (k : α) (v : β)
    (rest : List (α × β)) : alookup k ((k, v) :: rest) = some v := by
  conv_lhs => rw [alookup.eq_def]
  dsimp only
  rw [if_pos rfl]

theorem tbpFold_eq (m : List Char → Option (List Char))
    (lv : List (SPair × List Char)) :
    ∀ (items : List PLine) (acc : List (SPair × List Char)) (p : SPair),
      alookup p (items.foldl (tbpStep m lv) acc)
        = ((items.filterMap (tbpContrib m lv p)).getLast?).or (alookup p acc) := by
  intro items
  induction items with
  | nil => intro acc p; simp [Option.or]
  | cons item rest ih =>
    intro acc p
    rw [List.foldl_cons, ih, List.filterMap_cons]
    cases item with
    | raw l => rfl
    | kv l sect ind key pre sep post v =>
      rw [tbpStep_kv, tbpContrib_kv]
      by_cases h1 : isTextKeyValid key = true
      · rw [if_pos h1, if_pos h1]
        by_cases h2 : sourceTextOf lv sect key v = []
        · rw [if_pos h2, if_pos h2]
        · rw [if_neg h2, if_neg h2]
          by_cases h3 : ((sect, key) : SPair) = p
          · rw [if_pos h3]
            rw [getLast?_cons_or, Option.or_assoc]
            congr 1
            subst h3
            rw [alookup_cons_eq]
            simp [Option.or]
          · rw [if_neg h3]
            congr 1
            rw [alookup_cons_ne _ _ _ _ (fun he => h3 he.symm)]
      · rw [if_neg h1, if_neg h1]

theorem lvStep_kv (acc : List (SPair × List Char)) (l sect ind key pre : List Char)
    (sep : Char) (post v : List Char) :
    lvStep acc (.kv l sect ind key pre sep post v)
      = match splitLocalizedTextKey key with
        | none => acc
        | some (b, _) =>
          if pyStrip v = [] then acc
          else if (alookup ((sect, b) : SPair) acc).isSome then acc
          else (((sect, b) : SPair), pyStrip v) :: acc := rfl

theorem lvEntry_kv (p : SPair) (l sect ind key pre : List Char)
    (sep : Char) (post v : List Char) :
    lvEntry p (.kv l sect ind key pre sep post v)
      = match splitLocalizedTextKey key with
        | none => none
        | some (b, _) =>
          if pyStrip v = [] then none
          else if ((sect, b) : SPair) = p then some (pyStrip v) else none := rfl

theorem lvFold_eq :
    ∀ (items : List PLine) (acc : List (SPair × List Char)) (p : SPair),
      alookup p (items.foldl lvStep acc)
        = (alookup p acc).or ((items.filterMap (lvEntry p)).head?) := by
  intro items
  induction items with
  | nil =>
    intro acc p
    rw [List.foldl_nil, List.filterMap_nil]
    cases alookup p acc <;> rfl
  | cons item rest ih =>
    intro acc p
    rw [List.foldl_cons, ih, List.filterMap_cons]
    cases item with
    | raw l => rfl
    | kv l sect ind key pre sep post v =>
      rw [lvStep_kv, lvEntry_kv]
      cases hsp : splitLocalizedTextKey key with
      | none => rfl
      | some bs =>
        obtain ⟨b, suf⟩ := bs
        dsimp only
        by_cases h1 : pyStrip v = []
        · rw [if_pos h1, if_pos h1]
        · rw [if_neg h1, if_neg h1]
          by_cases h2 : ((sect, b) : SPair) = p
          · rw [if_pos h2]
            subst h2
            cases hal : alookup ((sect, b) : SPair) acc with
            | some w =>
              rw [if_pos (show (some w).isSome = true from rfl), hal]
              rfl
            | none =>
              rw [if_neg (show ¬(none : Option (List Char)).isSome = true by simp),
                alookup_cons_eq]
              rfl
          · rw [if_neg h2]
            by_cases h3 : (alookup ((sect, b) : SPair) acc).isSome = true
            · rw [if_pos h3]
            · rw [if_neg h3, alookup_cons_ne _ _ _ _ (fun he => h2 he.symm)]

theorem lv_values_ne_nil :
    ∀ (items : List PLine) (acc : List (SPair × List Char)),
      (∀ q w, alookup q acc = some w → w ≠ []) →
      ∀ q w, alookup q (items.foldl lvStep acc) = some w → w ≠ [] := by
  intro items
  induction items with
  | nil => intro acc hacc q w h; exact hacc q w h
  | cons item rest ih =>
    intro acc hacc q w h
    rw [List.foldl_cons] at h
    refine ih _ ?_ q w h
    intro q2 w2 h2
    cases item with
    | raw l => exact hacc q2 w2 h2
    | kv l sect ind key pre sep post v =>
      rw [lvStep_kv] at h2
      revert h2
      cases hsp : splitLocalizedTextKey key with
      | none => exact hacc q2 w2
      | some bs =>
        obtain ⟨b, suf⟩ := bs
        dsimp only
        by_cases h1 : pyStrip v = []
        · rw [if_pos h1]; exact hacc q2 w2
        · rw [if_neg h1]
          by_cases h3 : (alookup ((sect, b) : SPair) acc).isSome = true
          · rw [if_pos h3]; exact hacc q2 w2
          · rw [if_neg h3]
            intro h2
            by_cases h4 : q2 = ((sect, b) : SPair)
            · subst h4
              rw [alookup_cons_eq] at h2
              injection h2 with h5
              rw [← h5]
              exact h1
            · rw [alookup_cons_ne _ _ _ _ h4] at h2
              exact hacc q2 w2 h2

theorem esStep_kv (acc : List (SPair × List Char)) (l sect ind key pre : List Char)
    (sep : Char) (post v : List Char) :
    esStep acc (.kv l sect ind key pre sep post v)
      = match splitLocalizedTextKey key with
        | none => acc
        | some (b, suf) => (((sect, b) : SPair), suf) :: acc := rfl

theorem esEnt_kv (l sect ind key pre : List Char) (sep : Char) (post v : List Char) :
    esEnt (.kv l sect ind key pre sep post v)
      = match splitLocalizedTextKey key with
        | none => none
        | some (b, suf) => some (((sect, b) : SPair), suf) := rfl

theorem esFold_mem :
    ∀ (items : List PLine) (acc : List (SPair × List Char)) (x : SPair × List Char),
      x ∈ items.foldl esStep acc ↔
        x ∈ acc ∨ ∃ item ∈ items, esEnt item = some x := by
  intro items
  induction items with
  | nil => intro acc x; simp
  | cons item rest ih =>
    intro acc x
    rw [List.foldl_cons, ih]
    cases item with
    | raw l =>
      show x ∈ acc ∨ _ ↔ _
      constructor
      · rintro (h | h)
        · exact Or.inl h
        · exact Or.inr (by obtain ⟨it, hit, he⟩ := h; exact ⟨it, by simp [hit], he⟩)
      · rintro (h | ⟨it, hit, he⟩)
        · exact Or.inl h
        · rcases List.mem_cons.mp hit with rfl | hit2
          · cases he
          · exact Or.inr ⟨it, hit2, he⟩
    | kv l sect ind key pre sep post v =>
      rw [esStep_kv]
      cases hsp : splitLocalizedTextKey key with
      | none =>
        constructor
        · rintro (h | h)
          · exact Or.inl h
          · exact Or.inr (by obtain ⟨it, hit, he⟩ := h; exact ⟨it, by simp [hit], he⟩)
        · rintro (h | ⟨it, hit, he⟩)
          · exact Or.inl h
          · rcases List.mem_cons.mp hit with rfl | hit2
            · rw [esEnt_kv, hsp] at he; cases he
            · exact Or.inr ⟨it, hit2, he⟩
      | some bs =>
        obtain ⟨b, suf⟩ := bs
        dsimp only
        constructor
        · rintro (h | h)
          · rcases List.mem_cons.mp h with rfl | h2
            · exact Or.inr ⟨.kv l sect ind key pre sep post v, by simp,
                by rw [esEnt_kv, hsp]⟩
            · exact Or.inl h2
          · exact Or.inr (by obtain ⟨it, hit, he⟩ := h; exact ⟨it, by simp [hit], he⟩)
        · rintro (h | ⟨it, hit, he⟩)
          · exact Or.inl (List.mem_cons_of_mem _ h)
          · rcases List.mem_cons.mp hit with rfl | hit2
            · rw [esEnt_kv, hsp] at he
              injection he with he2
              exact Or.inl (by rw [← he2]; simp)
            · exact Or.inr ⟨it, hit2, he⟩

theorem emitStep_raw (tbp es : List (SPair × List Char)) (a : List Char)
    (bs : List (List Char)) (ins : List (SPair × List Char)) (l : List Char) :
    emitStep tbp es a bs ins (.raw l) = ([.raw l], ins) := rfl

theorem emitStep_localized_nontarget (tbp es : List (SPair × List Char))
    (a : List Char) (bs : List (List Char)) (ins : List (SPair × List Char))
    (l sect ind key pre : List Char) (sep : Char) (post v b suf : List Char)
    (hsplit : splitLocalizedTextKey key = some (b, suf))
    (hprim : ¬normalizeLanguageSuffix suf suf = a) :
    emitStep tbp es a bs ins (.kv l sect ind key pre sep post v)
      = ([.kv l sect ind key pre sep post v], ins) := by
  simp [emitStep, hsplit, hprim]

theorem emitStep_localized_noneTv (tbp es : List (SPair × List Char))
    (a : List Char) (bs : List (List Char)) (ins : List (SPair × List Char))
    (l sect ind key pre : List Char) (sep : Char) (post v b suf : List Char)
    (hsplit : splitLocalizedTextKey key = some (b, suf))
    (htv : alookup ((sect, b) : SPair) tbp = none) :
    emitStep tbp es a bs ins (.kv l sect ind key pre sep post v)
      = ([.kv l sect ind key pre sep post v], ins) := by
  by_cases hprim : normalizeLanguageSuffix suf suf = a
  · simp [emitStep, hsplit, hprim, htv]
  · simp [emitStep, hsplit, hprim]

theorem emitStep_localized_emptyTv (tbp es : List (SPair × List Char))
    (a : List Char) (bs : List (List Char)) (ins : List (SPair × List Char))
    (l sect ind key pre : List Char) (sep : Char) (post v b suf : List Char)
    (hsplit : splitLocalizedTextKey key = some (b, suf))
    (htv : alookup ((sect, b) : SPair) tbp = some []) :
    emitStep tbp es a bs ins (.kv l sect ind key pre sep post v)
      = ([.kv l sect ind key pre sep post v], ins) := by
  by_cases hprim : normalizeLanguageSuffix suf suf = a
  · simp [emitStep, hsplit, hprim, htv]
  · simp [emitStep, hsplit, hprim]

theorem emitStep_base_noneTv (tbp es : List (SPair × List Char))
    (a : List Char) (bs : List (List Char)) (ins : List (SPair × List Char))
    (l sect ind key pre : List Char) (sep : Char) (post v : List Char)
    (hsplit : splitLocalizedTextKey key = none)
    (htv : alookup ((sect, key) : SPair) tbp = none) :
    emitStep tbp es a bs ins (.kv l sect ind key pre sep post v)
      = ([.kv l sect ind key pre sep post v], ins) := by
  by_cases hvalid : isTextKeyValid key = true
  · simp [emitStep, hsplit, hvalid, htv]
  · simp [emitStep, hsplit, hvalid]

theorem emitStep_base_emptyTv (tbp es : List (SPair × List Char))
    (a : List Char) (bs : List (List Char)) (ins : List (SPair × List Char))
    (l sect ind key pre : List Char) (sep : Char) (post v : List Char)
    (hsplit : splitLocalizedTextKey key = none)
    (htv : alookup ((sect, key) : SPair) tbp = some []) :
    emitStep tbp es a bs ins (.kv l sect ind key pre sep post v)
      = ([.kv l sect ind key pre sep post v], ins) := by
  by_cases hvalid : isTextKeyValid key = true
  · simp [emitStep, hsplit, hvalid, htv]
  · simp [emitStep, hsplit, hvalid]

theorem emitStep_cases (tbp es : List (SPair × List Char)) (a : List Char)
    (bs : List (List Char)) (ins : List (SPair × List Char)) (item : PLine) :
    (emitStep tbp es a bs ins item = ([item], ins))
    ∨ (∃ l sect ind key pre sep post v b suf tv,
        item = .kv l sect ind key pre sep post v
        ∧ splitLocalizedTextKey key = some (b, suf)
        ∧ normalizeLanguageSuffix suf suf = a
        ∧ alookup ((sect, b) : SPair) tbp = some tv ∧ tv ≠ []
        ∧ emitStep tbp es a bs ins item
            = ([.kv (ind ++ key ++ pre ++ sep :: post ++ tv) sect ind key pre
                sep post tv], ins))
    ∨ (∃ l sect ind key pre sep post v tv,
        item = .kv l sect ind key pre sep post v
        ∧ splitLocalizedTextKey key = none
        ∧ isTextKeyValid key = true
        ∧ alookup ((sect, key) : SPair) tbp = some tv ∧ tv ≠ []
        ∧ emitStep tbp es a bs ins item
            = (.kv l sect ind key pre sep post v ::
                (insertLoop es (sect, key) sect ind key pre sep post tv ins bs).1,
               (insertLoop es (sect, key) sect ind key pre sep post tv ins bs).2)) := by
  cases item with
  | raw l => exact Or.inl rfl
  | kv l sect ind key pre sep post v =>
    cases hsp : splitLocalizedTextKey key with
    | some bsuf =>
      obtain ⟨b, suf⟩ := bsuf
      by_cases hprim : normalizeLanguageSuffix suf suf = a
      · cases htv : alookup ((sect, b) : SPair) tbp with
        | none => exact Or.inl (emitStep_localized_noneTv _ _ _ _ _ _ _ _ _ _ _ _ _ _ _ hsp htv)
        | some tv =>
          by_cases hne : tv = []
          · subst hne
            exact Or.inl (emitStep_localized_emptyTv _ _ _ _ _ _ _ _ _ _ _ _ _ _ _ hsp htv)
          · refine Or.inr (Or.inl ⟨l, sect, ind, key, pre, sep, post, v, b, suf, tv,
              rfl, hsp, hprim, htv, hne, ?_⟩)
            exact emitStep_localized_target tbp es a bs ins l sect ind key pre sep
              post v b suf tv hsp hprim htv hne
      · exact Or.inl (emitStep_localized_nontarget _ _ _ _ _ _ _ _ _ _ _ _ _ _ _ hsp hprim)
    | none =>
      by_cases hvalid : isTextKeyValid key = true
      · cases htv : alookup ((sect, key) : SPair) tbp with
        | none => exact Or.inl (emitStep_base_noneTv _ _ _ _ _ _ _ _ _ _ _ _ _ hsp htv)
        | some tv =>
          by_cases hne : tv = []
          · subst hne
            exact Or.inl (emitStep_base_emptyTv _ _ _ _ _ _ _ _ _ _ _ _ _ hsp htv)
          · refine Or.inr (Or.inr ⟨l, sect, ind, key, pre, sep, post, v, tv,
              rfl, hsp, hvalid, htv, hne, ?_⟩)
            exact emitStep_base_inserts tbp es a bs ins l sect ind key pre sep
              post v tv hsp hvalid htv hne
      · exact Or.inl (emitStep_plain_kv tbp es a bs ins l sect ind key pre sep post v
          hsp (by revert hvalid; cases isTextKeyValid key <;> simp))

theorem insertLoop_all_skip (es : List (SPair × List Char)) (p : SPair)
    (sect ind key pre : List Char) (sep : Char) (post tv : List Char) :
    ∀ (bs : List (List Char)) (ins : List (SPair × List Char)),
      (∀ suf ∈ bs, (p, suf) ∈ es) →
      insertLoop es p sect ind key pre sep post tv ins bs = ([], ins) := by
  intro bs
  induction bs with
  | nil => intro ins _; rfl
  | cons suf sufs ih =>
    intro ins h
    unfold insertLoop
    rw [if_pos (h suf (by simp))]
    exact ih ins (fun s hs => h s (by simp [hs]))

theorem insertLoop_out_mem (es : List (SPair × List Char)) (p : SPair)
    (sect ind key pre : List Char) (sep : Char) (post tv : List Char) :
    ∀ (bs : List (List Char)) (ins : List (SPair × List Char)) (it : PLine),
      it ∈ (insertLoop es p sect ind key pre sep post tv ins bs).1 →
      ∃ suf ∈ bs, it = PLine.kv (insLineOf ind key pre sep post tv suf) sect ind
        (key ++ '_' :: suf) pre sep post tv := by
  intro bs
  induction bs with
  | nil => intro ins it h; cases h
  | cons suf sufs ih =>
    intro ins it h
    unfold insertLoop at h
    by_cases h1 : (p, suf) ∈ es
    · rw [if_pos h1] at h
      obtain ⟨s, hs, he⟩ := ih ins it h
      exact ⟨s, by simp [hs], he⟩
    · rw [if_neg h1] at h
      by_cases h2 : (p, suf) ∈ ins
      · rw [if_pos h2] at h
        obtain ⟨s, hs, he⟩ := ih ins it h
        exact ⟨s, by simp [hs], he⟩
      · rw [if_neg h2] at h
        simp only at h
        rcases List.mem_cons.mp h with rfl | h3
        · exact ⟨suf, by simp, rfl⟩
        · obtain ⟨s, hs, he⟩ := ih _ it h3
          exact ⟨s, by simp [hs], he⟩

theorem insertLoop_state_mem (es : List (SPair × List Char)) (p : SPair)
    (sect ind key pre : List Char) (sep : Char) (post tv : List Char) :
    ∀ (bs : List (List Char)) (ins : List (SPair × List Char))
      (x : SPair × List Char),
      x ∈ (insertLoop es p sect ind key pre sep post tv ins bs).2 →
      x ∈ ins ∨ ∃ suf ∈ bs, x = (p, suf) ∧
        PLine.kv (insLineOf ind key pre sep post tv suf) sect ind
          (key ++ '_' :: suf) pre sep post tv
          ∈ (insertLoop es p sect ind key pre sep post tv ins bs).1 := by
  intro bs
  induction bs with
  | nil => intro ins x h; exact Or.inl h
  | cons suf sufs ih =>
    intro ins x h
    unfold insertLoop at h ⊢
    by_cases h1 : (p, suf) ∈ es
    · rw [if_pos h1] at h ⊢
      rcases ih ins x h with h2 | ⟨s, hs, he, hm⟩
      · exact Or.inl h2
      · exact Or.inr ⟨s, by simp [hs], he, hm⟩
    · rw [if_neg h1] at h ⊢
      by_cases h2 : (p, suf) ∈ ins
      · rw [if_pos h2] at h ⊢
        rcases ih ins x h with h3 | ⟨s, hs, he, hm⟩
        · exact Or.inl h3
        · exact Or.inr ⟨s, by simp [hs], he, hm⟩
      · rw [if_neg h2] at h ⊢
        simp only at h ⊢
        rcases ih _ x h with h3 | ⟨s, hs, he, hm⟩
        · rcases List.mem_cons.mp h3 with rfl | h4
          · exact Or.inr ⟨suf, by simp, rfl, by simp⟩
          · exact Or.inl h4
        · exact Or.inr ⟨s, by simp [hs], he, by simp [hm]⟩

theorem insertLoop_complete (es : List (SPair × List Char)) (p : SPair)
    (sect ind key pre : List Char) (sep : Char) (post tv : List Char) :
    ∀ (bs : List (List Char)) (ins : List (SPair × List Char)) (suf : List Char),
      suf ∈ bs →
      (p, suf) ∈ es ∨ (p, suf) ∈ ins ∨
        PLine.kv (insLineOf ind key pre sep post tv suf) sect ind
          (key ++ '_' :: suf) pre sep post tv
          ∈ (insertLoop es p sect ind key pre sep post tv ins bs).1 := by
  intro bs
  induction bs with
  | nil => intro ins suf h; cases h
  | cons s sufs ih =>
    intro ins suf h
    unfold insertLoop
    by_cases h1 : (p, s) ∈ es
    · rw [if_pos h1]
      rcases List.mem_cons.mp h with rfl | h2
      · exact Or.inl h1
      · exact ih ins suf h2
    · rw [if_neg h1]
      by_cases h2 : (p, s) ∈ ins
      · rw [if_pos h2]
        rcases List.mem_cons.mp h with rfl | h3
        · exact Or.inr (Or.inl h2)
        · exact ih ins suf h3
      · rw [if_neg h2]
        simp only
        rcases List.mem_cons.mp h with rfl | h3
        · exact Or.inr (Or.inr (by simp))
        · rcases ih ((p, s) :: ins) suf h3 with h4 | h4 | h4
          · exact Or.inl h4
          · rcases List.mem_cons.mp h4 with h5 | h5
            · have hsuf : suf = s := by
                injection h5 with _ h6
              subst hsuf
              exact Or.inr (Or.inr (by simp))
            · exact Or.inr (Or.inl h5)
          · exact Or.inr (Or.inr (by simp [h4]))

theorem echoCond_emitStep (tbp : List (SPair × List Char)) (a : List Char)
    (item : PLine) (h : echoCond tbp a item) :
    ∀ (es : List (SPair × List Char)) (bs : List (List Char))
      (ins : List (SPair × List Char)),
      emitStep tbp es a bs ins item = ([item], ins) := by
  intro es bs ins
  cases item with
  | raw l => rfl
  | kv l sect ind key pre sep post v =>
    unfold echoCond at h
    dsimp only at h
    cases hsp : splitLocalizedTextKey key with
    | some bsuf =>
      obtain ⟨b, suf⟩ := bsuf
      rw [hsp] at h
      dsimp only at h
      rcases h with h | h | h
      · exact emitStep_localized_nontarget _ _ _ _ _ _ _ _ _ _ _ _ _ _ _ hsp h
      · exact emitStep_localized_noneTv _ _ _ _ _ _ _ _ _ _ _ _ _ _ _ hsp h
      · exact emitStep_localized_emptyTv _ _ _ _ _ _ _ _ _ _ _ _ _ _ _ hsp h
    | none =>
      rw [hsp] at h
      dsimp only at h
      rcases h with h | h | h
      · exact emitStep_plain_kv _ _ _ _ _ _ _ _ _ _ _ _ _ hsp h
      · exact emitStep_base_noneTv _ _ _ _ _ _ _ _ _ _ _ _ _ hsp h
      · exact emitStep_base_emptyTv _ _ _ _ _ _ _ _ _ _ _ _ _ hsp h

theorem echoCond_transfer (tbp tbp2 : List (SPair × List Char)) (a : List Char)
    (item : PLine) (heq : ∀ q, alookup q tbp2 = alookup q tbp)
    (h : echoCond tbp a item) : echoCond tbp2 a item := by
  cases item with
  | raw l => trivial
  | kv l sect ind key pre sep post v =>
    unfold echoCond at h ⊢
    dsimp only at h ⊢
    cases hsp : splitLocalizedTextKey key with
    | some bsuf =>
      obtain ⟨b, suf⟩ := bsuf
      rw [hsp] at h
      dsimp only at h ⊢
      rcases h with h | h | h
      · exact Or.inl h
      · exact Or.inr (Or.inl (by rw [heq]; exact h))
      · exact Or.inr (Or.inr (by rw [heq]; exact h))
    | none =>
      rw [hsp] at h
      dsimp only at h ⊢
      rcases h with h | h | h
      · exact Or.inl h
      · exact Or.inr (Or.inl (by rw [heq]; exact h))
      · exact Or.inr (Or.inr (by rw [heq]; exact h))

theorem headOK (c : Char) (h : (c.toLower).isAlpha = true) :
    isPySpace c = false ∧ c ≠ '#' ∧ c ≠ ';' ∧ c ≠ '[' := by
  refine ⟨?_, ?_, ?_, ?_⟩
  · by_contra hs
    have hs' : isPySpace c = true := by revert hs; cases isPySpace c <;> simp
    simp only [isPySpace, Bool.or_eq_true, decide_eq_true_eq] at hs'
    rcases hs' with ((((h1 | h1) | h1) | h1) | h1) | h1 <;> (subst h1; revert h; decide)
  all_goals (rintro rfl; revert h; decide)

theorem head?_mem {α : Type} (l : List α) (a : α) (h : l.head? = some a) :
    a ∈ l := by
  cases l with
  | nil => cases h
  | cons b bs =>
    injection h with h1
    rw [← h1]
    simp

theorem tbpContrib_invalid (m : List Char → Option (List Char))
    (lv' : List (SPair × List Char)) (p : SPair) (l sect ind key pre : List Char)
    (sep : Char) (post v : List Char) (hval : isTextKeyValid key = false) :
    tbpContrib m lv' p (.kv l sect ind key pre sep post v) = none := by
  rw [tbpContrib_kv, hval]
  simp

theorem fm_cons_none {α β : Type} (f : α → Option β) (x : α) (l : List α)
    (h : f x = none) : (x :: l).filterMap f = l.filterMap f := by
  rw [List.filterMap_cons, h]

theorem fm_cons_some {α β : Type} (f : α → Option β) (x : α) (l : List α) (b : β)
    (h : f x = some b) : (x :: l).filterMap f = b :: l.filterMap f := by
  rw [List.filterMap_cons, h]

theorem emitGo_tbpContrib_collapse (m : List Char → Option (List Char))
    (lv' tbp es : List (SPair × List Char)) (a : List Char)
    (bs : List (List Char)) :
    ∀ (items : List PLine) (ins : List (SPair × List Char)) (p : SPair),
      ((emitGo tbp es a bs ins items).flatten).filterMap (tbpContrib m lv' p)
        = items.filterMap (tbpContrib m lv' p) := by
  intro items
  induction items with
  | nil => intro ins p; rfl
  | cons item rest ih =>
    intro ins p
    rw [emitGo_cons, List.flatten_cons, List.filterMap_append]
    rcases emitStep_cases tbp es a bs ins item with hcase
      | ⟨l, sect, ind, key, pre, sep, post, v, b, suf, tv, hitem, hsp, hprim, htv,
         hne, heq⟩
      | ⟨l, sect, ind, key, pre, sep, post, v, tv, hitem, hsp, hval, htv, hne, heq⟩
    · rw [hcase]
      dsimp only
      rw [ih]
      cases hc : tbpContrib m lv' p item with
      | none => simp [List.filterMap_cons, hc]
      | some w => simp [List.filterMap_cons, hc]
    · subst hitem
      rw [heq]
      dsimp only
      rw [ih]
      have hc1 : tbpContrib m lv' p (.kv l sect ind key pre sep post v) = none :=
        tbpContrib_invalid m lv' p l sect ind key pre sep post v
          (localized_not_valid key b suf hsp)
      have hc2 : ∀ l', tbpContrib m lv' p
          (.kv l' sect ind key pre sep post tv) = none := fun l' =>
        tbpContrib_invalid m lv' p l' sect ind key pre sep post tv
          (localized_not_valid key b suf hsp)
      simp [List.filterMap_cons, hc1, hc2 _]
    · subst hitem
      rw [heq]
      dsimp only
      rw [ih]
      have hinsnil : ((insertLoop es (sect, key) sect ind key pre sep post tv ins
          bs).1).filterMap (tbpContrib m lv' p) = [] := by
        rw [List.filterMap_eq_nil_iff]
        intro it hit
        obtain ⟨suf, hsuf, rfl⟩ :=
          insertLoop_out_mem es (sect, key) sect ind key pre sep post tv bs ins it hit
        exact tbpContrib_invalid m lv' p _ sect ind (key ++ '_' :: suf) pre sep
          post tv (validKey_no_append key hval suf)
      cases hc : tbpContrib m lv' p (.kv l sect ind key pre sep post v) with
      | none =>
        rw [fm_cons_none _ _ _ hc, hinsnil, List.nil_append, fm_cons_none _ _ _ hc]
      | some w =>
        rw [fm_cons_some _ _ _ _ hc, hinsnil, fm_cons_some _ _ _ _ hc]
        simp

theorem hasTriple_no_quote (l : List Char) (h : ∀ c ∈ l, c ≠ '"') :
    hasTriple l = false := by
  induction l with
  | nil => rfl
  | cons c rest ih =>
    rw [hasTriple_cons_ne c rest (h c (by simp))]
    exact ih (fun d hd => h d (by simp [hd]))

theorem head?_append_or {α : Type} (A B : List α) :
    (A ++ B).head? = (A.head?).or B.head? := by
  cases A with
  | nil => simp [Option.or]
  | cons a as => simp [Option.or]

theorem fm_congr {α β : Type} (c₁ c₂ : α → Option β) :
    ∀ (xs : List α), (∀ x ∈ xs, c₂ x = c₁ x) →
      xs.filterMap c₂ = xs.filterMap c₁ := by
  intro xs
  induction xs with
  | nil => intro _; rfl
  | cons x rest ih =>
    intro h
    rw [List.filterMap_cons, List.filterMap_cons, h x (by simp),
      ih (fun y hy => h y (by simp [hy]))]

theorem getLast?_filterMap_cons {α β : Type} (f : α → Option β) (x : α)
    (xs : List α) :
    (List.filterMap f (x :: xs)).getLast?
      = ((List.filterMap f xs).getLast?).or (f x) := by
  rw [List.filterMap_cons]
  cases hf : f x with
  | none => cases h2 : (List.filterMap f xs).getLast? <;> rfl
  | some b => rw [getLast?_cons_or]

theorem fm_getLast_none_or {α β : Type} (c : α → Option β) (t : β)
    (xs : List α) (h : ∀ x ∈ xs, c x = none ∨ c x = some t) :
    (xs.filterMap c).getLast? = none ∨ (xs.filterMap c).getLast? = some t := by
  cases hl : (xs.filterMap c).getLast? with
  | none => exact Or.inl rfl
  | some y =>
    refine Or.inr ?_
    have hy : y ∈ xs.filterMap c := getLast?_mem _ _ hl
    obtain ⟨x, hx, hcx⟩ := List.mem_filterMap.mp hy
    rcases h x hx with h2 | h2
    · rw [h2] at hcx; cases hcx
    · rw [h2] at hcx
      injection hcx with h3
      rw [h3]

theorem star_getLast {α β : Type} (c₁ c₂ : α → Option β) (t : β) :
    ∀ (xs : List α),
      (∀ x ∈ xs, (c₂ x = c₁ x ∨ c₂ x = some t) ∧
        ((c₁ x).isSome = true → (c₂ x).isSome = true)) →
      (xs.filterMap c₁).getLast? = some t →
      (xs.filterMap c₂).getLast? = some t := by
  intro xs
  induction xs with
  | nil => intro _ h; cases h
  | cons x rest ih =>
    intro hall h
    rw [getLast?_filterMap_cons] at h ⊢
    have hx := hall x (by simp)
    have hrest : ∀ y ∈ rest, (c₂ y = c₁ y ∨ c₂ y = some t) ∧
        ((c₁ y).isSome = true → (c₂ y).isSome = true) :=
      fun y hy => hall y (by simp [hy])
    cases h1 : (List.filterMap c₁ rest).getLast? with
    | some y =>
      rw [h1] at h
      have hyt : y = t := by
        simp [Option.or] at h
        exact h
      rw [ih hrest (by rw [h1, hyt]), Option.or]
    | none =>
      rw [h1] at h
      have hct : c₁ x = some t := by
        simpa [Option.or] using h
      have hc2 : c₂ x = some t := by
        rcases hx.1 with h2 | h2
        · rw [h2, hct]
        · exact h2
      have hnil : List.filterMap c₁ rest = [] := by
        cases hfm : List.filterMap c₁ rest with
        | nil => rfl
        | cons b bs =>
          obtain ⟨y, hy⟩ := getLast?_isSome_of_ne (b :: bs) (by simp)
          rw [hfm, hy] at h1
          cases h1
      have hrn : ∀ y ∈ rest, c₂ y = none ∨ c₂ y = some t := by
        intro y hy
        have hcn : c₁ y = none := by
          have := List.filterMap_eq_nil_iff.mp hnil y hy
          exact this
        rcases (hrest y hy).1 with h2 | h2
        · rw [h2, hcn]; exact Or.inl rfl
        · exact Or.inr h2
      rcases fm_getLast_none_or c₂ t rest hrn with h2 | h2
      · rw [h2, hc2]; rfl
      · rw [h2]; rfl

theorem chain_mem_step : ∀ (L : List PLine) (sect : List Char),
    chainFrom sect L → ∀ item ∈ L, ∃ s, parseLineStep s item.lineOf = item := by
  intro L
  induction L with
  | nil => intro sect _ item h; cases h
  | cons x rest ih =>
    intro sect h item hmem
    obtain ⟨h1, h2, h3⟩ := h
    rcases List.mem_cons.mp hmem with rfl | hm
    · exact ⟨sect, h1⟩
    · exact ih _ h3 item hm

theorem parsedOf_lineOf_mem (lines : List (List Char)) (item : PLine)
    (h : item ∈ parsedOf lines) : item.lineOf ∈ lines := by
  obtain ⟨i, hi, hget⟩ := List.mem_iff_getElem.mp h
  have h2 : (parsedOf lines)[i]? = some item := by
    rw [List.getElem?_eq_getElem hi, hget]
  have h3 : lines[i]? = some item.lineOf := by
    rw [← parseAux_lineOf lines [] false i]
    show ((parsedOf lines)[i]?).map PLine.lineOf = _
    rw [h2]
    rfl
  obtain ⟨hlt, heq⟩ := List.getElem?_eq_some_iff.mp h3
  exact heq ▸ List.getElem_mem hlt

theorem pyStrip_good (v : List Char) (ht : hasTriple v = false)
    (hcr : ∀ c ∈ v, c ≠ '\r' ∧ c ≠ '\n') (hne : pyStrip v ≠ []) :
    goodVal (pyStrip v) := by
  obtain ⟨x, y, hdec⟩ := pyStrip_decomp v
  have hmem : ∀ c ∈ pyStrip v, c ∈ v := by
    intro c hc
    rw [hdec]
    simp [hc]
  refine ⟨hne, pyStrip_idem v, ?_, ?_⟩
  · have h1 : hasTriple (x ++ pyStrip v ++ y) = false := by rw [← hdec]; exact ht
    have h2 : hasTriple (x ++ pyStrip v) = false := hasTriple_append_left _ _ h1
    exact hasTriple_append_right _ _ h2
  · exact sanitize_eq_self _ (fun c hc => hcr c (hmem c hc))

theorem parsed_kvValFacts (lines : List (List Char))
    (hq : ∀ l ∈ lines, hasTriple l = false)
    (hcr : ∀ l ∈ lines, ∀ c ∈ l, c ≠ '\r' ∧ c ≠ '\n') :
    ∀ item ∈ parsedOf lines, kvValFacts item := by
  intro item hmem l sect ind key pre sep post v hitem
  have hchain : chainFrom [] (parsedOf lines) := parseAux_chainFrom lines [] hq
  obtain ⟨s, hstep⟩ := chain_mem_step _ [] hchain item hmem
  have hlo : item.lineOf = l := by rw [hitem]; rfl
  rw [hitem] at hstep
  simp only [PLine.lineOf] at hstep
  obtain ⟨-, -, -, -, kr, hmkv, -⟩ :=
    parseLineStep_kv_inv s l l sect ind key pre sep post v hstep
  obtain ⟨hdec, -, -, -, -, -, -⟩ := matchKV_inv l _ hmkv
  simp only at hdec
  have hlin : l ∈ lines := by
    rw [← hlo]
    exact parsedOf_lineOf_mem lines item hmem
  constructor
  · refine hasTriple_append_right (ind ++ kr ++ pre ++ sep :: post) v ?_
    rw [← hdec]
    exact hq l hlin
  · intro c hc
    refine hcr l hlin c ?_
    rw [hdec]
    simp [hc]

theorem lv_values_good :
    ∀ (items : List PLine) (acc : List (SPair × List Char)),
      (∀ item ∈ items, kvValFacts item) →
      (∀ q w, alookup q acc = some w → goodVal w) →
      ∀ q w, alookup q (items.foldl lvStep acc) = some w → goodVal w := by
  intro items
  induction items with
  | nil => intro acc _ hacc q w h; exact hacc q w h
  | cons item rest ih =>
    intro acc hitems hacc q w h
    rw [List.foldl_cons] at h
    refine ih _ (fun x hx => hitems x (by simp [hx])) ?_ q w h
    intro q2 w2 h2
    cases item with
    | raw l => exact hacc q2 w2 h2
    | kv l sect ind key pre sep post v =>
      rw [lvStep_kv] at h2
      revert h2
      cases hsp : splitLocalizedTextKey key with
      | none => exact hacc q2 w2
      | some bsuf =>
        obtain ⟨b, suf⟩ := bsuf
        dsimp only
        by_cases h1 : pyStrip v = []
        · rw [if_pos h1]; exact hacc q2 w2
        · rw [if_neg h1]
          by_cases h3 : (alookup ((sect, b) : SPair) acc).isSome = true
          · rw [if_pos h3]; exact hacc q2 w2
          · rw [if_neg h3]
            intro h2
            by_cases h4 : q2 = ((sect, b) : SPair)
            · subst h4
              rw [alookup_cons_eq] at h2
              injection h2 with h5
              obtain ⟨ht, hc⟩ := hitems (.kv l sect ind key pre sep post v)
                (by simp) l sect ind key pre sep post v rfl
              rw [← h5]
              exact pyStrip_good v ht hc h1
            · rw [alookup_cons_ne _ _ _ _ h4] at h2
              exact hacc q2 w2 h2

theorem tbp_values_good (m : List Char → Option (List Char))
    (lv : List (SPair × List Char))
    (hm : ∀ s, m s = none ∨ m s = some s)
    (hlv : ∀ q w, alookup q lv = some w → goodVal w) :
    ∀ (items : List PLine) (acc : List (SPair × List Char)),
      (∀ item ∈ items, kvValFacts item) →
      (∀ q w, alookup q acc = some w → goodVal w) →
      ∀ q w, alookup q (items.foldl (tbpStep m lv) acc) = some w → goodVal w := by
  intro items
  induction items with
  | nil => intro acc _ hacc q w h; exact hacc q w h
  | cons item rest ih =>
    intro acc hitems hacc q w h
    rw [List.foldl_cons] at h
    refine ih _ (fun x hx => hitems x (by simp [hx])) ?_ q w h
    intro q2 w2 h2
    cases item with
    | raw l => exact hacc q2 w2 h2
    | kv l sect ind key pre sep post v =>
      rw [tbpStep_kv] at h2
      revert h2
      by_cases h1 : isTextKeyValid key = true
      · rw [if_pos h1]
        by_cases hs : sourceTextOf lv sect key v = []
        · rw [if_pos hs]; exact hacc q2 w2
        · rw [if_neg hs]
          intro h2
          by_cases h4 : q2 = ((sect, key) : SPair)
          · subst h4
            rw [alookup_cons_eq] at h2
            injection h2 with h5
            have hgsrc : goodVal (sourceTextOf lv sect key v) := by
              unfold sourceTextOf at hs ⊢
              dsimp only at hs ⊢
              by_cases hpv : pyStrip v = []
              · rw [if_neg (by simp [hpv])] at hs ⊢
                cases hal : alookup ((sect, key) : SPair) lv with
                | none => rw [hal] at hs; simp at hs
                | some u =>
                  exact hlv _ u hal
              · rw [if_pos (by simp [hpv])] at hs ⊢
                obtain ⟨ht, hc⟩ := hitems (.kv l sect ind key pre sep post v)
                  (by simp) l sect ind key pre sep post v rfl
                exact pyStrip_good v ht hc hpv
            have hmv : (m (sourceTextOf lv sect key v)).getD
                (sourceTextOf lv sect key v) = sourceTextOf lv sect key v := by
              rcases hm (sourceTextOf lv sect key v) with hh | hh <;> rw [hh] <;> rfl
            rw [← h5, hmv, hgsrc.2.2.2]
            exact hgsrc
          · rw [alookup_cons_ne _ _ _ _ h4] at h2
            exact hacc q2 w2 h2
      · rw [if_neg h1]; exact hacc q2 w2

theorem emitGo_lvEntry_head (tbp es : List (SPair × List Char)) (a : List Char)
    (bs : List (List Char))
    (hgood : ∀ q w, alookup q tbp = some w → goodVal w)
    (hbs : ∀ suf ∈ bs, suf ≠ [] ∧ lowerL suf = suf ∧
      languageSuffixFullmatch suf = true ∧ (∀ c ∈ suf, c.isAlpha = true ∨ c = '_')) :
    ∀ (items : List PLine) (ins : List (SPair × List Char)) (p : SPair),
      (((emitGo tbp es a bs ins items).flatten).filterMap (lvEntry p)).head?
          = (items.filterMap (lvEntry p)).head?
      ∨ ∃ tv, alookup p tbp = some tv ∧ tv ≠ [] ∧
          (((emitGo tbp es a bs ins items).flatten).filterMap (lvEntry p)).head?
            = some tv := by
  intro items
  induction items with
  | nil => intro ins p; exact Or.inl rfl
  | cons item rest ih =>
    intro ins p
    rw [emitGo_cons, List.flatten_cons]
    rcases emitStep_cases tbp es a bs ins item with hcase
      | ⟨l, sect, ind, key, pre, sep, post, v, b, suf, tv, hitem, hsp, hprim, htv,
         hne, heq⟩
      | ⟨l, sect, ind, key, pre, sep, post, v, tv, hitem, hsp, hval, htv, hne, heq⟩
    · rw [hcase]
      dsimp only
      rw [List.singleton_append]
      cases hc : lvEntry p item with
      | some w =>
        rw [fm_cons_some _ _ _ _ hc, fm_cons_some _ _ _ _ hc]
        exact Or.inl rfl
      | none =>
        rw [fm_cons_none _ _ _ hc, fm_cons_none _ _ _ hc]
        exact ih ins p
    · subst hitem
      rw [heq]
      dsimp only
      rw [List.singleton_append]
      obtain ⟨htvne, hps, -, -⟩ := hgood _ tv htv
      have hlvR : lvEntry p
          (.kv (ind ++ key ++ pre ++ sep :: post ++ tv) sect ind key pre sep post tv)
          = if ((sect, b) : SPair) = p then some tv else none := by
        rw [lvEntry_kv, hsp]
        dsimp only
        rw [hps, if_neg htvne]
      by_cases hpq : ((sect, b) : SPair) = p
      · rw [if_pos hpq] at hlvR
        refine Or.inr ⟨tv, by rw [← hpq]; exact htv, htvne, ?_⟩
        rw [fm_cons_some _ _ _ _ hlvR]
        rfl
      · rw [if_neg hpq] at hlvR
        have hlvI : lvEntry p (.kv l sect ind key pre sep post v) = none := by
          rw [lvEntry_kv, hsp]
          dsimp only
          by_cases hpv : pyStrip v = []
          · rw [if_pos hpv]
          · rw [if_neg hpv, if_neg hpq]
        rw [fm_cons_none _ _ _ hlvR, fm_cons_none _ _ _ hlvI]
        exact ih ins p
    · subst hitem
      rw [heq]
      dsimp only
      have hlvI : lvEntry p (.kv l sect ind key pre sep post v) = none := by
        rw [lvEntry_kv, hsp]
      rw [List.cons_append, fm_cons_none _ _ _ hlvI, fm_cons_none _ _ _ hlvI,
        List.filterMap_append, head?_append_or]
      obtain ⟨htvne, hps, -, -⟩ := hgood _ tv htv
      have hins : ∀ w ∈ (insertLoop es (sect, key) sect ind key pre sep post tv
          ins bs).1.filterMap (lvEntry p), ((sect, key) : SPair) = p ∧ w = tv := by
        intro w hw
        obtain ⟨it, hit, hlw⟩ := List.mem_filterMap.mp hw
        obtain ⟨suf, hsuf, rfl⟩ :=
          insertLoop_out_mem es (sect, key) sect ind key pre sep post tv bs ins it hit
        obtain ⟨hsne, hslow, hsfull, -⟩ := hbs suf hsuf
        have hsplit2 : splitLocalizedTextKey (key ++ '_' :: suf) = some (key, suf) :=
          splitLocalizedTextKey_append key suf hval hsfull hslow hsne
        rw [lvEntry_kv, hsplit2] at hlw
        dsimp only at hlw
        rw [hps, if_neg htvne] at hlw
        by_cases hpq : ((sect, key) : SPair) = p
        · rw [if_pos hpq] at hlw
          injection hlw with hlw2
          exact ⟨hpq, hlw2.symm⟩
        · rw [if_neg hpq] at hlw
          cases hlw
      cases hfm : ((insertLoop es (sect, key) sect ind key pre sep post tv
          ins bs).1.filterMap (lvEntry p)).head? with
      | some w =>
        obtain ⟨hpq, rfl⟩ := hins w (head?_mem _ _ hfm)
        exact Or.inr ⟨w, by rw [← hpq]; exact htv, htvne, rfl⟩
      | none =>
        show (Option.none.or _ = _) ∨ _
        rcases ih (insertLoop es (sect, key) sect ind key pre sep post tv ins bs).2
            p with h2 | ⟨tv2, ha2, hne2, h2⟩
        · exact Or.inl (by rw [Option.or, h2])
        · exact Or.inr ⟨tv2, ha2, hne2, by rw [Option.or, h2]⟩

theorem emitGo_es_preserved (tbp es : List (SPair × List Char)) (a : List Char)
    (bs : List (List Char)) :
    ∀ (items : List PLine) (ins : List (SPair × List Char)) (it : PLine)
      (x : SPair × List Char), it ∈ items → esEnt it = some x →
      ∃ it2 ∈ (emitGo tbp es a bs ins items).flatten, esEnt it2 = some x := by
  intro items
  induction items with
  | nil => intro ins it x h _; cases h
  | cons item rest ih =>
    intro ins it x hmem hx
    rw [emitGo_cons, List.flatten_cons]
    rcases List.mem_cons.mp hmem with rfl | hm
    · rcases emitStep_cases tbp es a bs ins it with hcase
        | ⟨l, sect, ind, key, pre, sep, post, v, b, suf, tv, hitem, hsp, hprim, htv,
           hne, heq⟩
        | ⟨l, sect, ind, key, pre, sep, post, v, tv, hitem, hsp, hval, htv, hne, heq⟩
      · exact ⟨it, by rw [hcase]; simp, hx⟩
      · refine ⟨.kv (ind ++ key ++ pre ++ sep :: post ++ tv) sect ind key pre sep
          post tv, by rw [heq]; simp, ?_⟩
        rw [hitem] at hx
        rw [esEnt_kv] at hx ⊢
        exact hx
      · rw [hitem] at hx
        rw [esEnt_kv, hsp] at hx
        cases hx
    · obtain ⟨it2, hit2, he2⟩ := ih (emitStep tbp es a bs ins item).2 it x hm hx
      exact ⟨it2, by simp [hit2], he2⟩

theorem emitGo_insert_covered (tbp es : List (SPair × List Char)) (a : List Char)
    (bs : List (List Char))
    (hbs : ∀ suf ∈ bs, suf ≠ [] ∧ lowerL suf = suf ∧
      languageSuffixFullmatch suf = true ∧ (∀ c ∈ suf, c.isAlpha = true ∨ c = '_')) :
    ∀ (items : List PLine) (ins : List (SPair × List Char))
      (l sect ind key pre : List Char) (sep : Char) (post v tv : List Char),
      (.kv l sect ind key pre sep post v) ∈ items →
      splitLocalizedTextKey key = none → isTextKeyValid key = true →
      alookup ((sect, key) : SPair) tbp = some tv → tv ≠ [] →
      ∀ suf ∈ bs,
        (((sect, key) : SPair), suf) ∈ es ∨ (((sect, key) : SPair), suf) ∈ ins ∨
        ∃ it ∈ (emitGo tbp es a bs ins items).flatten,
          esEnt it = some ((((sect, key) : SPair)), suf) := by
  intro items
  induction items with
  | nil => intro ins l sect ind key pre sep post v tv h; cases h
  | cons item rest ih =>
    intro ins l sect ind key pre sep post v tv hmem hsp hval htv htvne suf hsuf
    rw [emitGo_cons, List.flatten_cons]
    obtain ⟨hsne, hslow, hsfull, -⟩ := hbs suf hsuf
    rcases List.mem_cons.mp hmem with heqit | hm
    · have hstep : emitStep tbp es a bs ins item
          = (PLine.kv l sect ind key pre sep post v ::
              (insertLoop es (sect, key) sect ind key pre sep post tv ins bs).1,
             (insertLoop es (sect, key) sect ind key pre sep post tv ins bs).2) := by
        rw [← heqit]
        exact emitStep_base_inserts tbp es a bs ins l sect ind key pre sep post v tv
          hsp hval htv htvne
      rcases insertLoop_complete es (sect, key) sect ind key pre sep post tv bs ins
          suf hsuf with h1 | h1 | h1
      · exact Or.inl h1
      · exact Or.inr (Or.inl h1)
      · refine Or.inr (Or.inr ⟨.kv (insLineOf ind key pre sep post tv suf) sect ind
          (key ++ '_' :: suf) pre sep post tv, ?_, ?_⟩)
        · rw [hstep]
          dsimp only
          rw [List.cons_append]
          exact List.mem_cons_of_mem _ (List.mem_append_left _ h1)
        · rw [esEnt_kv, splitLocalizedTextKey_append key suf hval hsfull hslow hsne]
    · rcases ih (emitStep tbp es a bs ins item).2 l sect ind key pre sep post v tv
          hm hsp hval htv htvne suf hsuf with h1 | h1 | ⟨it, hit, he⟩
      · exact Or.inl h1
      · rcases emitStep_cases tbp es a bs ins item with hcase
          | ⟨l2, sect2, ind2, key2, pre2, sep2, post2, v2, b2, suf2, tv2, hitem2,
             hsp2, hprim2, htv2, hne2, heq2⟩
          | ⟨l2, sect2, ind2, key2, pre2, sep2, post2, v2, tv2, hitem2, hsp2, hval2,
             htv2, hne2, heq2⟩
        · rw [hcase] at h1
          exact Or.inr (Or.inl h1)
        · rw [heq2] at h1
          exact Or.inr (Or.inl h1)
        · rw [heq2] at h1
          dsimp only at h1
          rcases insertLoop_state_mem es (sect2, key2) sect2 ind2 key2 pre2 sep2
              post2 tv2 bs ins _ h1 with h2 | ⟨suf2, hsuf2, hx2, hmm2⟩
          · exact Or.inr (Or.inl h2)
          · obtain ⟨hs2ne, hs2low, hs2full, -⟩ := hbs suf2 hsuf2
            refine Or.inr (Or.inr ⟨.kv (insLineOf ind2 key2 pre2 sep2 post2 tv2 suf2)
              sect2 ind2 (key2 ++ '_' :: suf2) pre2 sep2 post2 tv2, ?_, ?_⟩)
            · rw [heq2]
              dsimp only
              rw [List.cons_append]
              exact List.mem_cons_of_mem _ (List.mem_append_left _ hmm2)
            · rw [esEnt_kv,
                splitLocalizedTextKey_append key2 suf2 hval2 hs2full hs2low hs2ne]
              dsimp only
              rw [hx2]
      · exact Or.inr (Or.inr ⟨it, List.mem_append_right _ hit, he⟩)

theorem sourceTextOf_pos (lv : List (SPair × List Char)) (sect key v : List Char)
    (h : pyStrip v ≠ []) : sourceTextOf lv sect key v = pyStrip v := by
  unfold sourceTextOf
  dsimp only
  rw [if_pos (by simpa using h)]

theorem sourceTextOf_neg (lv : List (SPair × List Char)) (sect key v : List Char)
    (h : pyStrip v = []) :
    sourceTextOf lv sect key v = (alookup ((sect, key) : SPair) lv).getD [] := by
  unfold sourceTextOf
  dsimp only
  rw [if_neg (by simpa using h)]

theorem tbpContrib_ne (m : List Char → Option (List Char))
    (lv : List (SPair × List Char)) (p : SPair) (l sect ind key pre : List Char)
    (sep : Char) (post v : List Char) (h : ((sect, key) : SPair) ≠ p) :
    tbpContrib m lv p (.kv l sect ind key pre sep post v) = none := by
  rw [tbpContrib_kv]
  by_cases h1 : isTextKeyValid key = true
  · rw [if_pos h1]
    by_cases h2 : sourceTextOf lv sect key v = []
    · rw [if_pos h2]
    · rw [if_neg h2, if_neg h]
  · rw [if_neg h1]

theorem tbpContrib_lv_transfer (m : List Char → Option (List Char))
    (lv lv2 : List (SPair × List Char)) (p : SPair) (items : List PLine)
    (hm : ∀ s, m s = none ∨ m s = some s)
    (hrel : alookup p lv2 = alookup p lv ∨
      ∃ tvp, (items.filterMap (tbpContrib m lv p)).getLast? = some tvp ∧ tvp ≠ []
        ∧ sanitizeSingleLineValue tvp = tvp ∧ alookup p lv2 = some tvp) :
    (items.filterMap (tbpContrib m lv2 p)).getLast?
      = (items.filterMap (tbpContrib m lv p)).getLast? := by
  rcases hrel with heq | ⟨tvp, hlast, htne, hsan, hlv2⟩
  · rw [fm_congr (tbpContrib m lv p) (tbpContrib m lv2 p) items ?_]
    intro x _
    cases x with
    | raw l => rfl
    | kv l sect ind key pre sep post v =>
      by_cases hpq : ((sect, key) : SPair) = p
      · rw [tbpContrib_kv, tbpContrib_kv]
        by_cases h1 : isTextKeyValid key = true
        · rw [if_pos h1, if_pos h1]
          by_cases hpv : pyStrip v = []
          · rw [sourceTextOf_neg lv2 sect key v hpv, sourceTextOf_neg lv sect key v hpv,
              hpq, heq]
          · rw [sourceTextOf_pos lv2 sect key v hpv, sourceTextOf_pos lv sect key v hpv]
        · rw [if_neg h1, if_neg h1]
      · rw [tbpContrib_ne m lv2 p l sect ind key pre sep post v hpq,
          tbpContrib_ne m lv p l sect ind key pre sep post v hpq]
  · rw [hlast, star_getLast (tbpContrib m lv p) (tbpContrib m lv2 p) tvp items ?_ hlast]
    intro x _
    cases x with
    | raw l => exact ⟨Or.inl rfl, by intro h; exact h⟩
    | kv l sect ind key pre sep post v =>
      by_cases hpq : ((sect, key) : SPair) = p
      · by_cases h1 : isTextKeyValid key = true
        · by_cases hpv : pyStrip v = []
          · have hsrc2 : sourceTextOf lv2 sect key v = tvp := by
              rw [sourceTextOf_neg lv2 sect key v hpv, hpq, hlv2]
              rfl
            have hc2 : tbpContrib m lv2 p (.kv l sect ind key pre sep post v)
                = some tvp := by
              rw [tbpContrib_kv, if_pos h1, hsrc2, if_neg htne, if_pos hpq]
              rcases hm tvp with hh | hh <;> rw [hh]
              · show some (sanitizeSingleLineValue tvp) = _
                rw [hsan]
              · show some (sanitizeSingleLineValue tvp) = _
                rw [hsan]
            exact ⟨Or.inr hc2, by intro _; rw [hc2]; rfl⟩
          · have hss : sourceTextOf lv2 sect key v = sourceTextOf lv sect key v := by
              rw [sourceTextOf_pos lv2 sect key v hpv, sourceTextOf_pos lv sect key v hpv]
            refine ⟨Or.inl ?_, ?_⟩
            · rw [tbpContrib_kv, tbpContrib_kv, hss]
            · rw [tbpContrib_kv, tbpContrib_kv, hss]
              intro h
              exact h
        · refine ⟨Or.inl ?_, ?_⟩
          · rw [tbpContrib_kv, tbpContrib_kv, if_neg h1, if_neg h1]
          · rw [tbpContrib_kv, if_neg h1]
            intro h
            cases h
      · rw [tbpContrib_ne m lv2 p l sect ind key pre sep post v hpq,
          tbpContrib_ne m lv p l sect ind key pre sep post v hpq]
        exact ⟨Or.inl rfl, by intro h; exact h⟩

theorem pyStrip_mem (l : List Char) (c : Char) (h : c ∈ pyStrip l) : c ∈ l := by
  obtain ⟨x, y, hd⟩ := pyStrip_decomp l
  rw [hd]
  simp [h]

theorem getLast?_append_right {α : Type} (A B : List α) (hB : B ≠ []) :
    (A ++ B).getLast? = B.getLast? := by
  induction A with
  | nil => rfl
  | cons a A ih =>
    rw [List.cons_append, getLast?_cons_or, ih]
    obtain ⟨y, hy⟩ := getLast?_isSome_of_ne B hB
    rw [hy]
    rfl

theorem chain_all_kv :
    ∀ (A : List PLine) (sect : List Char) (B : List PLine),
      (∀ e ∈ A, parseLineStep sect e.lineOf = e ∧ opensBlock sect e.lineOf = false ∧
        nextSect sect e.lineOf = sect) →
      chainFrom sect B → chainFrom sect (A ++ B) := by
  intro A
  induction A with
  | nil => intro sect B _ hB; exact hB
  | cons e A ih =>
    intro sect B hA hB
    obtain ⟨h1, h2, h3⟩ := hA e (by simp)
    refine ⟨h1, h2, ?_⟩
    rw [h3]
    exact ih sect B (fun x hx => hA x (by simp [hx])) hB

theorem emitGo_chainFrom (tbp es : List (SPair × List Char)) (a : List Char)
    (bs : List (List Char))
    (hgood : ∀ q w, alookup q tbp = some w → goodVal w)
    (hbs : ∀ suf ∈ bs, suf ≠ [] ∧ lowerL suf = suf ∧
      languageSuffixFullmatch suf = true ∧ (∀ c ∈ suf, c.isAlpha = true ∨ c = '_')) :
    ∀ (items : List PLine) (ins : List (SPair × List Char)) (sect : List Char),
      chainFrom sect items →
      chainFrom sect ((emitGo tbp es a bs ins items).flatten) := by
  intro items
  induction items with
  | nil => intro ins sect _; trivial
  | cons item rest ih =>
    intro ins sect hch
    obtain ⟨h1, h2, h3⟩ := hch
    rw [emitGo_cons, List.flatten_cons]
    rcases emitStep_cases tbp es a bs ins item with hcase
      | ⟨l, sect2, ind, key, pre, sep, post, v, b, suf, tv, hitem, hsp, hprim, htv,
         hne, heq⟩
      | ⟨l, sect2, ind, key, pre, sep, post, v, tv, hitem, hsp, hval, htv, hne, heq⟩
    · rw [hcase]
      dsimp only
      rw [List.singleton_append]
      exact ⟨h1, h2, ih ins (nextSect sect item.lineOf) h3⟩
    · subst hitem
      rw [heq]
      dsimp only
      rw [List.singleton_append]
      simp only [PLine.lineOf] at h1 h3
      obtain ⟨-, rfl, hcb, hsh, kr, hmkv, hkeq⟩ :=
        parseLineStep_kv_inv sect l l sect2 ind key pre sep post v h1
      obtain ⟨-, hindw, hprew, hpostw, hsepd, hkrd, -⟩ := matchKV_inv l _ hmkv
      obtain ⟨w, hkw, hbval, -, -, -, hbne⟩ := splitLocalizedTextKey_inv key b suf hsp
      obtain ⟨c0, cs0, hbc, hcal⟩ := validKey_head b hbval
      obtain ⟨htvne, htps, httrip, -⟩ := hgood _ tv htv
      have hkd : ∀ c ∈ key, c ≠ ':' ∧ c ≠ '=' := by
        intro c hc
        refine hkrd c ?_
        rw [hkeq] at hc
        exact pyStrip_mem kr c hc
      have hkh : ∀ c cs, key = c :: cs →
          isPySpace c = false ∧ c ≠ '#' ∧ c ≠ ';' ∧ c ≠ '[' := by
        intro c cs hkc
        have hcc : c = c0 := by
          rw [hkw, hbc] at hkc
          rw [List.cons_append] at hkc
          injection hkc with hc1 _
          exact hc1.symm
        rw [hcc]
        exact headOK c0 hcal
      have hkl : ∀ c, key.getLast? = some c → isPySpace c = false := by
        intro c hc
        rw [hkeq] at hc
        exact pyStrip_last kr c hc
      have hkne : key ≠ [] := by rw [hkw]; simp
      have hvh : ∀ c cs, tv = c :: cs → isPySpace c = false := by
        intro c cs hc
        exact pyStrip_head tv c cs (by rw [htps]; exact hc)
      have hvl : ∀ c, tv.getLast? = some c → isPySpace c = false := by
        intro c hc
        exact pyStrip_last tv c (by rw [htps]; exact hc)
      obtain ⟨hpls, hob, hns⟩ := kv_chain_step sect2 ind key pre sep post tv
        hindw hprew hpostw hsepd hkd hkh hkl hkne hvh hvl htvne httrip
      refine ⟨hpls, hob, ?_⟩
      show chainFrom (nextSect sect2 (ind ++ key ++ pre ++ sep :: post ++ tv)) _
      rw [hns]
      have hns0 : nextSect sect2 l = sect2 := nextSect_not_special sect2 l hcb hsh
      rw [hns0] at h3
      exact ih ins sect2 h3
    · subst hitem
      rw [heq]
      dsimp only
      rw [List.cons_append]
      simp only [PLine.lineOf] at h1 h2 h3
      obtain ⟨-, rfl, hcb, hsh, kr, hmkv, hkeq⟩ :=
        parseLineStep_kv_inv sect l l sect2 ind key pre sep post v h1
      obtain ⟨-, hindw, hprew, hpostw, hsepd, hkrd, -⟩ := matchKV_inv l _ hmkv
      obtain ⟨c0, cs0, hkc0, hcal⟩ := validKey_head key hval
      obtain ⟨htvne, htps, httrip, -⟩ := hgood _ tv htv
      have hkd : ∀ c ∈ key, c ≠ ':' ∧ c ≠ '=' := by
        intro c hc
        refine hkrd c ?_
        rw [hkeq] at hc
        exact pyStrip_mem kr c hc
      have hvh : ∀ c cs, tv = c :: cs → isPySpace c = false := by
        intro c cs hc
        exact pyStrip_head tv c cs (by rw [htps]; exact hc)
      have hvl : ∀ c, tv.getLast? = some c → isPySpace c = false := by
        intro c hc
        exact pyStrip_last tv c (by rw [htps]; exact hc)
      have hns0 : nextSect sect2 l = sect2 := nextSect_not_special sect2 l hcb hsh
      refine ⟨h1, h2, ?_⟩
      show chainFrom (nextSect sect2 l) _
      rw [hns0]
      rw [hns0] at h3
      refine chain_all_kv _ sect2 _ ?_
        (ih (insertLoop es (sect2, key) sect2 ind key pre sep post tv ins bs).2 sect2 h3)
      intro e he
      obtain ⟨suf, hsuf, rfl⟩ :=
        insertLoop_out_mem es (sect2, key) sect2 ind key pre sep post tv bs ins e he
      obtain ⟨hsne, hslow, hsfull, hschar⟩ := hbs suf hsuf
      have hkd2 : ∀ c ∈ key ++ '_' :: suf, c ≠ ':' ∧ c ≠ '=' := by
        intro c hc
        rcases List.mem_append.mp hc with hcm | hcm
        · exact hkd c hcm
        · rcases List.mem_cons.mp hcm with rfl | hcm2
          · exact ⟨by decide, by decide⟩
          · rcases hschar c hcm2 with ha | rfl
            · obtain ⟨-, hx1, hx2, -⟩ := isAlpha_props c ha
              exact ⟨hx1, hx2⟩
            · exact ⟨by decide, by decide⟩
      have hkh2 : ∀ c cs, key ++ '_' :: suf = c :: cs →
          isPySpace c = false ∧ c ≠ '#' ∧ c ≠ ';' ∧ c ≠ '[' := by
        intro c cs hkc
        have hcc : c = c0 := by
          rw [hkc0, List.cons_append] at hkc
          injection hkc with hc1 _
          exact hc1.symm
        rw [hcc]
        exact headOK c0 hcal
      have hkl2 : ∀ c, (key ++ '_' :: suf).getLast? = some c → isPySpace c = false := by
        intro c hc
        rw [getLast?_append_right key ('_' :: suf) (by simp), getLast?_cons_or] at hc
        obtain ⟨y, hy⟩ := getLast?_isSome_of_ne suf hsne
        rw [hy] at hc
        injection hc with hc2
        have hym : y ∈ suf := getLast?_mem suf y hy
        rw [← hc2]
        rcases hschar y hym with ha | rfl
        · exact (isAlpha_props y ha).1
        · rfl
      have hkne2 : key ++ '_' :: suf ≠ [] := by simp
      obtain ⟨hpls, hob, hns⟩ := kv_chain_step sect2 ind (key ++ '_' :: suf) pre sep
        post tv hindw hprew hpostw hsepd hkd2 hkh2 hkl2 hkne2 hvh hvl htvne httrip
      refine ⟨?_, ?_, ?_⟩
      · show parseLineStep sect2 (insLineOf ind key pre sep post tv suf) = _
        show parseLineStep sect2 (ind ++ (key ++ '_' :: suf) ++ pre ++ sep :: post ++ tv)
          = _
        exact hpls
      · show opensBlock sect2 (insLineOf ind key pre sep post tv suf) = false
        exact hob
      · show nextSect sect2 (insLineOf ind key pre sep post tv suf) = sect2
        exact hns

theorem emitGo_map_sing (T E : List (SPair × List Char)) (a : List Char)
    (bs : List (List Char)) :
    ∀ (A : List PLine) (j : List (SPair × List Char)),
      (∀ e ∈ A, ∀ j2, emitStep T E a bs j2 e = ([e], j2)) →
      emitGo T E a bs j A = A.map (fun e => [e]) := by
  intro A
  induction A with
  | nil => intro j _; rfl
  | cons e A ih =>
    intro j hall
    rw [emitGo_cons, hall e (by simp) j]
    dsimp only
    rw [List.map_cons, ih j (fun x hx j2 => hall x (by simp [hx]) j2)]

theorem emitGo_run2_echo (tbp tbp2 es es2 : List (SPair × List Char))
    (a : List Char) (bs : List (List Char))
    (heq : ∀ q, alookup q tbp2 = alookup q tbp)
    (hbs : ∀ suf ∈ bs, suf ≠ [] ∧ lowerL suf = suf ∧
      languageSuffixFullmatch suf = true ∧ (∀ c ∈ suf, c.isAlpha = true ∨ c = '_'))
    (items0 : List PLine)
    (hes2 : ∀ (l sect ind key pre : List Char) (sep : Char) (post v tv : List Char),
      (.kv l sect ind key pre sep post v) ∈ items0 →
      splitLocalizedTextKey key = none → isTextKeyValid key = true →
      alookup ((sect, key) : SPair) tbp = some tv → tv ≠ [] →
      ∀ suf ∈ bs, (((sect, key) : SPair), suf) ∈ es2) :
    ∀ (items : List PLine) (ins : List (SPair × List Char)),
      (∀ x ∈ items, x ∈ items0) →
      ∀ e ∈ (emitGo tbp es a bs ins items).flatten, ∀ j,
        emitStep tbp2 es2 a bs j e = ([e], j) := by
  intro items
  induction items with
  | nil => intro ins _ e he; cases he
  | cons item rest ih =>
    intro ins hsub e he j
    rw [emitGo_cons, List.flatten_cons] at he
    rcases emitStep_cases tbp es a bs ins item with hcase
      | ⟨l, sect, ind, key, pre, sep, post, v, b, suf, tv, hitem, hsp, hprim, htv,
         hne, heq1⟩
      | ⟨l, sect, ind, key, pre, sep, post, v, tv, hitem, hsp, hval, htv, hne, heq1⟩
    · rw [hcase] at he
      dsimp only at he
      rw [List.singleton_append] at he
      rcases List.mem_cons.mp he with rfl | hm
      · cases e with
        | raw l2 => exact emitStep_raw tbp2 es2 a bs j l2
        | kv l2 sect2 ind2 key2 pre2 sep2 post2 v2 =>
          cases hsp2 : splitLocalizedTextKey key2 with
          | some bsuf =>
            obtain ⟨b2, suf2⟩ := bsuf
            by_cases hprim2 : normalizeLanguageSuffix suf2 suf2 = a
            · cases htv2 : alookup ((sect2, b2) : SPair) tbp with
              | none =>
                exact emitStep_localized_noneTv tbp2 es2 a bs j l2 sect2 ind2 key2
                  pre2 sep2 post2 v2 b2 suf2 hsp2 (by rw [heq]; exact htv2)
              | some tv2 =>
                by_cases hne2 : tv2 = []
                · subst hne2
                  exact emitStep_localized_emptyTv tbp2 es2 a bs j l2 sect2 ind2 key2
                    pre2 sep2 post2 v2 b2 suf2 hsp2 (by rw [heq]; exact htv2)
                · have h1run := emitStep_localized_target tbp es a bs ins l2 sect2
                    ind2 key2 pre2 sep2 post2 v2 b2 suf2 tv2 hsp2 hprim2 htv2 hne2
                  rw [hcase] at h1run
                  injection h1run with hfst hsnd
                  injection hfst with hhd htl
                  injection hhd with e1 e2 e3 e4 e5 e6 e7 e8
                  rw [emitStep_localized_target tbp2 es2 a bs j l2 sect2 ind2 key2
                    pre2 sep2 post2 v2 b2 suf2 tv2 hsp2 hprim2
                    (by rw [heq]; exact htv2) hne2, e1, e8]
            · exact emitStep_localized_nontarget tbp2 es2 a bs j l2 sect2 ind2 key2
                pre2 sep2 post2 v2 b2 suf2 hsp2 hprim2
          | none =>
            by_cases hval2 : isTextKeyValid key2 = true
            · cases htv2 : alookup ((sect2, key2) : SPair) tbp with
              | none =>
                exact emitStep_base_noneTv tbp2 es2 a bs j l2 sect2 ind2 key2 pre2
                  sep2 post2 v2 hsp2 (by rw [heq]; exact htv2)
              | some tv2 =>
                by_cases hne2 : tv2 = []
                · subst hne2
                  exact emitStep_base_emptyTv tbp2 es2 a bs j l2 sect2 ind2 key2 pre2
                    sep2 post2 v2 hsp2 (by rw [heq]; exact htv2)
                · rw [emitStep_base_inserts tbp2 es2 a bs j l2 sect2 ind2 key2 pre2
                    sep2 post2 v2 tv2 hsp2 hval2 (by rw [heq]; exact htv2) hne2,
                    insertLoop_all_skip es2 (sect2, key2) sect2 ind2 key2 pre2 sep2
                      post2 tv2 bs j
                      (fun s hs => hes2 l2 sect2 ind2 key2 pre2 sep2 post2 v2 tv2
                        (hsub _ (by simp)) hsp2 hval2 htv2 hne2 s hs)]
            · exact emitStep_plain_kv tbp2 es2 a bs j l2 sect2 ind2 key2 pre2 sep2
                post2 v2 hsp2
                (by revert hval2; cases isTextKeyValid key2 <;> simp)
      · exact ih ins (fun x hx => hsub x (by simp [hx])) e hm j
    · subst hitem
      rw [heq1] at he
      dsimp only at he
      rw [List.singleton_append] at he
      rcases List.mem_cons.mp he with rfl | hm
      · exact emitStep_localized_target tbp2 es2 a bs j
          (ind ++ key ++ pre ++ sep :: post ++ tv) sect ind key pre sep post tv b
          suf tv hsp hprim (by rw [heq]; exact htv) hne
      · exact ih (emitStep tbp es a bs ins
            (.kv l sect ind key pre sep post v)).2
          (fun x hx => hsub x (by simp [hx])) e (by rw [heq1]; exact hm) j
    · subst hitem
      rw [heq1] at he
      dsimp only at he
      rw [List.cons_append] at he
      rcases List.mem_cons.mp he with rfl | hm
      · rw [emitStep_base_inserts tbp2 es2 a bs j l sect ind key pre sep post v tv
          hsp hval (by rw [heq]; exact htv) hne,
          insertLoop_all_skip es2 (sect, key) sect ind key pre sep post tv bs j
            (fun s hs => hes2 l sect ind key pre sep post v tv (hsub _ (by simp))
              hsp hval htv hne s hs)]
      · rcases List.mem_append.mp hm with hm2 | hm2
        · obtain ⟨suf2, hsuf2, rfl⟩ := insertLoop_out_mem es (sect, key) sect ind key
            pre sep post tv bs ins e hm2
          obtain ⟨hs2ne, hs2low, hs2full, -⟩ := hbs suf2 hsuf2
          have hsplit2 : splitLocalizedTextKey (key ++ '_' :: suf2)
              = some (key, suf2) :=
            splitLocalizedTextKey_append key suf2 hval hs2full hs2low hs2ne
          by_cases hprim2 : normalizeLanguageSuffix suf2 suf2 = a
          · show emitStep tbp2 es2 a bs j
              (.kv (ind ++ (key ++ '_' :: suf2) ++ pre ++ sep :: post ++ tv) sect ind
                (key ++ '_' :: suf2) pre sep post tv) = _
            rw [emitStep_localized_target tbp2 es2 a bs j
              (ind ++ (key ++ '_' :: suf2) ++ pre ++ sep :: post ++ tv) sect ind
              (key ++ '_' :: suf2) pre sep post tv key suf2 tv hsplit2 hprim2
              (by rw [heq]; exact htv) hne]
            rfl
          · exact emitStep_localized_nontarget tbp2 es2 a bs j _ sect ind
              (key ++ '_' :: suf2) pre sep post tv key suf2 hsplit2 hprim2
        · exact ih (emitStep tbp es a bs ins
              (.kv l sect ind key pre sep post v)).2
            (fun x hx => hsub x (by simp [hx])) e (by rw [heq1]; exact hm2) j

/-- C6: the structure-preserving rewriter is idempotent when the translator
mapping is a passthrough, no input line contains `"""`, and no input line
contains a CR or LF character (the domain `splitlines` produces): a second
run on the output with the same target language reproduces the output line
for line. -/
theorem c6_rewriter_idempotent_on_quote_free_single_line_files
    (lines : List (List Char)) (m : List Char → Option (List Char))
    (tgt : List Char)
    (hm : ∀ s, m s = none ∨ m s = some s)
    (hq : ∀ l ∈ lines, hasTriple l = false)
    (hcr : ∀ l ∈ lines, ∀ c ∈ l, c ≠ '\r' ∧ c ≠ '\n') :
    translateFilePreserveStructure (translateFilePreserveStructure lines m tgt)
        m tgt
      = translateFilePreserveStructure lines m tgt := by
  set a := (resolveTargetLanguage tgt).2 with hadef
  set bs := resolveTargetLanguageSuffixes tgt with hbsdef
  set items := parsedOf lines with hitemsdef
  set lv := lvFold items with hlvdef
  set tbp := tbpFold m lv items with htbpdef
  set es := esFold items with hesdef
  have hchain : chainFrom [] items := parseAux_chainFrom lines [] hq
  have hvf : ∀ item ∈ items, kvValFacts item := parsed_kvValFacts lines hq hcr
  have haccnil : ∀ (q : SPair) (w : List Char),
      alookup q ([] : List (SPair × List Char)) = some w → goodVal w := by
    intro q w h
    exact Option.noConfusion h
  have hlvgood : ∀ q w, alookup q lv = some w → goodVal w :=
    lv_values_good items [] hvf haccnil
  have htbpgood : ∀ q w, alookup q tbp = some w → goodVal w :=
    tbp_values_good m lv hm hlvgood items [] hvf haccnil
  have hbsf := target_suffix_props tgt
  have hchainO : chainFrom [] ((emitGo tbp es a bs [] items).flatten) :=
    emitGo_chainFrom tbp es a bs htbpgood hbsf items [] [] hchain
  have hreparse : parsedOf (((emitGo tbp es a bs [] items).flatten).map
        PLine.lineOf)
      = (emitGo tbp es a bs [] items).flatten :=
    chainFrom_parseAux _ [] hchainO
  set Oflat := (emitGo tbp es a bs [] items).flatten with hOdef
  set lv2 := lvFold Oflat with hlv2def
  set tbp2 := tbpFold m lv2 Oflat with htbp2def
  set es2 := esFold Oflat with hes2def
  have hor : ∀ (x : Option (List Char)), x.or none = x := by
    intro x
    cases x <;> rfl
  have heqp : ∀ q, alookup q tbp2 = alookup q tbp := by
    intro p
    have hA : alookup p tbp2
        = ((Oflat.filterMap (tbpContrib m lv2 p)).getLast?).or
            (alookup p ([] : List (SPair × List Char))) :=
      tbpFold_eq m lv2 Oflat [] p
    have hB : alookup p tbp
        = ((items.filterMap (tbpContrib m lv p)).getLast?).or
            (alookup p ([] : List (SPair × List Char))) :=
      tbpFold_eq m lv items [] p
    have hnil : alookup p ([] : List (SPair × List Char)) = none := rfl
    rw [hnil, hor] at hA hB
    have hcol : Oflat.filterMap (tbpContrib m lv2 p)
        = items.filterMap (tbpContrib m lv2 p) :=
      emitGo_tbpContrib_collapse m lv2 tbp es a bs items [] p
    have hlvA : alookup p lv2 = (Oflat.filterMap (lvEntry p)).head? :=
      lvFold_eq Oflat [] p
    have hlvB : alookup p lv = (items.filterMap (lvEntry p)).head? :=
      lvFold_eq items [] p
    have hlvh := emitGo_lvEntry_head tbp es a bs htbpgood hbsf items [] p
    have hrel : alookup p lv2 = alookup p lv ∨
        ∃ tvp, (items.filterMap (tbpContrib m lv p)).getLast? = some tvp
          ∧ tvp ≠ [] ∧ sanitizeSingleLineValue tvp = tvp
          ∧ alookup p lv2 = some tvp := by
      rcases hlvh with h1 | ⟨tv, hatv, htvne, hH2⟩
      · exact Or.inl (by rw [hlvA, hlvB, h1])
      · refine Or.inr ⟨tv, ?_, htvne, (htbpgood p tv hatv).2.2.2,
          by rw [hlvA]; exact hH2⟩
        rw [hB] at hatv
        exact hatv
    rw [hA, hcol, tbpContrib_lv_transfer m lv lv2 p items hm hrel, ← hB]
  have hes2cov : ∀ (l sect ind key pre : List Char) (sep : Char)
      (post v tv : List Char),
      (.kv l sect ind key pre sep post v) ∈ items →
      splitLocalizedTextKey key = none → isTextKeyValid key = true →
      alookup ((sect, key) : SPair) tbp = some tv → tv ≠ [] →
      ∀ suf ∈ bs, (((sect, key) : SPair), suf) ∈ es2 := by
    intro l sect ind key pre sep post v tv hmem hsp hval htv htvne suf hsuf
    have hcov := emitGo_insert_covered tbp es a bs hbsf items [] l sect ind key
      pre sep post v tv hmem hsp hval htv htvne suf hsuf
    have hmem2 : ∃ it ∈ Oflat, esEnt it = some (((sect, key) : SPair), suf) := by
      rcases hcov with h1 | h1 | h1
      · have h2 := (esFold_mem items [] _).mp h1
        rcases h2 with h3 | ⟨it, hit, he⟩
        · cases h3
        · exact emitGo_es_preserved tbp es a bs items [] it _ hit he
      · cases h1
      · exact h1
    obtain ⟨it, hit, he⟩ := hmem2
    exact (esFold_mem Oflat [] _).mpr (Or.inr ⟨it, hit, he⟩)
  have hall : ∀ e ∈ Oflat, ∀ j, emitStep tbp2 es2 a bs j e = ([e], j) :=
    emitGo_run2_echo tbp tbp2 es es2 a bs heqp hbsf items hes2cov items []
      (fun x hx => hx)
  have hsame : emitGo tbp2 es2 a bs [] Oflat = Oflat.map (fun e => [e]) :=
    emitGo_map_sing tbp2 es2 a bs Oflat [] hall
  have hout : translateFilePreserveStructure lines m tgt
      = Oflat.map PLine.lineOf := rfl
  rw [hout]
  show ((processChunks (Oflat.map PLine.lineOf) m tgt).flatten).map PLine.lineOf
    = Oflat.map PLine.lineOf
  have hpc : processChunks (Oflat.map PLine.lineOf) m tgt
      = emitGo (tbpFold m (lvFold (parsedOf (Oflat.map PLine.lineOf)))
          (parsedOf (Oflat.map PLine.lineOf)))
        (esFold (parsedOf (Oflat.map PLine.lineOf))) a bs []
        (parsedOf (Oflat.map PLine.lineOf)) := rfl
  rw [hpc, hreparse]
  show ((emitGo tbp2 es2 a bs [] Oflat).flatten).map PLine.lineOf
    = Oflat.map PLine.lineOf
  rw [hsame, flatten_singletons]

theorem c6_witness :
    (∀ s : List Char, some s = none ∨ some s = some s)
    ∧ (∀ l ∈ [S "text: hello", S "[core]", S "speed=3"], hasTriple l = false)
    ∧ translateFilePreserveStructure
        (translateFilePreserveStructure [S "text: hello", S "[core]", S "speed=3"]
          some (S "zh")) some (S "zh")
      = translateFilePreserveStructure [S "text: hello", S "[core]", S "speed=3"]
          some (S "zh") :=
  ⟨fun s => Or.inr rfl, by decide,
    c6_rewriter_idempotent_on_quote_free_single_line_files
      [S "text: hello", S "[core]", S "speed=3"] some (S "zh")
      (fun s => Or.inr rfl) (by decide) (by decide)⟩

theorem c6_counterexample :
    translateFilePreserveStructure
        (translateFilePreserveStructure [S "text: a\"\"\"b", S "c\"\"\""] some
          (S "zh")) some (S "zh")
      ≠ translateFilePreserveStructure [S "text: a\"\"\"b", S "c\"\"\""] some
          (S "zh") := by
  decide
